import Mathlib

/-!
# json5.hpp: the value model and the recursive-descent parser

A shallow embedding of `src/include/json5/json5.hpp`.

* A `char` of the input buffer is a `Char`; the classification functions of
  `<cctype>` are those of the "C" locale.
* A cursor (`const char** p`) is the list of characters of the buffer from the
  cursor position to the end of the buffer, the terminating NUL included.  The
  empty list is the position one past the terminator: reading there is a read
  outside the buffer, recorded as `Outcome.fault`.
* The loops `while (true)` of `parse_array` and `parse_object` and the recursion
  of `parse_value` are driven by a fuel counter that decreases at every call;
  `Outcome.timeout` is the answer of a run that used up its fuel.
-/

namespace json5

/-! ## Characters -/

/-- The terminator of a C string. -/
def NUL : Char := Char.ofNat 0

/-- `isdigit` of `<cctype>`: the characters `0` to `9`. -/
def isdigit (c : Char) : Bool := decide (48 ≤ c.toNat ∧ c.toNat ≤ 57)

/-- `isxdigit` of `<cctype>`: `0`-`9`, `a`-`f`, `A`-`F`. -/
def isxdigit (c : Char) : Bool :=
  isdigit c || decide (97 ≤ c.toNat ∧ c.toNat ≤ 102) || decide (65 ≤ c.toNat ∧ c.toNat ≤ 70)

/-- `isalpha` of `<cctype>` in the "C" locale: `a`-`z`, `A`-`Z`. -/
def isalpha (c : Char) : Bool :=
  decide (97 ≤ c.toNat ∧ c.toNat ≤ 122) || decide (65 ≤ c.toNat ∧ c.toNat ≤ 90)

/-- `isspace` of `<cctype>` in the "C" locale: space, `\t`, `\n`, `\v`, `\f`, `\r`. -/
def isspace (c : Char) : Bool := decide (c.toNat = 32 ∨ (9 ≤ c.toNat ∧ c.toNat ≤ 13))

/-! ## Outcomes of a run -/

/-- What a run of a routine produces: a result, a read outside the buffer, or
no answer within the fuel given. -/
inductive Outcome (α : Type) where
  | done (a : α)
  | fault
  | timeout

namespace Outcome

/-- Sequencing: the second step runs on the result of the first. -/
def bind {α β : Type} (x : Outcome α) (f : α → Outcome β) : Outcome β :=
  match x with
  | done a => f a
  | fault => fault
  | timeout => timeout

instance : Monad Outcome where
  pure := Outcome.done
  bind := Outcome.bind

end Outcome

/-! ## The value model -/

/-- The payload of the float variant (`number_type`, a `double`).  The three
kinds of value the parser stores are kept symbolic: a quiet NaN (negated or
not), an infinity (negative or not), and the result of `strtod` on the C string
at a given place. -/
inductive NumberFloat where
  | quiet_NaN (negated : Bool)
  | infinity (negative : Bool)
  | strtod (text : List Char)

namespace NumberFloat

/-- `std::isnan`. -/
def isnan : NumberFloat → Bool
  | quiet_NaN _ => true
  | _ => false

/-- `std::isinf`. -/
def isinf : NumberFloat → Bool
  | infinity _ => true
  | _ => false

end NumberFloat

/-- The variant `json_value`: `null_type`, `boolean_type`, `string_type`,
`number_type`, `int_type`, `object_type` (a `std::map`, kept as the list of its
entries in key order) and `array_type` (a `std::vector`). -/
inductive Value where
  | null
  | boolean (b : Bool)
  | string (s : List Char)
  | number (x : NumberFloat)
  | integer (n : Int)
  | object (m : List (List Char × Value))
  | array (a : List Value)

/-- `basic_json_value() = default`: the member `json_value _value` is
default-constructed, and a `std::variant` then holds its first alternative,
`null_type`. -/
instance : Inhabited Value := ⟨Value.null⟩

namespace Value

def is_null : Value → Bool
  | null => true
  | _ => false

def is_boolean : Value → Bool
  | boolean _ => true
  | _ => false

def is_number_integer : Value → Bool
  | integer _ => true
  | _ => false

def is_number : Value → Bool
  | number _ => true
  | _ => false

def is_string : Value → Bool
  | string _ => true
  | _ => false

def is_object : Value → Bool
  | object _ => true
  | _ => false

def is_array : Value → Bool
  | array _ => true
  | _ => false

/-- `size()`: the number of elements of an array or of members of an object,
0 for every other variant. -/
def size : Value → Nat
  | array a => a.length
  | object m => m.length
  | _ => 0

end Value

/-! ## The object container (`std::map<std::string, value_type>`) -/

/-- `std::less<std::string>`: lexicographic comparison of the characters. -/
def key_less : List Char → List Char → Bool
  | [], [] => false
  | [], _ :: _ => true
  | _ :: _, [] => false
  | a :: as, b :: bs =>
    if a.toNat < b.toNat then true
    else if b.toNat < a.toNat then false
    else key_less as bs

/-- `std::map::emplace(key, value)`: the entry is inserted at its place in key
order when the key is absent, and nothing changes when it is present.  The
second component is the `success` flag. -/
def map_emplace : List (List Char × Value) → List Char → Value →
    List (List Char × Value) × Bool
  | [], key, value => ([(key, value)], true)
  | (k, v) :: rest, key, value =>
    if key = k then ((k, v) :: rest, false)
    else if key_less key k then ((key, value) :: (k, v) :: rest, true)
    else ((k, v) :: (map_emplace rest key value).1, (map_emplace rest key value).2)

/-- Writing through `it->second`: the value mapped to `key` is replaced. -/
def map_assign : List (List Char × Value) → List Char → Value → List (List Char × Value)
  | [], _, _ => []
  | (k, v) :: rest, key, value =>
    if key = k then (k, value) :: rest else (k, v) :: map_assign rest key value

/-- `std::map::find`: the value mapped to `key`, if any. -/
def map_find : List (List Char × Value) → List Char → Option Value
  | [], _ => none
  | (k, v) :: rest, key => if key = k then some v else map_find rest key

/-! ## Element access -/

/-- The result of an accessor that can throw `std::out_of_range`. -/
inductive Access where
  | value (v : Value)
  | out_of_range

namespace Value

/-- `at(const key_type& key)`: `std::map::at` on an object, which throws
`std::out_of_range` for an absent key; Null on every other variant. -/
def at_key : Value → List Char → Access
  | object m, key =>
    match map_find m key with
    | some v => Access.value v
    | none => Access.out_of_range
  | _, _ => Access.value null

/-- `operator[](const key_type& key)`: calls `at(key)`. -/
def index_key (v : Value) (key : List Char) : Access := at_key v key

end Value

/-! ## The C library routines the parser calls -/

/-- The test `strncmp(p, lit, n) == 0`, `lit` being the characters of a string
literal (its terminator left implicit): at most `n` characters are compared and
the comparison stops at the first difference or at a terminator. -/
def strncmp_eq : List Char → List Char → Nat → Outcome Bool
  | _, _, 0 => .done true
  | [], _, _ + 1 => .fault
  | c :: _, [], _ + 1 => .done (c == NUL)
  | c :: p, l :: lit, n + 1 =>
    if c != l then .done false
    else if c == NUL then .done true
    else strncmp_eq p lit n

/-- The value of a character as a digit of `strtoll`: `0`-`9`, then the letters
of either case from 10 on. -/
def digit_value (c : Char) : Option Nat :=
  if isdigit c then some (c.toNat - 48)
  else if 97 ≤ c.toNat ∧ c.toNat ≤ 122 then some (c.toNat - 97 + 10)
  else if 65 ≤ c.toNat ∧ c.toNat ≤ 90 then some (c.toNat - 65 + 10)
  else none

/-- The digit run of `strtoll`: the value accumulated over the longest run of
digits of the base. -/
def strtoll_digits (base : Nat) : List Char → Nat → Nat
  | [], acc => acc
  | c :: rest, acc =>
    match digit_value c with
    | some d => if d < base then strtoll_digits base rest (acc * base + d) else acc
    | none => acc

/-- `strtoll(nptr, &end, base)` of the C library for base 10 and base 16, `nptr`
being the buffer from the start of the text: leading white space, an optional
sign, for base 16 an optional `0x` or `0X` in front of a hexadecimal digit, then
the digit run; no digits give 0, and a value outside `long long` is clamped to
`LLONG_MIN` or `LLONG_MAX`. -/
def strtoll (nptr : List Char) (base : Nat) : Int :=
  let s := nptr.dropWhile isspace
  let negative := s.head? == some '-'
  let s := if s.head? == some '-' || s.head? == some '+' then s.tail else s
  let s :=
    if base == 16 then
      match s with
      | z :: x :: h :: r =>
        if z == '0' && (x == 'x' || x == 'X') && isxdigit h then h :: r else s
      | _ => s
    else s
  let m := strtoll_digits base s 0
  if negative then (if 2 ^ 63 < m then -(2 ^ 63 : Int) else -(m : Int))
  else (if 2 ^ 63 - 1 < m then (2 ^ 63 - 1 : Int) else (m : Int))

/-- The C string at a place of the buffer: the characters up to the terminator. -/
def c_str (p : List Char) : List Char := p.takeWhile (fun c => c != NUL)

/-! ## The parser -/

/-- `detail::is_escape(p)`: a backslash followed by one of `b f n r t v`. -/
def is_escape : List Char → Bool
  | c :: d :: _ =>
    c == '\\' && (d == 'b' || d == 'f' || d == 'n' || d == 'r' || d == 't' || d == 'v')
  | _ => false

/-- `skip_spaces_and_comments(p)`:
`do { if (!isspace(**p)) break; (*p)++; } while (**p);` -/
def skip_spaces_and_comments : List Char → Outcome (List Char)
  | [] => .fault
  | c :: rest =>
    if !isspace c then .done (c :: rest)
    else
      match rest with
      | [] => .fault
      | d :: _ => if d == NUL then .done rest else skip_spaces_and_comments rest

/-- The loop `while (*e) { ... }` of `parse_string`, on the scan pointer `e` and
the text `res` copied so far; it ends on the terminator or on the closing quote
and returns the final `e` with `res`. -/
def parse_string_scan (quote : Char) : List Char → List Char → Outcome (List Char × List Char)
  | [], _ => .fault
  | [c], res =>
    if c == NUL then .done ([c], res)
    else if c == '\\' then .fault
    else if c == quote then .done ([c], res)
    else parse_string_scan quote [] (res ++ [c])
  | c :: d :: rest, res =>
    if c == NUL then .done (c :: d :: rest, res)
    else if c == '\\' && d == quote then parse_string_scan quote rest res
    else if is_escape (c :: d :: rest) then parse_string_scan quote (d :: rest) (res ++ [c])
    else if c == quote then .done (c :: d :: rest, res)
    else parse_string_scan quote (d :: rest) (res ++ [c])

/-- `parse_string(p, value)`: the first character is the quote, the scan starts
after it, `value` becomes the text copied and the cursor is set to `e + 1`. -/
def parse_string (p : List Char) (_value : Value) : Outcome (List Char × Value) :=
  match p with
  | [] => .fault
  | quote :: b =>
    match parse_string_scan quote b [] with
    | .done (e, res) => .done (e.tail, Value.string res)
    | .fault => .fault
    | .timeout => .timeout

/-- `parse_boolean(p, value)`. -/
def parse_boolean (p : List Char) (value : Value) : Outcome (List Char × Value) := do
  if ← strncmp_eq p "true".toList 4 then
    return (p.drop 4, Value.boolean true)
  else if ← strncmp_eq p "false".toList 5 then
    return (p.drop 5, Value.boolean false)
  else
    return (p, value)

/-- `parse_null(p, value)`. -/
def parse_null (p : List Char) (value : Value) : Outcome (List Char × Value) := do
  if ← strncmp_eq p "null".toList 4 then
    return (p.drop 4, Value.null)
  else
    return (p, value)

/-- The loop `do { ... (*p)++; } while (isdigit(**p) || isxdigit(**p) || (**p == '.') || (**p == 'x'))`
of `parse_number`, on the cursor, `is_float_point` and `base`. -/
def parse_number_scan : List Char → Bool → Nat → Outcome (List Char × Bool × Nat)
  | [], _, _ => .fault
  | c :: rest, is_float_point, base =>
    let is_float_point := if c == '.' then true else is_float_point
    let base := if c == 'x' || c == 'X' then 16 else base
    match rest with
    | [] => .fault
    | d :: _ =>
      if isdigit d || isxdigit d || d == '.' || d == 'x' then
        parse_number_scan rest is_float_point base
      else .done (rest, is_float_point, base)

/-- `parse_number(p, value)`: the six special literals first, then the scan and
the conversion by `strtod` or `strtoll` from the start of the token. -/
def parse_number (p : List Char) (_value : Value) : Outcome (List Char × Value) := do
  if ← strncmp_eq p "NaN".toList 3 then
    return (p.drop 3, Value.number (NumberFloat.quiet_NaN false))
  else if ← strncmp_eq p "+NaN".toList 4 then
    return (p.drop 4, Value.number (NumberFloat.quiet_NaN false))
  else if ← strncmp_eq p "-NaN".toList 4 then
    return (p.drop 4, Value.number (NumberFloat.quiet_NaN true))
  else if ← strncmp_eq p "Infinity".toList 8 then
    return (p.drop 8, Value.number (NumberFloat.infinity false))
  else if ← strncmp_eq p "+Infinity".toList 9 then
    return (p.drop 9, Value.number (NumberFloat.infinity false))
  else if ← strncmp_eq p "-Infinity".toList 9 then
    return (p.drop 9, Value.number (NumberFloat.infinity true))
  else
    let start := p
    match p with
    | [] => .fault
    | c :: _ =>
      let (p, is_float_point, base) ←
        (if c == '-' || c == '+' || c == '.' || isdigit c then parse_number_scan p false 10
         else Outcome.done (p, false, 10))
      if is_float_point then
        return (p, Value.number (NumberFloat.strtod (c_str start)))
      else
        return (p, Value.integer (strtoll start base))

/-- The loop `do { (*p)++; } while (**p && (**p == '_' || isalpha(**p) || isdigit(**p)))`
of `parse_key`, after its first increment: `key` is the text between `b` and the
cursor. -/
def parse_key_ident : List Char → List Char → Outcome (List Char × List Char)
  | [], _ => .fault
  | c :: rest, key =>
    if c != NUL && (c == '_' || isalpha c || isdigit c) then parse_key_ident rest (key ++ [c])
    else .done (key, c :: rest)

/-- The loop `while (**p) { if (!isspace(**p) || **p == ':') break; (*p)++; }`
of `parse_key`. -/
def parse_key_spaces : List Char → List Char → Outcome (List Char × List Char)
  | [], _ => .fault
  | c :: rest, key =>
    if c == NUL then .done (key, c :: rest)
    else if !isspace c || c == ':' then .done (key, c :: rest)
    else parse_key_spaces rest (key ++ [c])

/-- `parse_key(p)`: returns the key `string_type { b, *p }` and the cursor. -/
def parse_key (p : List Char) : Outcome (List Char × List Char) :=
  match p with
  | [] => .fault
  | c :: rest =>
    if isalpha c || c == '_' || c == '$' then do
      let (key, p) ← parse_key_ident rest [c]
      match p with
      | [] => .fault
      | d :: _ =>
        if d == ':' then return (key, p)
        else parse_key_spaces p key
    else .done ([], c :: rest)

mutual

/-- The loop `while (true)` of `parse_array`, on the cursor and the elements
`arr` of the array under construction. -/
def parse_array_loop : Nat → List Char → List Value → Outcome (List Char × List Value)
  | 0, _, _ => .timeout
  | fuel + 1, p, arr => do
    let p ← skip_spaces_and_comments p
    match p with
    | [] => .fault
    | c :: rest =>
      if c == ',' then parse_array_loop fuel rest arr
      else if c == ']' then return (rest, arr)
      else
        -- arr.emplace_back(null_type {}); parse_value(p, arr.back());
        let (p, v) ← parse_value fuel p Value.null
        parse_array_loop fuel p (arr ++ [v])

/-- `parse_array(p, value)`: `value = array_type {}; (*p)++;` and the loop. -/
def parse_array : Nat → List Char → Value → Outcome (List Char × Value)
  | 0, _, _ => .timeout
  | fuel + 1, p, _ => do
    match p with
    | [] => .fault
    | _ :: p =>
      let (p, arr) ← parse_array_loop fuel p []
      return (p, Value.array arr)

/-- The loop `while (true)` of `parse_object`, on the cursor and the entries
`obj` of the object under construction. -/
def parse_object_loop : Nat → List Char → List (List Char × Value) →
    Outcome (List Char × List (List Char × Value))
  | 0, _, _ => .timeout
  | fuel + 1, p, obj => do
    let p ← skip_spaces_and_comments p
    match p with
    | [] => .fault
    | c :: rest =>
      if c == '}' then return (rest, obj)
      else
        let (key, p) ← parse_key p
        match p with
        | [] => .fault
        | _ :: p =>
          if key != [] then
            -- auto [it, success] = obj.emplace(key, null_type {});
            let (obj, success) := map_emplace obj key Value.null
            if success then
              -- parse_value(p, it->second);
              let (p, v) ← parse_value fuel p Value.null
              parse_object_loop fuel p (map_assign obj key v)
            else parse_object_loop fuel p obj
          else parse_object_loop fuel p obj

/-- `parse_object(p, value)`: `value = object_type {};` and the loop (the cursor
is not moved past the opening brace first). -/
def parse_object : Nat → List Char → Value → Outcome (List Char × Value)
  | 0, _, _ => .timeout
  | fuel + 1, p, _ => do
    let (p, obj) ← parse_object_loop fuel p []
    return (p, Value.object obj)

/-- `parse_value(p, value)`: the grammar dispatch on the next significant
character. -/
def parse_value : Nat → List Char → Value → Outcome (List Char × Value)
  | 0, _, _ => .timeout
  | fuel + 1, p, value => do
    let p ← skip_spaces_and_comments p
    match p with
    | [] => .fault
    | ch :: _ =>
      if ch == '{' then parse_object fuel p value
      else if ch == '[' then parse_array fuel p value
      else if ch == '"' || ch == '\'' then parse_string p value
      else if ch == 'n' then parse_null p value
      else if ch == 't' || ch == 'f' then parse_boolean p value
      else if isdigit ch || ch == '-' || ch == '+' || ch == '.' || ch == 'I' || ch == 'N' then
        parse_number p value
      else return (p, value)

end

/-- `parse(str)`: Null for an empty view, else `parse_value` from the first
character of the buffer, whose end is the terminator. -/
def parse (fuel : Nat) (str : List Char) : Outcome Value :=
  if str.isEmpty then .done Value.null
  else
    match parse_value fuel (str ++ [NUL]) Value.null with
    | .done (_, val) => .done val
    | .fault => .fault
    | .timeout => .timeout

namespace Value

/-- `at(size_type idx)` and `operator[](size_type idx)`: the element of an array,
the value of the `idx`-th entry of an object in key order, Null on every other
variant.  The index is not checked: `none` is the read outside the container. -/
def at_index : Value → Nat → Option Value
  | array a, idx => a.get? idx
  | object m, idx => (m.get? idx).map Prod.snd
  | _, _ => some null

end Value

namespace Value

/-- `operator[](size_type idx)`: calls `at(idx)`. -/
def index_index (v : Value) (idx : Nat) : Option Value := at_index v idx

/-- `at_opt(size_type idx)`: the element of an array at an index below its size,
Null in every other case. -/
def at_opt : Value → Nat → Value
  | array arr, idx => if h : idx < arr.length then arr.get ⟨idx, h⟩ else null
  | _, _ => null

end Value

/-! ## Typed access with a default -/

/-- The floating types. -/
inductive FloatingType where
  | float
  | double
  | long_double

/-- A value of a floating type, kept symbolic: a value given in the type, or the
result of `static_cast<T>` of a `number_type` value to a floating type `T` other
than `number_type`; the rounding of that conversion is not modelled. -/
inductive Floating where
  | given (x : NumberFloat)
  | converted (x : NumberFloat)

/-- A default value with its type `U`: `bool`, an integral type other than
`bool` (its width in bits and its signedness), a floating type, `string_type`,
`string_view_type`, or a type of no category of `value_or` (the character array
of a string literal, for instance). -/
inductive Scalar where
  | boolean (b : Bool)
  | integral (bits : Nat) (signed : Bool) (n : Int)
  | floating (T : FloatingType) (x : Floating)
  | string (s : List Char)
  | string_view (s : List Char)
  | other (text : List Char)

/-- The way a default of type `U` is passed to `value_or(T&& default_value)`,
which fixes the `T` that the forwarding reference deduces: `U` for a non-const
rvalue, `const U` for a const rvalue, `const U&` for a const lvalue.  (A
non-const lvalue gives `T = U&`, for which `return std::move(default_value)`
does not compile: there is no such call.) -/
inductive Passing where
  | rvalue
  | const_rvalue
  | const_lvalue

/-- The argument of `value_or`: the default and the way it is passed. -/
structure Default where
  passing : Passing
  value : Scalar

/-- `static_cast<T>` of a `std::int64_t` to the integral type of the given width
and signedness: the value modulo `2 ^ bits`, taken in the range of the type. -/
def cast_integral (bits : Nat) (signed : Bool) (n : Int) : Int :=
  let m := n % (2 ^ bits : Int)
  if signed && decide ((2 ^ (bits - 1) : Int) ≤ m) then m - (2 ^ bits : Int) else m

namespace Default

/-- `std::is_same_v<T, boolean_type>`: `T` is `bool`, without `const` and
without reference. -/
def is_same_boolean (d : Default) : Bool :=
  match d.passing, d.value with
  | Passing.rvalue, Scalar.boolean _ => true
  | _, _ => false

/-- `std::is_integral_v<T>`: `T` is `bool` or an integer type, `const` or not;
no reference type is integral. -/
def is_integral (d : Default) : Bool :=
  match d.passing, d.value with
  | Passing.const_lvalue, _ => false
  | _, Scalar.boolean _ => true
  | _, Scalar.integral _ _ _ => true
  | _, _ => false

/-- `std::is_floating_point_v<T>`: `T` is a floating type, `const` or not; no
reference type is one. -/
def is_floating_point (d : Default) : Bool :=
  match d.passing, d.value with
  | Passing.const_lvalue, _ => false
  | _, Scalar.floating _ _ => true
  | _, _ => false

/-- `std::is_same_v<T, string_type>`. -/
def is_same_string (d : Default) : Bool :=
  match d.passing, d.value with
  | Passing.rvalue, Scalar.string _ => true
  | _, _ => false

/-- `std::is_same_v<T, string_view_type>`. -/
def is_same_string_view (d : Default) : Bool :=
  match d.passing, d.value with
  | Passing.rvalue, Scalar.string_view _ => true
  | _, _ => false

end Default

/-- `static_cast<T>(n)` for an integral `T`, the type of the default `s`: the
test `n != 0` for `bool`, the value modulo `2 ^ bits` for an integer type. -/
def static_cast_integral (s : Scalar) (n : Int) : Scalar :=
  match s with
  | Scalar.boolean _ => Scalar.boolean (decide (n ≠ 0))
  | Scalar.integral bits signed _ => Scalar.integral bits signed (cast_integral bits signed n)
  | _ => s

/-- `static_cast<T>(x)` for a floating `T`, the type of the default `s`: `x`
itself for `double`, the converted value for `float` and `long double`. -/
def static_cast_floating (s : Scalar) (x : NumberFloat) : Scalar :=
  match s with
  | Scalar.floating FloatingType.double _ => Scalar.floating FloatingType.double (Floating.given x)
  | Scalar.floating T _ => Scalar.floating T (Floating.converted x)
  | _ => s

namespace Value

/-- `value_or<T>(default_value)`: the branch of `if constexpr` that the deduced
`T` selects, then the test `std::holds_alternative` for the variant of that
branch; `std::move(default_value)` in every other case, and after the chain
when `T` selects no branch. -/
def value_or (v : Value) (default_value : Default) : Scalar :=
  if default_value.is_same_boolean then
    match v with
    | boolean b => Scalar.boolean b
    | _ => default_value.value
  else if default_value.is_integral then
    match v with
    | integer n => static_cast_integral default_value.value n
    | _ => default_value.value
  else if default_value.is_floating_point then
    match v with
    | number x => static_cast_floating default_value.value x
    | _ => default_value.value
  else if default_value.is_same_string then
    match v with
    | string s => Scalar.string s
    | _ => default_value.value
  else if default_value.is_same_string_view then
    match v with
    | string s => Scalar.string_view s
    | _ => default_value.value
  else default_value.value

end Value

/-- The active variant of a Value is the one of the category of the type of a
default: Boolean for `bool`, Integer for an integral type, Float for a floating
type, String for `string_type` and `string_view_type`. -/
def category_matches : Value → Scalar → Bool
  | Value.boolean _, Scalar.boolean _ => true
  | Value.integer _, Scalar.integral _ _ _ => true
  | Value.number _, Scalar.floating _ _ => true
  | Value.string _, Scalar.string _ => true
  | Value.string _, Scalar.string_view _ => true
  | _, _ => false

/-! ## The order of the entries of an object -/

mutual

/-- Every Object inside the value lists its entries in strictly increasing key
order, as a `std::map` does. -/
def Ordered : Value → Prop
  | Value.object m =>
    OrderedMembers m ∧ (m.map Prod.fst).Pairwise (fun a b => key_less a b = true)
  | Value.array a => OrderedElements a
  | Value.null => True
  | Value.boolean _ => True
  | Value.string _ => True
  | Value.number _ => True
  | Value.integer _ => True

def OrderedElements : List Value → Prop
  | [] => True
  | v :: vs => Ordered v ∧ OrderedElements vs

def OrderedMembers : List (List Char × Value) → Prop
  | [] => True
  | (_, v) :: ms => Ordered v ∧ OrderedMembers ms

end

/-! ## Reference texts -/

/-- `fuel ↦ f fuel` returns `r` for every large enough fuel. -/
def Converges {α : Type} (f : Nat → Outcome α) (r : α) : Prop :=
  ∃ N, ∀ fuel, N ≤ fuel → f fuel = Outcome.done r

/-- The text after a numeric token starts with a character that ends the scan of
`parse_number`. -/
def Stops (p : List Char) : Prop :=
  ∃ r0 rest, p = r0 :: rest ∧ (isdigit r0 || isxdigit r0 || r0 == '.' || r0 == 'x') = false

/-- The six special numeric literals with the value `parse_number` stores for each. -/
def special_literals : List (List Char × NumberFloat) :=
  [(['N', 'a', 'N'], NumberFloat.quiet_NaN false),
   (['+', 'N', 'a', 'N'], NumberFloat.quiet_NaN false),
   (['-', 'N', 'a', 'N'], NumberFloat.quiet_NaN true),
   (['I', 'n', 'f', 'i', 'n', 'i', 't', 'y'], NumberFloat.infinity false),
   (['+', 'I', 'n', 'f', 'i', 'n', 'i', 't', 'y'], NumberFloat.infinity false),
   (['-', 'I', 'n', 'f', 'i', 'n', 'i', 't', 'y'], NumberFloat.infinity true)]

/-- The number that a string of decimal digits denotes. -/
def decimal_value (ds : List Char) : Nat :=
  ds.foldl (fun acc c => acc * 10 + (c.toNat - 48)) 0

/-- The loop of `parse_string` with the branch `else if (detail::is_escape(e))`
removed: the escaped quote, the closing quote, and the copy of every other
character. -/
def parse_string_scan_no_escape (quote : Char) :
    List Char → List Char → Outcome (List Char × List Char)
  | [], _ => .fault
  | [c], res =>
    if c == NUL then .done ([c], res)
    else if c == '\\' then .fault
    else if c == quote then .done ([c], res)
    else parse_string_scan_no_escape quote [] (res ++ [c])
  | c :: d :: rest, res =>
    if c == NUL then .done (c :: d :: rest, res)
    else if c == '\\' && d == quote then parse_string_scan_no_escape quote rest res
    else if c == quote then .done (c :: d :: rest, res)
    else parse_string_scan_no_escape quote (d :: rest) (res ++ [c])

/-- `parse_string` with the test `is_escape` removed from its loop. -/
def parse_string_no_escape (p : List Char) (_value : Value) : Outcome (List Char × Value) :=
  match p with
  | [] => .fault
  | quote :: b =>
    match parse_string_scan_no_escape quote b [] with
    | .done (e, res) => .done (e.tail, Value.string res)
    | .fault => .fault
    | .timeout => .timeout

/-- The decimal text of an integer: a `-` for a negative one, then the digits. -/
def decimal (n : Int) : List Char :=
  if n < 0 then '-' :: Nat.toDigits 10 n.natAbs else Nat.toDigits 10 n.toNat

/-- The range of `std::int64_t`. -/
def InInt64 (n : Int) : Prop := -(2 ^ 63 : Int) ≤ n ∧ n < (2 ^ 63 : Int)

/-- A bare identifier: a letter, `_` or `$`, then letters, digits or `_`. -/
def BareIdentifier : List Char → Prop
  | [] => False
  | c :: cs =>
    (isalpha c = true ∨ c = '_' ∨ c = '$') ∧
      ∀ d ∈ cs, isalpha d = true ∨ isdigit d = true ∨ d = '_'

/-- A string body without quote character, backslash or NUL. -/
def PlainText (s : List Char) : Prop :=
  ∀ c ∈ s, c ≠ '"' ∧ c ≠ '\'' ∧ c ≠ '\\' ∧ c ≠ NUL

/-- A character that may stand between two elements or members: a comma or
white space. -/
def GapChar (c : Char) : Prop := c = ',' ∨ isspace c = true

/-- The runs of commas and white space that follow the elements of an array or
the members of an object: the run between two of them holds a comma. -/
def GapsOk : List (List Char) → Prop
  | [] => True
  | gap :: gaps => (∀ c ∈ gap, GapChar c) ∧ (gaps ≠ [] → ',' ∈ gap) ∧ GapsOk gaps

/-- The text of an array literal of integers after its opening padding: each
integer in decimal, followed by its run of commas and white space, and the
closing bracket at the end. -/
def int_array_body : List (Int × List Char) → List Char
  | [] => [']']
  | (n, gap) :: items => decimal n ++ (gap ++ int_array_body items)

/-- The text of an array literal after its opening padding: the text of each
element, followed by its run of commas and white space, and the closing bracket
at the end. -/
def array_body : List (List Char × List Char) → List Char
  | [] => [']']
  | (text, gap) :: items => text ++ (gap ++ array_body items)

/-- A member as written in an object literal: the key, the white space after the
`:`, the text of the value, and the run of commas and white space that follows. -/
structure Member where
  key : List Char
  pad : List Char
  text : List Char
  gap : List Char

/-- The text of an object literal after its opening padding: each member as
key, `:`, padding, value and following run, and the closing brace at the end. -/
def object_body : List Member → List Char
  | [] => ['}']
  | m :: ms => m.key ++ (':' :: (m.pad ++ (m.text ++ (m.gap ++ object_body ms))))

/-- A numeric token that the scan of `parse_number` reads whole: a digit, a radix
point or a sign in front, then digits, hexadecimal digits, radix points and `x`
(at least one of them after a sign).  Decimal integers, numbers with a leading
or trailing radix point, `0x` hexadecimal integers and unsigned exponents have
this form. -/
def NumberToken (c0 : Char) (tok : List Char) : Prop :=
  (isdigit c0 = true ∨ c0 = '.' ∨ ((c0 = '-' ∨ c0 = '+') ∧ tok ≠ [])) ∧
    ∀ c ∈ tok, (isdigit c || isxdigit c || c == '.' || c == 'x') = true

/-- The literals of the subset of JSON5 that the parser reads: `null`, `true`,
`false`, numeric tokens, the six special numeric literals, strings in double or
single quotes without that quote, backslash or NUL, arrays of such literals,
and objects whose keys are pairwise distinct bare identifiers; elements and
members are followed by runs of commas and white space, with a comma between
two of them, and there are no comments. -/
inductive Literal : List Char → Prop where
  | null : Literal ['n', 'u', 'l', 'l']
  | true : Literal ['t', 'r', 'u', 'e']
  | false : Literal ['f', 'a', 'l', 's', 'e']
  | number (c0 : Char) (tok : List Char) : NumberToken c0 tok → Literal (c0 :: tok)
  | special (lit : List Char) (x : NumberFloat) : (lit, x) ∈ special_literals → Literal lit
  | string (quote : Char) (body : List Char) : quote = '"' ∨ quote = '\'' →
      (∀ c ∈ body, c ≠ quote ∧ c ≠ '\\' ∧ c ≠ NUL) → Literal (quote :: (body ++ [quote]))
  | array (lead : List Char) (items : List (List Char × List Char)) :
      (∀ c ∈ lead, GapChar c) → GapsOk (items.map Prod.snd) →
      (∀ it ∈ items, Literal it.1) → Literal ('[' :: (lead ++ array_body items))
  | object (lead : List Char) (members : List Member) :
      (∀ c ∈ lead, GapChar c) → GapsOk (members.map Member.gap) →
      (∀ m ∈ members, BareIdentifier m.key) →
      (members.map Member.key).Pairwise (fun a b => a ≠ b) →
      (∀ m ∈ members, ∀ c ∈ m.pad, isspace c = true) →
      (∀ m ∈ members, Literal m.text) → Literal ('{' :: (lead ++ object_body members))

/-- The parser reads the text `t` as one value: in front of any text that ends a
numeric token, `parse_value` returns a value and leaves the cursor right after
`t`, for every large enough fuel; and `t` starts with a character that is
neither white space nor a comma nor a closing bracket. -/
def ReadsOne (t : List Char) : Prop :=
  (∃ c r, t = c :: r ∧ isspace c = false ∧ c ≠ ',' ∧ c ≠ ']') ∧
    ∀ (rest : List Char) (v0 : Value), Stops rest →
      ∃ v, Converges (fun fuel => parse_value fuel (t ++ rest) v0) (rest, v)

/-- The layout of a printed literal: the text after an opening bracket, between
two elements or members, before a closing bracket, and after the `:` of a
member, and the quote character of the strings. -/
structure Style where
  lead : List Char
  sep : List Char
  trail : List Char
  colon : List Char
  quote : Char

/-- The layouts considered: separators are non-empty runs of commas and white
space, the other paddings are runs of commas and white space (white space only
after a `:`), and strings are in double or in single quotes. -/
def Style.Valid (st : Style) : Prop :=
  (∀ c ∈ st.lead, GapChar c) ∧ st.sep ≠ [] ∧ (∀ c ∈ st.sep, GapChar c) ∧
    (∀ c ∈ st.trail, GapChar c) ∧ (∀ c ∈ st.colon, isspace c = true) ∧
    (st.quote = '"' ∨ st.quote = '\'')

/-- The canonical layout: `, ` between elements or members, nothing else. -/
def Style.canonical : Style := ⟨[], [',', ' '], [], [], '\''⟩

/-- The layout of `{ k1: v1, k2: v2 }`. -/
def Style.spaced : Style := ⟨[' '], [',', ' '], [' '], [' '], '\''⟩

mutual

/-- The reference printer: Null, Booleans, Integers in decimal, Strings in the
quotes of the layout, Arrays and Objects in the given layout, an Object member as its key, a
`:` and its value.  The float variant has no text. -/
def print (st : Style) : Value → List Char
  | Value.null => ['n', 'u', 'l', 'l']
  | Value.boolean b => if b then ['t', 'r', 'u', 'e'] else ['f', 'a', 'l', 's', 'e']
  | Value.string s => st.quote :: (s ++ [st.quote])
  | Value.number _ => []
  | Value.integer n => decimal n
  | Value.object m => '{' :: (st.lead ++ (print_members st m ++ (st.trail ++ ['}'])))
  | Value.array a => '[' :: (st.lead ++ (print_elements st a ++ (st.trail ++ [']'])))

/-- The elements of an array, the separator between two of them. -/
def print_elements (st : Style) : List Value → List Char
  | [] => []
  | v :: vs => print st v ++ ((if vs.isEmpty then [] else st.sep) ++ print_elements st vs)

/-- The members of an object, the separator between two of them. -/
def print_members (st : Style) : List (List Char × Value) → List Char
  | [] => []
  | (k, v) :: ms =>
    k ++ (':' :: (st.colon ++ (print st v ++
      ((if ms.isEmpty then [] else st.sep) ++ print_members st ms))))

end

mutual

/-- The trees the reference printer is applied to: no float, Integers in the
range of `std::int64_t`, Strings without quote, backslash or NUL, keys that are
bare identifiers and pairwise related by `R` among the members of one Object. -/
def Printable (R : List Char → List Char → Prop) : Value → Prop
  | Value.null => True
  | Value.boolean _ => True
  | Value.string s => PlainText s
  | Value.number _ => False
  | Value.integer n => InInt64 n
  | Value.object m => PrintableMembers R m ∧ (m.map Prod.fst).Pairwise R
  | Value.array a => PrintableElements R a

def PrintableElements (R : List Char → List Char → Prop) : List Value → Prop
  | [] => True
  | v :: vs => Printable R v ∧ PrintableElements R vs

def PrintableMembers (R : List Char → List Char → Prop) :
    List (List Char × Value) → Prop
  | [] => True
  | (k, v) :: ms => BareIdentifier k ∧ Printable R v ∧ PrintableMembers R ms

end

/-- The `std::map` that holds the given members: each is emplaced in turn. -/
def build_map (obj : List (List Char × Value)) (ms : List (List Char × Value)) :
    List (List Char × Value) :=
  ms.foldl (fun acc kv => (map_emplace acc kv.1 kv.2).1) obj

mutual

/-- The value whose Objects hold the listed members as a `std::map` does, in
key order. -/
def normalize : Value → Value
  | Value.object m => Value.object (build_map [] (normalize_members m))
  | Value.array a => Value.array (normalize_elements a)
  | Value.null => Value.null
  | Value.boolean b => Value.boolean b
  | Value.string s => Value.string s
  | Value.number x => Value.number x
  | Value.integer n => Value.integer n

def normalize_elements : List Value → List Value
  | [] => []
  | v :: vs => normalize v :: normalize_elements vs

def normalize_members : List (List Char × Value) → List (List Char × Value)
  | [] => []
  | (k, v) :: ms => (k, normalize v) :: normalize_members ms

end

/-- A tree whose Objects list their members in strictly increasing key order,
as the entries of a `std::map` are. -/
def Canonical (v : Value) : Prop := Printable (fun a b => key_less a b = true) v

/-- A tree whose Objects have pairwise distinct keys, in any order. -/
def DistinctKeys (v : Value) : Prop := Printable (fun a b => a ≠ b) v

/-! ## Sequencing -/

namespace Outcome

@[simp] theorem done_bind {α β : Type} (a : α) (f : α → Outcome β) :
    (Outcome.done a >>= f) = f a := rfl

@[simp] theorem fault_bind {α β : Type} (f : α → Outcome β) :
    ((Outcome.fault : Outcome α) >>= f) = Outcome.fault := rfl

@[simp] theorem timeout_bind {α β : Type} (f : α → Outcome β) :
    ((Outcome.timeout : Outcome α) >>= f) = Outcome.timeout := rfl

@[simp] theorem pure_eq {α : Type} (a : α) : (pure a : Outcome α) = Outcome.done a := rfl

end Outcome

/-! ## Convergence -/

theorem Converges.of_eq {α : Type} {f : Nat → Outcome α} {r : α}
    (h : ∀ fuel, f (fuel + 1) = Outcome.done r) : Converges f r := by
  refine ⟨1, fun fuel hf => ?_⟩
  obtain ⟨k, rfl⟩ : ∃ k, fuel = k + 1 := ⟨fuel - 1, by omega⟩
  exact h k

theorem Converges.step {α β : Type} {f : Nat → Outcome α} {g : Nat → Outcome β} {r : α} {s : β}
    (h : Converges f r) (hg : ∀ fuel, f fuel = Outcome.done r → g (fuel + 1) = Outcome.done s) :
    Converges g s := by
  obtain ⟨N, hN⟩ := h
  refine ⟨N + 1, fun fuel hf => ?_⟩
  obtain ⟨k, rfl⟩ : ∃ k, fuel = k + 1 := ⟨fuel - 1, by omega⟩
  exact hg k (hN k (by omega))

theorem Converges.step2 {α β γ : Type} {f : Nat → Outcome α} {g : Nat → Outcome β}
    {k : Nat → Outcome γ} {r : α} {s : β} {t : γ}
    (h1 : Converges f r) (h2 : Converges g s)
    (hk : ∀ fuel, f fuel = Outcome.done r → g fuel = Outcome.done s →
      k (fuel + 1) = Outcome.done t) :
    Converges k t := by
  obtain ⟨N1, hN1⟩ := h1
  obtain ⟨N2, hN2⟩ := h2
  refine ⟨max N1 N2 + 1, fun fuel hf => ?_⟩
  obtain ⟨j, rfl⟩ : ∃ j, fuel = j + 1 := ⟨fuel - 1, by omega⟩
  exact hk j (hN1 j (by omega)) (hN2 j (by omega))

/-! ## Characters -/

theorem char_eq_iff (c d : Char) : c = d ↔ c.toNat = d.toNat := by
  constructor
  · intro h; rw [h]
  · intro h
    apply Char.ext
    apply UInt32.ext
    exact h

theorem isspace_NUL : isspace NUL = false := by decide

theorem not_isspace_of_isdigit {c : Char} (h : isdigit c = true) : isspace c = false := by
  simp only [isdigit, isspace, decide_eq_true_eq, decide_eq_false_iff_not] at *
  omega

theorem not_isspace_of_isalpha {c : Char} (h : isalpha c = true) : isspace c = false := by
  simp only [isalpha, isspace, decide_eq_true_eq, decide_eq_false_iff_not, Bool.or_eq_true] at *
  omega

theorem isxdigit_of_isdigit {c : Char} (h : isdigit c = true) : isxdigit c = true := by
  simp [isxdigit, h]

/-! ## White space -/

theorem skip_spaces_cons (c : Char) (rest : List Char) :
    skip_spaces_and_comments (c :: rest) =
      if isspace c then skip_spaces_and_comments rest else Outcome.done (c :: rest) := by
  cases hc : isspace c with
  | false => simp [skip_spaces_and_comments, hc]
  | true =>
    cases rest with
    | nil => simp [skip_spaces_and_comments, hc]
    | cons d r =>
      by_cases hd : d = NUL
      · subst hd
        simp [skip_spaces_and_comments, hc, isspace_NUL]
      · simp [skip_spaces_and_comments, hc, hd]

theorem skip_spaces_not_space {c : Char} (rest : List Char) (h : isspace c = false) :
    skip_spaces_and_comments (c :: rest) = Outcome.done (c :: rest) := by
  rw [skip_spaces_cons, h]; rfl

theorem skip_spaces_append (ws p : List Char) (h : ∀ c ∈ ws, isspace c = true) :
    skip_spaces_and_comments (ws ++ p) = skip_spaces_and_comments p := by
  induction ws with
  | nil => rfl
  | cons c ws ih =>
    rw [List.cons_append, skip_spaces_cons, h c (List.mem_cons_self _ _)]
    simpa using ih (fun d hd => h d (List.mem_cons_of_mem _ hd))

/-! ## Strings -/

theorem parse_string_scan_plain (quote : Char) (hq : quote ≠ NUL) (hb : quote ≠ '\\') :
    ∀ (body rest res : List Char),
      (∀ c ∈ body, c ≠ quote ∧ c ≠ '\\' ∧ c ≠ NUL) →
      parse_string_scan quote (body ++ quote :: rest) res =
        Outcome.done (quote :: rest, res ++ body) := by
  intro body
  induction body with
  | nil =>
    intro rest res _
    cases rest with
    | nil => simp [parse_string_scan, hq, hb]
    | cons d r => simp [parse_string_scan, hq, hb, is_escape]
  | cons c body ih =>
    intro rest res h
    obtain ⟨h1, h2, h3⟩ := h c (List.mem_cons_self _ _)
    have ih' := ih rest (res ++ [c]) (fun d hd => h d (List.mem_cons_of_mem _ hd))
    cases body with
    | nil =>
      simp only [List.cons_append, List.nil_append] at ih' ⊢
      rw [parse_string_scan]
      simp [h1, h2, h3, is_escape, ih']
    | cons d body =>
      simp only [List.cons_append] at ih' ⊢
      rw [parse_string_scan]
      simp [h1, h2, h3, is_escape, ih']

theorem parse_string_plain (quote : Char) (hq : quote ≠ NUL) (hb : quote ≠ '\\')
    (body rest : List Char) (v0 : Value)
    (h : ∀ c ∈ body, c ≠ quote ∧ c ≠ '\\' ∧ c ≠ NUL) :
    parse_string (quote :: (body ++ quote :: rest)) v0 =
      Outcome.done (rest, Value.string body) := by
  simp [parse_string, parse_string_scan_plain quote hq hb body rest [] h]

/-! ## Literals -/

theorem parse_null_lit (rest : List Char) (v0 : Value) :
    parse_null ('n' :: 'u' :: 'l' :: 'l' :: rest) v0 = Outcome.done (rest, Value.null) := by
  simp [parse_null, strncmp_eq, NUL]

theorem parse_boolean_true (rest : List Char) (v0 : Value) :
    parse_boolean ('t' :: 'r' :: 'u' :: 'e' :: rest) v0 =
      Outcome.done (rest, Value.boolean true) := by
  simp [parse_boolean, strncmp_eq, NUL]

theorem parse_boolean_false (rest : List Char) (v0 : Value) :
    parse_boolean ('f' :: 'a' :: 'l' :: 's' :: 'e' :: rest) v0 =
      Outcome.done (rest, Value.boolean false) := by
  simp [parse_boolean, strncmp_eq, NUL]

/-! ## Digits -/

theorem digitChar_spec : ∀ m, m < 10 →
    digit_value (Nat.digitChar m) = some m ∧ isdigit (Nat.digitChar m) = true := by
  decide

theorem digit_value_lt_of_isdigit {c : Char} (h : isdigit c = true) :
    ∃ d, digit_value c = some d ∧ d < 10 := by
  refine ⟨c.toNat - 48, by simp [digit_value, h], ?_⟩
  simp only [isdigit, decide_eq_true_eq] at h
  omega

theorem strtoll_digits_stop {c : Char} (rest : List Char) (acc : Nat)
    (h : isdigit c = false) : strtoll_digits 10 (c :: rest) acc = acc := by
  have hv : digit_value c = none ∨ ∃ d, digit_value c = some d ∧ 10 ≤ d := by
    unfold digit_value
    rw [h]
    simp only [Bool.false_eq_true, if_false]
    split_ifs
    · exact Or.inr ⟨_, rfl, by omega⟩
    · exact Or.inr ⟨_, rfl, by omega⟩
    · exact Or.inl rfl
  rcases hv with hv | ⟨d, hv, hd⟩
  · simp [strtoll_digits, hv]
  · simp [strtoll_digits, hv]
    omega

theorem strtoll_digits_append (ds rest : List Char) (h : ∀ c ∈ ds, isdigit c = true) :
    ∀ acc, strtoll_digits 10 (ds ++ rest) acc =
      strtoll_digits 10 rest (strtoll_digits 10 ds acc) := by
  induction ds with
  | nil => intro acc; rfl
  | cons c ds ih =>
    intro acc
    obtain ⟨d, hd, hlt⟩ := digit_value_lt_of_isdigit (h c (List.mem_cons_self _ _))
    simp only [List.cons_append, strtoll_digits, hd, hlt, if_true]
    exact ih (fun x hx => h x (List.mem_cons_of_mem _ hx)) _

theorem toDigitsCore_run (fuel : Nat) : ∀ (n : Nat) (tail : List Char), n < fuel →
    ∃ ds, Nat.toDigitsCore 10 fuel n tail = ds ++ tail ∧ ds ≠ [] ∧
      (∀ c ∈ ds, isdigit c = true) ∧
      ∀ acc, strtoll_digits 10 ds acc = acc * 10 ^ ds.length + n := by
  induction fuel with
  | zero => intro n tail h; omega
  | succ fuel ih =>
    intro n tail hn
    have hm : n % 10 < 10 := Nat.mod_lt _ (by decide)
    obtain ⟨hval, hdig⟩ := digitChar_spec (n % 10) hm
    by_cases hsmall : n / 10 = 0
    · refine ⟨[Nat.digitChar (n % 10)], by simp [Nat.toDigitsCore, hsmall], by simp, ?_, ?_⟩
      · intro c hc
        rw [List.mem_singleton.mp hc]; exact hdig
      · intro acc
        simp only [strtoll_digits, hval, hm, if_true, List.length_singleton, pow_one]
        omega
    · obtain ⟨ds, heq, _, hall, hrun⟩ := ih (n / 10) (Nat.digitChar (n % 10) :: tail) (by omega)
      refine ⟨ds ++ [Nat.digitChar (n % 10)], by simp [Nat.toDigitsCore, hsmall, heq],
        by simp, ?_, ?_⟩
      · intro c hc
        rcases List.mem_append.mp hc with hc | hc
        · exact hall c hc
        · rw [List.mem_singleton.mp hc]; exact hdig
      · intro acc
        rw [strtoll_digits_append ds _ hall, hrun]
        simp only [strtoll_digits, hval, hm, if_true, List.length_append, List.length_singleton,
          pow_succ]
        have := Nat.div_add_mod n 10
        nlinarith [this]

theorem toDigits_run (n : Nat) :
    Nat.toDigits 10 n ≠ [] ∧ (∀ c ∈ Nat.toDigits 10 n, isdigit c = true) ∧
      strtoll_digits 10 (Nat.toDigits 10 n) 0 = n := by
  obtain ⟨ds, heq, hne, hall, hrun⟩ := toDigitsCore_run (n + 1) n [] (by omega)
  rw [List.append_nil] at heq
  have : Nat.toDigits 10 n = ds := heq
  rw [this]
  exact ⟨hne, hall, by simpa using hrun 0⟩

/-! ## strtoll on decimal text -/

theorem strtoll_unsigned (ds : List Char) (r0 : Char) (rest : List Char)
    (hne : ds ≠ []) (hall : ∀ c ∈ ds, isdigit c = true) (hstop : isdigit r0 = false) :
    strtoll (ds ++ r0 :: rest) 10 =
      if 2 ^ 63 - 1 < strtoll_digits 10 ds 0 then (2 ^ 63 - 1 : Int)
      else (strtoll_digits 10 ds 0 : Int) := by
  obtain ⟨d, ds', rfl⟩ := List.exists_cons_of_ne_nil hne
  have hd := hall d (List.mem_cons_self _ _)
  have hsp := not_isspace_of_isdigit hd
  have h1 : d ≠ '-' := by rintro rfl; exact absurd hd (by decide)
  have h2 : d ≠ '+' := by rintro rfl; exact absurd hd (by decide)
  have hrun : strtoll_digits 10 (d :: (ds' ++ r0 :: rest)) 0 = strtoll_digits 10 (d :: ds') 0 := by
    have := strtoll_digits_append (d :: ds') (r0 :: rest) hall 0
    rw [List.cons_append] at this
    rw [this, strtoll_digits_stop _ _ hstop]
  simp [strtoll, List.dropWhile, hsp, h1, h2, hrun]

theorem strtoll_signed (sign : Char) (ds : List Char) (r0 : Char) (rest : List Char)
    (hs : sign = '-' ∨ sign = '+') (hall : ∀ c ∈ ds, isdigit c = true) (hstop : isdigit r0 = false) :
    strtoll (sign :: (ds ++ r0 :: rest)) 10 =
      if sign = '-' then
        (if 2 ^ 63 < strtoll_digits 10 ds 0 then -(2 ^ 63 : Int)
         else -(strtoll_digits 10 ds 0 : Int))
      else
        (if 2 ^ 63 - 1 < strtoll_digits 10 ds 0 then (2 ^ 63 - 1 : Int)
         else (strtoll_digits 10 ds 0 : Int)) := by
  have hrun : strtoll_digits 10 (ds ++ r0 :: rest) 0 = strtoll_digits 10 ds 0 := by
    rw [strtoll_digits_append ds (r0 :: rest) hall 0, strtoll_digits_stop _ _ hstop]
  rcases hs with rfl | rfl
  · simp [strtoll, List.dropWhile, isspace, hrun]
  · simp [strtoll, List.dropWhile, isspace, hrun]

theorem decimal_nonneg {n : Int} (h : 0 ≤ n) : decimal n = Nat.toDigits 10 n.toNat := by
  simp [decimal, not_lt.mpr h]

theorem decimal_neg {n : Int} (h : n < 0) : decimal n = '-' :: Nat.toDigits 10 n.natAbs := by
  simp [decimal, h]

theorem strtoll_decimal (n : Int) (hn : InInt64 n) (r0 : Char) (rest : List Char)
    (hstop : isdigit r0 = false) : strtoll (decimal n ++ r0 :: rest) 10 = n := by
  obtain ⟨hlo, hhi⟩ := hn
  by_cases hneg : n < 0
  · obtain ⟨hne, hall, hval⟩ := toDigits_run n.natAbs
    rw [decimal_neg hneg, List.cons_append,
      strtoll_signed '-' _ r0 rest (Or.inl rfl) hall hstop, hval]
    simp only [if_true]
    have : ¬ (2 ^ 63 < n.natAbs) := by omega
    rw [if_neg (by exact_mod_cast this)]
    omega
  · obtain ⟨hne, hall, hval⟩ := toDigits_run n.toNat
    rw [decimal_nonneg (by omega), strtoll_unsigned _ r0 rest hne hall hstop, hval]
    have : ¬ (2 ^ 63 - 1 < n.toNat) := by omega
    rw [if_neg (by exact_mod_cast this)]
    omega

theorem strtoll_plus_decimal (n : Int) (hn : InInt64 n) (h0 : 0 ≤ n) (r0 : Char)
    (rest : List Char) (hstop : isdigit r0 = false) :
    strtoll ('+' :: (decimal n ++ r0 :: rest)) 10 = n := by
  obtain ⟨hlo, hhi⟩ := hn
  obtain ⟨hne, hall, hval⟩ := toDigits_run n.toNat
  rw [decimal_nonneg h0, strtoll_signed '+' _ r0 rest (Or.inr rfl) hall hstop, hval]
  rw [if_neg (by decide)]
  have : ¬ (2 ^ 63 - 1 < n.toNat) := by omega
  rw [if_neg (by exact_mod_cast this)]
  omega

/-! ## The scan of a numeric token -/

theorem parse_number_scan_cons (c d : Char) (rest : List Char) (is_float_point : Bool)
    (base : Nat) :
    parse_number_scan (c :: d :: rest) is_float_point base =
      if (isdigit d || isxdigit d || d == '.' || d == 'x') = true then
        parse_number_scan (d :: rest) (if c == '.' then true else is_float_point)
          (if c == 'x' || c == 'X' then 16 else base)
      else Outcome.done (d :: rest, if c == '.' then true else is_float_point,
        if c == 'x' || c == 'X' then 16 else base) := by
  rw [parse_number_scan]

theorem parse_number_scan_token : ∀ (tok : List Char) (c r0 : Char) (rest : List Char)
    (is_float_point : Bool) (base : Nat),
    (∀ d ∈ tok, (isdigit d || isxdigit d || d == '.' || d == 'x') = true) →
    (isdigit r0 || isxdigit r0 || r0 == '.' || r0 == 'x') = false →
    parse_number_scan (c :: (tok ++ r0 :: rest)) is_float_point base =
      Outcome.done (r0 :: rest, is_float_point || (c :: tok).any (fun d => d == '.'),
        if (c :: tok).any (fun d => d == 'x' || d == 'X') then 16 else base) := by
  intro tok
  induction tok with
  | nil =>
    intro c r0 rest isf base _ hstop
    rw [List.nil_append, parse_number_scan_cons, hstop]
    cases h1 : c == '.' <;> cases h2 : c == 'x' <;> cases h3 : c == 'X' <;>
      simp [List.any_cons, h1, h2, h3]
  | cons d tok ih =>
    intro c r0 rest isf base hall hstop
    have hd := hall d (List.mem_cons_self _ _)
    rw [List.cons_append, parse_number_scan_cons, hd, if_pos rfl,
      ih d r0 rest _ _ (fun x hx => hall x (List.mem_cons_of_mem _ hx)) hstop]
    cases h1 : c == '.' <;> cases h2 : c == 'x' <;> cases h3 : c == 'X' <;>
      cases h4 : d == 'x' <;> cases h5 : d == 'X' <;>
      simp [List.any_cons, h1, h2, h3, h4, h5]

/-! ## parse_number on a token that is none of the special literals -/

theorem parse_number_token (c0 c1 : Char) (t : List Char) (v0 : Value)
    (hN : c0 ≠ 'N') (hI : c0 ≠ 'I')
    (hsign : c0 = '+' ∨ c0 = '-' → c1 ≠ 'N' ∧ c1 ≠ 'I')
    (hstart : (c0 == '-' || c0 == '+' || c0 == '.' || isdigit c0) = true)
    (p : List Char) (is_float_point : Bool) (base : Nat)
    (hscan : parse_number_scan (c0 :: c1 :: t) false 10 =
      Outcome.done (p, is_float_point, base)) :
    parse_number (c0 :: c1 :: t) v0 =
      Outcome.done (p, if is_float_point then Value.number (NumberFloat.strtod (c_str (c0 :: c1 :: t)))
        else Value.integer (strtoll (c0 :: c1 :: t) base)) := by
  by_cases hp : c0 = '+'
  · subst hp
    obtain ⟨h1, h2⟩ := hsign (Or.inl rfl)
    simp only [parse_number, strncmp_eq, NUL]
    simp [h1, h2, hscan]
    cases is_float_point <;> simp
  · by_cases hm : c0 = '-'
    · subst hm
      obtain ⟨h1, h2⟩ := hsign (Or.inr rfl)
      simp only [parse_number, strncmp_eq, NUL]
      simp [h1, h2, hscan]
      cases is_float_point <;> simp
    · simp only [parse_number, strncmp_eq, NUL]
      simp [hN, hI, hp, hm, hstart, hscan]
      cases is_float_point <;> simp

/-! ## Keys -/

theorem parse_key_ident_run : ∀ (cs key : List Char) (d : Char) (rest : List Char),
    (∀ c ∈ cs, isalpha c = true ∨ isdigit c = true ∨ c = '_') →
    (d != NUL && (d == '_' || isalpha d || isdigit d)) = false →
    parse_key_ident (cs ++ d :: rest) key = Outcome.done (key ++ cs, d :: rest) := by
  intro cs
  induction cs with
  | nil =>
    intro key d rest _ hd
    simp [parse_key_ident, hd]
  | cons c cs ih =>
    intro key d rest hall hd
    have hc : (c != NUL && (c == '_' || isalpha c || isdigit c)) = true := by
      rcases hall c (List.mem_cons_self _ _) with h | h | h
      · have : c ≠ NUL := by rintro rfl; exact absurd h (by decide)
        simp [h, this]
      · have : c ≠ NUL := by rintro rfl; exact absurd h (by decide)
        simp [h, this]
      · subst h; decide
    rw [List.cons_append, parse_key_ident, if_pos hc,
      ih (key ++ [c]) d rest (fun x hx => hall x (List.mem_cons_of_mem _ hx)) hd]
    simp

theorem parse_key_bare (k : List Char) (rest : List Char) (hk : BareIdentifier k) :
    parse_key (k ++ ':' :: rest) = Outcome.done (k, ':' :: rest) := by
  cases k with
  | nil => exact absurd hk (by simp [BareIdentifier])
  | cons c cs =>
    obtain ⟨hc, hcs⟩ := hk
    have hc' : (isalpha c || c == '_' || c == '$') = true := by
      rcases hc with h | h | h <;> simp [h]
    have hrun := parse_key_ident_run cs [c] ':' rest hcs (by decide)
    simp [parse_key, hc', hrun]

theorem parse_key_none (c : Char) (rest : List Char)
    (hc : (isalpha c || c == '_' || c == '$') = false) :
    parse_key (c :: rest) = Outcome.done ([], c :: rest) := by
  simp [parse_key, hc]

/-! ## The object container -/

theorem map_emplace_fresh : ∀ (obj : List (List Char × Value)) (key : List Char) (v : Value),
    key ∉ obj.map Prod.fst → (map_emplace obj key v).2 = true := by
  intro obj
  induction obj with
  | nil => intro key v _; rfl
  | cons kv obj ih =>
    intro key v h
    obtain ⟨k, w⟩ := kv
    simp only [List.map_cons, List.mem_cons, not_or] at h
    simp only [map_emplace, if_neg h.1]
    split_ifs
    · rfl
    · exact ih key v h.2

theorem map_assign_emplace : ∀ (obj : List (List Char × Value)) (key : List Char)
    (v0 v : Value), key ∉ obj.map Prod.fst →
    map_assign (map_emplace obj key v0).1 key v = (map_emplace obj key v).1 := by
  intro obj
  induction obj with
  | nil => intro key v0 v _; simp [map_emplace, map_assign]
  | cons kv obj ih =>
    intro key v0 v h
    obtain ⟨k, w⟩ := kv
    simp only [List.map_cons, List.mem_cons, not_or] at h
    simp only [map_emplace, if_neg h.1]
    split_ifs
    · simp [map_assign]
    · simp [map_assign, h.1, ih key v0 v h.2]

theorem mem_keys_map_emplace : ∀ (obj : List (List Char × Value)) (key : List Char)
    (v : Value) (k : List Char),
    k ∈ (map_emplace obj key v).1.map Prod.fst → k = key ∨ k ∈ obj.map Prod.fst := by
  intro obj
  induction obj with
  | nil =>
    intro key v k h
    simp [map_emplace] at h
    exact Or.inl h
  | cons kv obj ih =>
    intro key v k h
    obtain ⟨k0, w⟩ := kv
    simp only [map_emplace] at h
    split_ifs at h
    · exact Or.inr h
    · simp only [List.map_cons, List.mem_cons] at h ⊢
      tauto
    · simp only [List.map_cons, List.mem_cons] at h ⊢
      rcases h with h | h
      · exact Or.inr (Or.inl h)
      · rcases ih key v k h with h | h
        · exact Or.inl h
        · exact Or.inr (Or.inr h)

/-! ## The dispatch of parse_value -/

theorem parse_value_spaces (fuel : Nat) (ws p : List Char) (v0 : Value)
    (h : ∀ c ∈ ws, isspace c = true) :
    parse_value fuel (ws ++ p) v0 = parse_value fuel p v0 := by
  cases fuel with
  | zero => simp [parse_value]
  | succ fuel => simp only [parse_value, skip_spaces_append ws p h]

theorem parse_value_null (fuel : Nat) (rest : List Char) (v0 : Value) :
    parse_value (fuel + 1) ('n' :: 'u' :: 'l' :: 'l' :: rest) v0 =
      Outcome.done (rest, Value.null) := by
  simp [parse_value, skip_spaces_not_space, isspace, parse_null_lit]

theorem parse_value_true (fuel : Nat) (rest : List Char) (v0 : Value) :
    parse_value (fuel + 1) ('t' :: 'r' :: 'u' :: 'e' :: rest) v0 =
      Outcome.done (rest, Value.boolean true) := by
  simp [parse_value, skip_spaces_not_space, isspace, parse_boolean_true]

theorem parse_value_false (fuel : Nat) (rest : List Char) (v0 : Value) :
    parse_value (fuel + 1) ('f' :: 'a' :: 'l' :: 's' :: 'e' :: rest) v0 =
      Outcome.done (rest, Value.boolean false) := by
  simp [parse_value, skip_spaces_not_space, isspace, parse_boolean_false]

theorem parse_value_string (fuel : Nat) (quote : Char) (hq : quote = '"' ∨ quote = '\'')
    (body rest : List Char) (v0 : Value)
    (h : ∀ c ∈ body, c ≠ quote ∧ c ≠ '\\' ∧ c ≠ NUL) :
    parse_value (fuel + 1) (quote :: (body ++ quote :: rest)) v0 =
      Outcome.done (rest, Value.string body) := by
  rcases hq with rfl | rfl
  · simp [parse_value, skip_spaces_not_space, isspace,
      parse_string_plain '"' (by decide) (by decide) body rest v0 h]
  · simp [parse_value, skip_spaces_not_space, isspace,
      parse_string_plain '\'' (by decide) (by decide) body rest v0 h]

theorem parse_value_number (fuel : Nat) (c : Char) (t : List Char) (v0 : Value)
    (hc : isdigit c = true ∨ c = '-' ∨ c = '+' ∨ c = '.') :
    parse_value (fuel + 1) (c :: t) v0 = parse_number (c :: t) v0 := by
  rcases hc with h | rfl | rfl | rfl
  · have hsp := not_isspace_of_isdigit h
    have h1 : c ≠ '{' ∧ c ≠ '[' ∧ c ≠ '"' ∧ c ≠ '\'' ∧ c ≠ 'n' ∧ c ≠ 't' ∧ c ≠ 'f' := by
      refine ⟨?_, ?_, ?_, ?_, ?_, ?_, ?_⟩ <;> (rintro rfl; exact absurd h (by decide))
    obtain ⟨a1, a2, a3, a4, a5, a6, a7⟩ := h1
    simp [parse_value, skip_spaces_not_space _ hsp, a1, a2, a3, a4, a5, a6, a7, h]
  · simp [parse_value, skip_spaces_not_space, isspace]
  · simp [parse_value, skip_spaces_not_space, isspace]
  · simp [parse_value, skip_spaces_not_space, isspace]

theorem any_dot_of_digits (ds : List Char) (h : ∀ c ∈ ds, isdigit c = true) :
    ds.any (fun c => c == '.') = false := by
  rw [List.any_eq_false]
  intro x hx
  have := h x hx
  simp only [beq_iff_eq]
  rintro rfl; exact absurd this (by decide)

theorem any_x_of_digits (ds : List Char) (h : ∀ c ∈ ds, isdigit c = true) :
    ds.any (fun c => c == 'x' || c == 'X') = false := by
  rw [List.any_eq_false]
  intro x hx
  have := h x hx
  simp only [Bool.or_eq_true, beq_iff_eq]
  rintro (rfl | rfl) <;> exact absurd this (by decide)

theorem parse_number_scan_digits (c : Char) (ds : List Char) (r0 : Char) (rest : List Char)
    (hc : isdigit c = true ∨ c = '-' ∨ c = '+')
    (hall : ∀ d ∈ ds, isdigit d = true)
    (hstop : (isdigit r0 || isxdigit r0 || r0 == '.' || r0 == 'x') = false) :
    parse_number_scan (c :: (ds ++ r0 :: rest)) false 10 =
      Outcome.done (r0 :: rest, false, 10) := by
  have hcont : ∀ d ∈ ds, (isdigit d || isxdigit d || d == '.' || d == 'x') = true := by
    intro d hd
    simp [hall d hd]
  rw [parse_number_scan_token ds c r0 rest false 10 hcont hstop]
  have h1 : (c == '.') = false := by
    rcases hc with h | rfl | rfl
    · simp only [beq_eq_false_iff_ne]; rintro rfl; exact absurd h (by decide)
    · decide
    · decide
  have h2 : (c == 'x' || c == 'X') = false := by
    rcases hc with h | rfl | rfl
    · simp only [Bool.or_eq_false_iff, beq_eq_false_iff_ne]
      constructor <;> (rintro rfl; exact absurd h (by decide))
    · decide
    · decide
  simp [List.any_cons, h1, h2, any_dot_of_digits ds hall, any_x_of_digits ds hall]

theorem parse_value_integer (fuel : Nat) (n : Int) (hn : InInt64 n) (r0 : Char)
    (rest : List Char) (v0 : Value)
    (hstop : (isdigit r0 || isxdigit r0 || r0 == '.' || r0 == 'x') = false) :
    parse_value (fuel + 1) (decimal n ++ r0 :: rest) v0 =
      Outcome.done (r0 :: rest, Value.integer n) := by
  have hr0 : isdigit r0 = false := by
    simp only [Bool.or_eq_false_iff] at hstop
    exact hstop.1.1.1
  have hval := strtoll_decimal n hn r0 rest hr0
  by_cases hneg : n < 0
  · obtain ⟨hne, hall, _⟩ := toDigits_run n.natAbs
    rw [decimal_neg hneg] at hval ⊢
    obtain ⟨d, ds, hds⟩ := List.exists_cons_of_ne_nil hne
    rw [hds] at hval hall ⊢
    have hd := hall d (List.mem_cons_self _ _)
    have hscan := parse_number_scan_digits '-' (d :: ds) r0 rest (by simp) hall hstop
    simp only [List.cons_append] at hval hscan ⊢
    rw [parse_value_number fuel _ _ _ (by simp),
      parse_number_token '-' d _ v0 (by decide) (by decide)
        (fun _ => ⟨by rintro rfl; exact absurd hd (by decide),
          by rintro rfl; exact absurd hd (by decide)⟩) (by decide) _ _ _ hscan, hval]
    simp
  · obtain ⟨hne, hall, _⟩ := toDigits_run n.toNat
    rw [decimal_nonneg (not_lt.mp hneg)] at hval ⊢
    obtain ⟨d, ds, hds⟩ := List.exists_cons_of_ne_nil hne
    rw [hds] at hval hall ⊢
    have hd := hall d (List.mem_cons_self _ _)
    have hall' : ∀ c ∈ ds, isdigit c = true := fun c hc => hall c (List.mem_cons_of_mem _ hc)
    have hscan := parse_number_scan_digits d ds r0 rest (Or.inl hd) hall' hstop
    simp only [List.cons_append] at hval hscan ⊢
    have hshape : ∃ c1 t, ds ++ r0 :: rest = c1 :: t := by
      cases ds with
      | nil => exact ⟨r0, rest, rfl⟩
      | cons x xs => exact ⟨x, xs ++ r0 :: rest, rfl⟩
    obtain ⟨c1, t, ht⟩ := hshape
    rw [ht] at hval hscan ⊢
    rw [parse_value_number fuel _ _ _ (Or.inl hd),
      parse_number_token d c1 t v0 (by rintro rfl; exact absurd hd (by decide))
        (by rintro rfl; exact absurd hd (by decide))
        (fun h => by
          rcases h with rfl | rfl <;> exact absurd hd (by decide)) (by simp [hd]) _ _ _ hscan,
      hval]
    simp

/-! ## The array loop -/

theorem array_loop_spaces (fuel : Nat) (ws p : List Char) (arr : List Value)
    (h : ∀ c ∈ ws, isspace c = true) :
    parse_array_loop fuel (ws ++ p) arr = parse_array_loop fuel p arr := by
  cases fuel with
  | zero => simp [parse_array_loop]
  | succ fuel => simp only [parse_array_loop, skip_spaces_append ws p h]

theorem array_loop_comma {p : List Char} {arr : List Value} {r : List Char × List Value}
    (h : Converges (fun fuel => parse_array_loop fuel p arr) r) :
    Converges (fun fuel => parse_array_loop fuel (',' :: p) arr) r :=
  h.step (fun fuel e => by
    simp [parse_array_loop, skip_spaces_not_space, isspace, e])

theorem array_loop_gap (g : List Char) (hg : ∀ c ∈ g, GapChar c) {p : List Char}
    {arr : List Value} {r : List Char × List Value}
    (h : Converges (fun fuel => parse_array_loop fuel p arr) r) :
    Converges (fun fuel => parse_array_loop fuel (g ++ p) arr) r := by
  induction g with
  | nil => exact h
  | cons c g ih =>
    have ih' := ih (fun d hd => hg d (List.mem_cons_of_mem _ hd))
    rcases hg c (List.mem_cons_self _ _) with rfl | hsp
    · exact array_loop_comma ih'
    · have : (fun fuel => parse_array_loop fuel (c :: g ++ p) arr) =
          (fun fuel => parse_array_loop fuel (g ++ p) arr) := funext (fun fuel =>
        array_loop_spaces fuel [c] (g ++ p) arr (by simpa using hsp))
      rw [this]; exact ih'

theorem array_loop_close (rest : List Char) (arr : List Value) :
    Converges (fun fuel => parse_array_loop fuel (']' :: rest) arr) (rest, arr) :=
  Converges.of_eq (fun fuel => by
    simp [parse_array_loop, skip_spaces_not_space, isspace])

theorem array_loop_element {c : Char} {t p' : List Char} {v : Value} {arr : List Value}
    {r : List Char × List Value}
    (hsp : isspace c = false) (h1 : c ≠ ',') (h2 : c ≠ ']')
    (hv : Converges (fun fuel => parse_value fuel (c :: t) Value.null) (p', v))
    (hl : Converges (fun fuel => parse_array_loop fuel p' (arr ++ [v])) r) :
    Converges (fun fuel => parse_array_loop fuel (c :: t) arr) r :=
  Converges.step2 hv hl (fun fuel e1 e2 => by
    simp [parse_array_loop, skip_spaces_not_space _ hsp, h1, h2, e1, e2])

theorem parse_value_array {p rest : List Char} {arr : List Value} (v0 : Value)
    (h : Converges (fun fuel => parse_array_loop fuel p []) (rest, arr)) :
    Converges (fun fuel => parse_value fuel ('[' :: p) v0) (rest, Value.array arr) := by
  have h1 : Converges (fun fuel => parse_array fuel ('[' :: p) v0) (rest, Value.array arr) :=
    h.step (fun fuel e => by simp [parse_array, e])
  exact h1.step (fun fuel e => by
    simp [parse_value, skip_spaces_not_space, isspace, e])

/-! ## The object loop -/

theorem object_loop_spaces (fuel : Nat) (ws p : List Char) (obj : List (List Char × Value))
    (h : ∀ c ∈ ws, isspace c = true) :
    parse_object_loop fuel (ws ++ p) obj = parse_object_loop fuel p obj := by
  cases fuel with
  | zero => simp [parse_object_loop]
  | succ fuel => simp only [parse_object_loop, skip_spaces_append ws p h]

theorem object_loop_skip {c : Char} {p : List Char} {obj : List (List Char × Value)}
    {r : List Char × List (List Char × Value)} (hsp : isspace c = false) (hc : c ≠ '}')
    (hk : (isalpha c || c == '_' || c == '$') = false)
    (h : Converges (fun fuel => parse_object_loop fuel p obj) r) :
    Converges (fun fuel => parse_object_loop fuel (c :: p) obj) r :=
  h.step (fun fuel e => by
    simp [parse_object_loop, skip_spaces_not_space _ hsp, hc, parse_key_none c p hk, e])

theorem object_loop_gap (g : List Char) (hg : ∀ c ∈ g, GapChar c) {p : List Char}
    {obj : List (List Char × Value)} {r : List Char × List (List Char × Value)}
    (h : Converges (fun fuel => parse_object_loop fuel p obj) r) :
    Converges (fun fuel => parse_object_loop fuel (g ++ p) obj) r := by
  induction g with
  | nil => exact h
  | cons c g ih =>
    have ih' := ih (fun d hd => hg d (List.mem_cons_of_mem _ hd))
    rcases hg c (List.mem_cons_self _ _) with rfl | hsp
    · exact object_loop_skip (by decide) (by decide) (by decide) ih'
    · have : (fun fuel => parse_object_loop fuel (c :: g ++ p) obj) =
          (fun fuel => parse_object_loop fuel (g ++ p) obj) := funext (fun fuel =>
        object_loop_spaces fuel [c] (g ++ p) obj (by simpa using hsp))
      rw [this]; exact ih'

theorem object_loop_close (rest : List Char) (obj : List (List Char × Value)) :
    Converges (fun fuel => parse_object_loop fuel ('}' :: rest) obj) (rest, obj) :=
  Converges.of_eq (fun fuel => by
    simp [parse_object_loop, skip_spaces_not_space, isspace])

theorem bare_identifier_head {k : List Char} (hk : BareIdentifier k) :
    ∃ c cs, k = c :: cs ∧ isspace c = false ∧ c ≠ '}' ∧ c ≠ NUL := by
  cases k with
  | nil => exact absurd hk (by simp [BareIdentifier])
  | cons c cs =>
    refine ⟨c, cs, rfl, ?_⟩
    rcases hk.1 with h | rfl | rfl
    · exact ⟨not_isspace_of_isalpha h, by rintro rfl; exact absurd h (by decide),
        by rintro rfl; exact absurd h (by decide)⟩
    · decide
    · decide

theorem object_loop_member {k t p' : List Char} {v : Value} {obj : List (List Char × Value)}
    {r : List Char × List (List Char × Value)}
    (hk : BareIdentifier k) (hfresh : k ∉ obj.map Prod.fst)
    (hv : Converges (fun fuel => parse_value fuel t Value.null) (p', v))
    (hl : Converges (fun fuel => parse_object_loop fuel p' (map_emplace obj k v).1) r) :
    Converges (fun fuel => parse_object_loop fuel (k ++ ':' :: t) obj) r := by
  obtain ⟨c, cs, hkc, hsp, hc, _⟩ := bare_identifier_head hk
  obtain ⟨o, ho⟩ : ∃ o, map_emplace obj k Value.null = (o, true) :=
    ⟨(map_emplace obj k Value.null).1, Prod.ext rfl (map_emplace_fresh obj k _ hfresh)⟩
  have hassign : map_assign o k v = (map_emplace obj k v).1 := by
    have := map_assign_emplace obj k Value.null v hfresh
    rwa [ho] at this
  have hkey := parse_key_bare k t hk
  have hne : k ≠ [] := by rw [hkc]; simp
  refine Converges.step2 hv hl (fun fuel e1 e2 => ?_)
  rw [hkc] at hkey ho hassign e2 hne ⊢
  simp only [List.cons_append] at hkey ⊢
  simp [parse_object_loop, skip_spaces_not_space _ hsp, hc, hkey, ho, e1, hassign, e2]

theorem parse_value_object {p rest : List Char} {obj : List (List Char × Value)} (v0 : Value)
    (h : Converges (fun fuel => parse_object_loop fuel p []) (rest, obj)) :
    Converges (fun fuel => parse_value fuel ('{' :: p) v0) (rest, Value.object obj) := by
  have h0 : Converges (fun fuel => parse_object_loop fuel ('{' :: p) []) (rest, obj) :=
    object_loop_skip (by decide) (by decide) (by decide) h
  have h1 : Converges (fun fuel => parse_object fuel ('{' :: p) v0) (rest, Value.object obj) :=
    h0.step (fun fuel e => by simp [parse_object, e])
  exact h1.step (fun fuel e => by
    simp [parse_value, skip_spaces_not_space, isspace, e])

/-! ## What follows a value -/

theorem gap_char_stops {c : Char} (h : GapChar c) :
    (isdigit c || isxdigit c || c == '.' || c == 'x') = false := by
  rcases h with rfl | h
  · decide
  · have h' := h
    simp only [isspace, decide_eq_true_eq] at h'
    have h1 : isdigit c = false := by
      simp only [isdigit, decide_eq_false_iff_not]; omega
    have h2 : isxdigit c = false := by
      simp only [isxdigit, h1, Bool.false_or, Bool.or_eq_false_iff, decide_eq_false_iff_not]
      omega
    have h3 : c ≠ '.' := by rintro rfl; exact absurd h (by decide)
    have h4 : c ≠ 'x' := by rintro rfl; exact absurd h (by decide)
    simp [h1, h2, h3, h4]

theorem stops_gap_append {g p : List Char} (hg : ∀ c ∈ g, GapChar c) (hp : Stops p) :
    Stops (g ++ p) := by
  cases g with
  | nil => exact hp
  | cons c g => exact ⟨c, g ++ p, rfl, gap_char_stops (hg c (List.mem_cons_self _ _))⟩

theorem stops_sep (st : Style) (hst : st.Valid) (p : List Char) : Stops (st.sep ++ p) := by
  obtain ⟨_, hne, hsep, _, _⟩ := hst
  obtain ⟨c, g, hg⟩ := List.exists_cons_of_ne_nil hne
  rw [hg]
  exact ⟨c, g ++ p, rfl, gap_char_stops (hsep c (by rw [hg]; exact List.mem_cons_self _ _))⟩

theorem decimal_head (n : Int) :
    ∃ c t, decimal n = c :: t ∧ (isdigit c = true ∨ c = '-') := by
  by_cases hneg : n < 0
  · exact ⟨'-', _, decimal_neg hneg, Or.inr rfl⟩
  · obtain ⟨hne, hall, _⟩ := toDigits_run n.toNat
    obtain ⟨d, ds, hds⟩ := List.exists_cons_of_ne_nil hne
    refine ⟨d, ds, by rw [decimal_nonneg (not_lt.mp hneg), hds], Or.inl ?_⟩
    exact hall d (by rw [hds]; exact List.mem_cons_self _ _)

theorem print_head (st : Style) (hst : st.Valid) (R : List Char → List Char → Prop) :
    ∀ v, Printable R v → ∃ c t, print st v = c :: t ∧ isspace c = false ∧ c ≠ ',' ∧ c ≠ ']'
  | Value.null, _ => ⟨'n', _, rfl, by decide, by decide, by decide⟩
  | Value.boolean true, _ => ⟨'t', _, rfl, by decide, by decide, by decide⟩
  | Value.boolean false, _ => ⟨'f', _, rfl, by decide, by decide, by decide⟩
  | Value.string s, _ => by
    refine ⟨st.quote, _, by rw [print], ?_⟩
    rcases hst.2.2.2.2.2 with h | h <;> rw [h] <;> decide
  | Value.number _, h => by simp [Printable] at h
  | Value.integer n, _ => by
    obtain ⟨c, t, hct, hc⟩ := decimal_head n
    refine ⟨c, t, by simp [print, hct], ?_⟩
    rcases hc with h | rfl
    · exact ⟨not_isspace_of_isdigit h, by rintro rfl; exact absurd h (by decide),
        by rintro rfl; exact absurd h (by decide)⟩
    · decide
  | Value.object m, _ => ⟨'{', _, by rw [print], by decide, by decide, by decide⟩
  | Value.array a, _ => ⟨'[', _, by rw [print], by decide, by decide, by decide⟩

/-! ## Reading back a printed tree -/

mutual

theorem parse_value_print (st : Style) (hst : st.Valid) :
    ∀ v, DistinctKeys v → ∀ (rest : List Char) (v0 : Value), Stops rest →
      Converges (fun fuel => parse_value fuel (print st v ++ rest) v0) (rest, normalize v)
  | Value.null, _, rest, v0, _ =>
    Converges.of_eq (fun fuel => by
      simp only [print, normalize, List.cons_append, List.nil_append]
      exact parse_value_null fuel rest v0)
  | Value.boolean true, _, rest, v0, _ =>
    Converges.of_eq (fun fuel => by
      simp only [print, normalize, if_true, List.cons_append, List.nil_append]
      exact parse_value_true fuel rest v0)
  | Value.boolean false, _, rest, v0, _ =>
    Converges.of_eq (fun fuel => by
      simp only [print, normalize, Bool.false_eq_true, if_false, List.cons_append,
        List.nil_append]
      exact parse_value_false fuel rest v0)
  | Value.string s, h, rest, v0, _ =>
    Converges.of_eq (fun fuel => by
      have hs : ∀ c ∈ s, c ≠ st.quote ∧ c ≠ '\\' ∧ c ≠ NUL := fun c hc => by
        refine ⟨?_, (h c hc).2.2.1, (h c hc).2.2.2⟩
        rcases hst.2.2.2.2.2 with hq | hq <;> rw [hq]
        · exact (h c hc).1
        · exact (h c hc).2.1
      have := parse_value_string fuel st.quote hst.2.2.2.2.2 s rest v0 hs
      simpa [print, normalize] using this)
  | Value.number _, h, _, _, _ => by simp [DistinctKeys, Printable] at h
  | Value.integer n, h, rest, v0, hrest => by
    obtain ⟨r0, rest', rfl, hstop⟩ := hrest
    exact Converges.of_eq (fun fuel => by
      simpa [print, normalize] using parse_value_integer fuel n h r0 rest' v0 hstop)
  | Value.array a, h, rest, v0, _ => by
    have hl := array_loop_print st hst a h rest []
    have hg := array_loop_gap st.lead hst.1 hl
    have := parse_value_array v0 hg
    simpa [print, normalize] using this
  | Value.object m, h, rest, v0, _ => by
    have hl := object_loop_print st hst m h.1 h.2 rest [] (by simp)
    have hg := object_loop_gap st.lead hst.1 hl
    have := parse_value_object v0 hg
    simpa [print, normalize] using this

theorem array_loop_print (st : Style) (hst : st.Valid) :
    ∀ a, PrintableElements (fun x y => x ≠ y) a → ∀ (rest : List Char) (arr : List Value),
      Converges (fun fuel => parse_array_loop fuel
        (print_elements st a ++ (st.trail ++ ']' :: rest)) arr)
        (rest, arr ++ normalize_elements a)
  | [], _, rest, arr => by
    have := array_loop_gap st.trail hst.2.2.2.1 (array_loop_close rest arr)
    simpa [print_elements, normalize_elements] using this
  | v :: vs, h, rest, arr => by
    obtain ⟨hv, hvs⟩ := h
    obtain ⟨c, t, hct, hsp, h1, h2⟩ := print_head st hst _ v hv
    have ih := array_loop_print st hst vs hvs rest (arr ++ [normalize v])
    have hgap : ∀ c ∈ (if vs.isEmpty then [] else st.sep), GapChar c := by
      split_ifs
      · simp
      · exact hst.2.2.1
    have hafter : Stops ((if vs.isEmpty then [] else st.sep) ++
        (print_elements st vs ++ (st.trail ++ ']' :: rest))) := by
      cases vs with
      | nil =>
        simp only [List.isEmpty_nil, if_true, print_elements, List.nil_append]
        exact stops_gap_append hst.2.2.2.1 ⟨']', rest, rfl, by decide⟩
      | cons w ws =>
        simp only [List.isEmpty_cons, Bool.false_eq_true, if_false]
        exact stops_sep st hst _
    have hval := parse_value_print st hst v hv _ Value.null hafter
    have hloop := array_loop_gap _ hgap ih
    have := array_loop_element (c := c)
      (t := t ++ ((if vs.isEmpty then [] else st.sep) ++
        (print_elements st vs ++ (st.trail ++ ']' :: rest)))) hsp h1 h2
      (by simpa [hct] using hval) hloop
    simpa [print_elements, normalize_elements, hct] using this

theorem object_loop_print (st : Style) (hst : st.Valid) :
    ∀ m, PrintableMembers (fun x y => x ≠ y) m → (m.map Prod.fst).Pairwise (fun x y => x ≠ y) →
      ∀ (rest : List Char) (obj : List (List Char × Value)),
      (∀ k ∈ m.map Prod.fst, k ∉ obj.map Prod.fst) →
      Converges (fun fuel => parse_object_loop fuel
        (print_members st m ++ (st.trail ++ '}' :: rest)) obj)
        (rest, build_map obj (normalize_members m))
  | [], _, _, rest, obj, _ => by
    have := object_loop_gap st.trail hst.2.2.2.1 (object_loop_close rest obj)
    simpa [print_members, normalize_members, build_map] using this
  | (k, v) :: ms, h, hnd, rest, obj, hfresh => by
    obtain ⟨hk, hv, hms⟩ := h
    rw [List.map_cons, List.pairwise_cons] at hnd
    have hfresh' : ∀ k' ∈ ms.map Prod.fst,
        k' ∉ (map_emplace obj k (normalize v)).1.map Prod.fst := by
      intro k' hk' hmem
      rcases mem_keys_map_emplace obj k (normalize v) k' hmem with heq | hin
      · exact hnd.1 k' hk' heq.symm
      · exact hfresh k' (List.mem_cons_of_mem _ hk') hin
    have ih := object_loop_print st hst ms hms hnd.2 rest
      (map_emplace obj k (normalize v)).1 hfresh'
    have hgap : ∀ c ∈ (if ms.isEmpty then [] else st.sep), GapChar c := by
      split_ifs
      · simp
      · exact hst.2.2.1
    have hafter : Stops ((if ms.isEmpty then [] else st.sep) ++
        (print_members st ms ++ (st.trail ++ '}' :: rest))) := by
      cases ms with
      | nil =>
        simp only [List.isEmpty_nil, if_true, print_members, List.nil_append]
        exact stops_gap_append hst.2.2.2.1 ⟨'}', rest, rfl, by decide⟩
      | cons w ws =>
        simp only [List.isEmpty_cons, Bool.false_eq_true, if_false]
        exact stops_sep st hst _
    have hval := parse_value_print st hst v hv _ Value.null hafter
    have hval' : Converges (fun fuel => parse_value fuel
        (st.colon ++ (print st v ++ ((if ms.isEmpty then [] else st.sep) ++
          (print_members st ms ++ (st.trail ++ '}' :: rest))))) Value.null)
        ((if ms.isEmpty then [] else st.sep) ++
          (print_members st ms ++ (st.trail ++ '}' :: rest)), normalize v) := by
      have hfun : (fun fuel => parse_value fuel
          (st.colon ++ (print st v ++ ((if ms.isEmpty then [] else st.sep) ++
            (print_members st ms ++ (st.trail ++ '}' :: rest))))) Value.null) =
          (fun fuel => parse_value fuel
            (print st v ++ ((if ms.isEmpty then [] else st.sep) ++
              (print_members st ms ++ (st.trail ++ '}' :: rest)))) Value.null) :=
        funext (fun fuel => parse_value_spaces fuel _ _ _ hst.2.2.2.2.1)
      rw [hfun]; exact hval
    have hloop := object_loop_gap _ hgap ih
    have := object_loop_member hk (hfresh k (by simp)) hval' hloop
    simpa [print_members, normalize_members, build_map] using this

end

/-! ## Key order -/

theorem key_less_irrefl : ∀ a : List Char, key_less a a = false
  | [] => rfl
  | c :: cs => by simp [key_less, key_less_irrefl cs]

theorem key_less_asymm : ∀ a b : List Char, key_less a b = true → key_less b a = false
  | [], [], h => by simp [key_less] at h
  | [], _ :: _, _ => rfl
  | _ :: _, [], h => by simp [key_less] at h
  | x :: xs, y :: ys, h => by
    simp only [key_less] at h ⊢
    by_cases h1 : x.toNat < y.toNat
    · have h2 : ¬ y.toNat < x.toNat := by omega
      simp [h1, h2]
    · by_cases h2 : y.toNat < x.toNat
      · simp [h1, h2] at h
      · simp only [h1, h2, if_false] at h ⊢
        exact key_less_asymm xs ys h

theorem key_less_ne {a b : List Char} (h : key_less a b = true) : a ≠ b := by
  rintro rfl
  rw [key_less_irrefl] at h
  exact Bool.false_ne_true h

theorem map_emplace_last : ∀ (acc : List (List Char × Value)) (k : List Char) (v : Value),
    (∀ k' ∈ acc.map Prod.fst, key_less k' k = true) →
    (map_emplace acc k v).1 = acc ++ [(k, v)]
  | [], _, _, _ => rfl
  | (k0, w) :: acc, k, v, h => by
    have h0 := h k0 (by simp)
    have hne : k ≠ k0 := (key_less_ne h0).symm
    have hlt : key_less k k0 = false := key_less_asymm k0 k h0
    simp only [map_emplace, if_neg hne, hlt, Bool.false_eq_true, if_false, List.cons_append,
      List.cons.injEq, true_and]
    exact map_emplace_last acc k v (fun k' hk' => h k' (by simp at hk' ⊢; exact Or.inr hk'))

theorem build_map_sorted : ∀ (ms acc : List (List Char × Value)),
    ((acc ++ ms).map Prod.fst).Pairwise (fun a b => key_less a b = true) →
    build_map acc ms = acc ++ ms
  | [], acc, _ => by simp [build_map]
  | (k, v) :: ms, acc, h => by
    have hlast : (map_emplace acc k v).1 = acc ++ [(k, v)] := by
      apply map_emplace_last
      intro k' hk'
      rw [List.map_append, List.pairwise_append] at h
      exact h.2.2 k' hk' k (by simp)
    have ih := build_map_sorted ms (acc ++ [(k, v)]) (by simpa using h)
    simp only [build_map, List.foldl_cons] at ih ⊢
    rw [hlast, ih]
    simp

/-! ## Canonical trees -/

theorem normalize_members_keys : ∀ m : List (List Char × Value),
    (normalize_members m).map Prod.fst = m.map Prod.fst
  | [] => rfl
  | (k, v) :: ms => by simp [normalize_members, normalize_members_keys ms]

mutual

theorem distinct_of_canonical : ∀ v, Canonical v → DistinctKeys v
  | Value.null, _ => trivial
  | Value.boolean _, _ => trivial
  | Value.string _, h => h
  | Value.number _, h => h
  | Value.integer _, h => h
  | Value.object m, h =>
    ⟨distinct_members_of_canonical m h.1, h.2.imp (fun hab => key_less_ne hab)⟩
  | Value.array a, h => distinct_elements_of_canonical a h

theorem distinct_elements_of_canonical : ∀ a,
    PrintableElements (fun a b => key_less a b = true) a →
    PrintableElements (fun a b => a ≠ b) a
  | [], _ => trivial
  | v :: vs, h => ⟨distinct_of_canonical v h.1, distinct_elements_of_canonical vs h.2⟩

theorem distinct_members_of_canonical : ∀ m,
    PrintableMembers (fun a b => key_less a b = true) m →
    PrintableMembers (fun a b => a ≠ b) m
  | [], _ => trivial
  | (_, v) :: ms, h =>
    ⟨h.1, distinct_of_canonical v h.2.1, distinct_members_of_canonical ms h.2.2⟩

end

mutual

theorem normalize_canonical : ∀ v, Canonical v → normalize v = v
  | Value.null, _ => rfl
  | Value.boolean _, _ => rfl
  | Value.string _, _ => rfl
  | Value.number _, _ => rfl
  | Value.integer _, _ => rfl
  | Value.object m, h => by
    have hm := normalize_members_canonical m h.1
    rw [normalize, hm, build_map_sorted m [] (by simpa using h.2)]
    rfl
  | Value.array a, h => by
    rw [normalize, normalize_elements_canonical a h]

theorem normalize_elements_canonical : ∀ a,
    PrintableElements (fun a b => key_less a b = true) a → normalize_elements a = a
  | [], _ => rfl
  | v :: vs, h => by
    rw [normalize_elements, normalize_canonical v h.1, normalize_elements_canonical vs h.2]

theorem normalize_members_canonical : ∀ m,
    PrintableMembers (fun a b => key_less a b = true) m → normalize_members m = m
  | [], _ => rfl
  | (k, v) :: ms, h => by
    rw [normalize_members, normalize_canonical v h.2.1, normalize_members_canonical ms h.2.2]

end

/-! ## The entry point -/

theorem style_canonical_valid : Style.canonical.Valid := by
  refine ⟨by simp [Style.canonical], by simp [Style.canonical], ?_, by simp [Style.canonical],
    by simp [Style.canonical], Or.inr rfl⟩
  intro c hc
  simp only [Style.canonical, List.mem_cons, List.mem_singleton, List.not_mem_nil, or_false] at hc
  rcases hc with rfl | rfl
  · exact Or.inl rfl
  · exact Or.inr (by decide)

theorem stops_NUL : Stops [NUL] := ⟨NUL, [], rfl, by decide⟩

theorem parse_of_parse_value (str : List Char) {v : Value} {rest : List Char}
    (hne : str ≠ [])
    (h : Converges (fun fuel => parse_value fuel (str ++ [NUL]) Value.null) (rest, v)) :
    ∃ N, ∀ fuel, N ≤ fuel → parse fuel str = Outcome.done v := by
  obtain ⟨N, hN⟩ := h
  refine ⟨N, fun fuel hf => ?_⟩
  have he : str.isEmpty = false := by
    cases str with
    | nil => exact absurd rfl hne
    | cons c t => rfl
  simp [parse, he, hN fuel hf]

theorem print_ne_nil (st : Style) (hst : st.Valid) (v : Value) (h : DistinctKeys v) :
    print st v ≠ [] := by
  obtain ⟨c, t, hct, _⟩ := print_head st hst _ v h
  rw [hct]; simp

theorem parse_print (st : Style) (hst : st.Valid) (v : Value) (h : DistinctKeys v) :
    ∃ N, ∀ fuel, N ≤ fuel → parse fuel (print st v) = Outcome.done (normalize v) :=
  parse_of_parse_value _ (print_ne_nil st hst v h)
    (parse_value_print st hst v h [NUL] Value.null stops_NUL)

/-- C2: for every tree built from Null, Booleans, 64-bit Integers, Strings without quote
character, backslash or NUL, Arrays and Objects whose keys are bare identifiers in
strictly increasing order (the entries of a `std::map`, hence distinct), `parse` applied to
the canonical text of the tree returns exactly that tree, for every large enough fuel. -/
theorem parse_print_canonical (v : Value) (h : Canonical v) :
    ∃ N, ∀ fuel, N ≤ fuel → parse fuel (print Style.canonical v) = Outcome.done v := by
  have := parse_print Style.canonical style_canonical_valid v (distinct_of_canonical v h)
  rwa [normalize_canonical v h] at this

theorem parse_print_canonical_witness :
    Canonical (Value.object [(['a'], Value.array [Value.integer (-7), Value.null]),
      (['b', '1'], Value.string ['x', ' ', 'y'])]) ∧
    ∃ N, ∀ fuel, N ≤ fuel →
      parse fuel (print Style.canonical
        (Value.object [(['a'], Value.array [Value.integer (-7), Value.null]),
          (['b', '1'], Value.string ['x', ' ', 'y'])])) =
      Outcome.done (Value.object [(['a'], Value.array [Value.integer (-7), Value.null]),
        (['b', '1'], Value.string ['x', ' ', 'y'])]) :=
  have h : Canonical (Value.object [(['a'], Value.array [Value.integer (-7), Value.null]),
      (['b', '1'], Value.string ['x', ' ', 'y'])]) := by
    simp [Canonical, Printable, PrintableMembers, PrintableElements, BareIdentifier, InInt64,
      PlainText, isalpha, isdigit, key_less, NUL]
  ⟨h, parse_print_canonical _ h⟩

/-! ## Unclosed arrays -/

theorem parse_array_loop_at_end (fuel : Nat) :
    ∀ arr, parse_array_loop fuel [NUL] arr = Outcome.timeout := by
  induction fuel with
  | zero => intro arr; rfl
  | succ f ih =>
    intro arr
    cases f with
    | zero => rfl
    | succ g =>
      have h : parse_array_loop (g + 1 + 1) [NUL] arr =
          parse_array_loop (g + 1) [NUL] (arr ++ [Value.null]) := rfl
      rw [h]; exact ih _

/-- C1 (the code departs from it): on the input `[` the loop of `parse_array` never
ends.  At the terminator it appends a Null element, `parse_value` consumes nothing, and
the loop starts again: no amount of fuel gives a result. -/
theorem parse_unclosed_array_diverges : ∀ fuel, parse fuel ['['] = Outcome.timeout := by
  intro fuel
  match fuel with
  | 0 => rfl
  | 1 => rfl
  | k + 2 =>
    simp [parse, parse_value, parse_array, skip_spaces_not_space, isspace,
      parse_array_loop_at_end]

/-! ## Integers -/

theorem parse_value_plus_integer (fuel : Nat) (n : Int) (hn : InInt64 n) (h0 : 0 ≤ n)
    (r0 : Char) (rest : List Char) (v0 : Value)
    (hstop : (isdigit r0 || isxdigit r0 || r0 == '.' || r0 == 'x') = false) :
    parse_value (fuel + 1) ('+' :: (decimal n ++ r0 :: rest)) v0 =
      Outcome.done (r0 :: rest, Value.integer n) := by
  have hr0 : isdigit r0 = false := by
    simp only [Bool.or_eq_false_iff] at hstop
    exact hstop.1.1.1
  have hval := strtoll_plus_decimal n hn h0 r0 rest hr0
  obtain ⟨hne, hall, _⟩ := toDigits_run n.toNat
  rw [decimal_nonneg h0] at hval ⊢
  obtain ⟨d, ds, hds⟩ := List.exists_cons_of_ne_nil hne
  rw [hds] at hval hall ⊢
  have hd := hall d (List.mem_cons_self _ _)
  have hscan := parse_number_scan_digits '+' (d :: ds) r0 rest (by simp) hall hstop
  simp only [List.cons_append] at hval hscan ⊢
  rw [parse_value_number fuel _ _ _ (by simp),
    parse_number_token '+' d _ v0 (by decide) (by decide)
      (fun _ => ⟨by rintro rfl; exact absurd hd (by decide),
        by rintro rfl; exact absurd hd (by decide)⟩) (by decide) _ _ _ hscan, hval]
  simp

theorem stops_spaces_NUL (ws : List Char) (h : ∀ c ∈ ws, isspace c = true) :
    Stops (ws ++ [NUL]) :=
  stops_gap_append (fun c hc => Or.inr (h c hc)) stops_NUL

theorem parse_eq_of_parse_value {fuel : Nat} {str : List Char} {v : Value}
    (rest : List Char) (hne : str ≠ [])
    (h : parse_value fuel (str ++ [NUL]) Value.null = Outcome.done (rest, v)) :
    parse fuel str = Outcome.done v := by
  have he : str.isEmpty = false := by
    cases str with
    | nil => exact absurd rfl hne
    | cons c t => rfl
  simp [parse, he, h]

/-- C4: for every 64-bit signed integer `n`, `parse` of the decimal text of `n` (a leading
`-` when `n` is negative), surrounded by any white space, is the Integer `n`; and so is
`parse` of the text with a leading `+` when `n` is not negative. -/
theorem parse_decimal (n : Int) (hn : InInt64 n) (ws1 ws2 : List Char)
    (h1 : ∀ c ∈ ws1, isspace c = true) (h2 : ∀ c ∈ ws2, isspace c = true)
    (fuel : Nat) (hfuel : 0 < fuel) :
    parse fuel (ws1 ++ decimal n ++ ws2) = Outcome.done (Value.integer n) ∧
      (0 ≤ n → parse fuel (ws1 ++ ('+' :: decimal n) ++ ws2) =
        Outcome.done (Value.integer n)) := by
  obtain ⟨k, rfl⟩ : ∃ k, fuel = k + 1 := ⟨fuel - 1, by omega⟩
  obtain ⟨r0, rest, hr, hstop⟩ := stops_spaces_NUL ws2 h2
  obtain ⟨c, t, hct, _⟩ := decimal_head n
  constructor
  · apply parse_eq_of_parse_value (r0 :: rest) (by simp [hct])
    have e : ws1 ++ decimal n ++ ws2 ++ [NUL] = ws1 ++ (decimal n ++ r0 :: rest) := by
      rw [← hr]; simp
    rw [e, parse_value_spaces _ _ _ _ h1]
    exact parse_value_integer k n hn r0 rest Value.null hstop
  · intro h0
    apply parse_eq_of_parse_value (r0 :: rest) (by simp)
    have e : ws1 ++ ('+' :: decimal n) ++ ws2 ++ [NUL] =
        ws1 ++ ('+' :: (decimal n ++ r0 :: rest)) := by
      rw [← hr]; simp
    rw [e, parse_value_spaces _ _ _ _ h1]
    exact parse_value_plus_integer k n hn h0 r0 rest Value.null hstop

theorem parse_decimal_witness :
    InInt64 (-123) ∧ parse 1 (([' '] ++ decimal (-123)) ++ [' ']) =
      Outcome.done (Value.integer (-123)) :=
  ⟨by unfold InInt64; constructor <;> decide,
    (parse_decimal (-123) (by unfold InInt64; constructor <;> decide) [' '] [' ']
      (by decide) (by decide) 1 (by decide)).1⟩

/-! ## Sizes -/

theorem length_map_emplace : ∀ (obj : List (List Char × Value)) (k : List Char) (v : Value),
    k ∉ obj.map Prod.fst → (map_emplace obj k v).1.length = obj.length + 1
  | [], _, _, _ => rfl
  | (k0, w) :: obj, k, v, h => by
    simp only [List.map_cons, List.mem_cons, not_or] at h
    simp only [map_emplace, if_neg h.1]
    split_ifs
    · rfl
    · simp [length_map_emplace obj k v h.2]

theorem length_build_map : ∀ (ms obj : List (List Char × Value)),
    (ms.map Prod.fst).Pairwise (fun x y => x ≠ y) →
    (∀ k ∈ ms.map Prod.fst, k ∉ obj.map Prod.fst) →
    (build_map obj ms).length = obj.length + ms.length
  | [], obj, _, _ => rfl
  | (k, v) :: ms, obj, hnd, hfresh => by
    rw [List.map_cons, List.pairwise_cons] at hnd
    have hfresh' : ∀ k' ∈ ms.map Prod.fst, k' ∉ (map_emplace obj k v).1.map Prod.fst := by
      intro k' hk' hmem
      rcases mem_keys_map_emplace obj k v k' hmem with heq | hin
      · exact hnd.1 k' hk' heq.symm
      · exact hfresh k' (List.mem_cons_of_mem _ hk') hin
    have ih := length_build_map ms (map_emplace obj k v).1 hnd.2 hfresh'
    simp only [build_map, List.foldl_cons] at ih ⊢
    rw [ih, length_map_emplace obj k v (hfresh k (by simp))]
    simp only [List.length_cons]
    omega

theorem length_normalize_elements : ∀ a : List Value, (normalize_elements a).length = a.length
  | [] => rfl
  | v :: vs => by simp [normalize_elements, length_normalize_elements vs]

theorem size_normalize (v : Value) (h : DistinctKeys v) : (normalize v).size = v.size := by
  cases v with
  | object m =>
    have hk : ((normalize_members m).map Prod.fst).Pairwise (fun x y => x ≠ y) := by
      rw [normalize_members_keys]; exact h.2
    have := length_build_map (normalize_members m) [] hk (by simp)
    have hl : (normalize_members m).length = m.length := by
      have := congrArg List.length (normalize_members_keys m)
      simpa using this
    simp [normalize, Value.size, this, hl]
  | array a => simp [normalize, Value.size, length_normalize_elements]
  | null => rfl
  | boolean b => rfl
  | string s => rfl
  | number x => rfl
  | integer n => rfl

/-! ## Hexadecimal prefixes -/

/-- C5 (the code departs from it): with the prefix `0X` the scan of `parse_number` stops
on the `X`, which its loop condition does not accept, the base stays 10 and `strtoll`
returns 0; with the prefix `0x` the same digits give the base-16 value. -/
theorem parse_hex_upper_prefix (fuel : Nat) :
    parse (fuel + 1) ['0', 'X', 'A'] = Outcome.done (Value.integer 0) ∧
      parse (fuel + 1) ['0', 'x', 'A'] = Outcome.done (Value.integer 10) :=
  ⟨rfl, rfl⟩

/-! ## Special literals -/

/-- C7: for each of the texts `NaN`, `+NaN`, `-NaN`, `Infinity`, `+Infinity`, `-Infinity`,
followed by any text, `parse` returns the Float variant with the value of the table (a NaN
for the three first, the infinity of the sign for the three last), and `parse_number`
moves the cursor by exactly the length of the literal. -/
theorem parse_special_literal (lit : List Char) (x : NumberFloat)
    (h : (lit, x) ∈ special_literals) (t : List Char) (v0 : Value) (fuel : Nat) :
    parse (fuel + 1) (lit ++ t) = Outcome.done (Value.number x) ∧
      parse_number (lit ++ t) v0 = Outcome.done ((lit ++ t).drop lit.length, Value.number x) ∧
      (x.isnan = true ↔ lit ∈ [['N', 'a', 'N'], ['+', 'N', 'a', 'N'], ['-', 'N', 'a', 'N']]) ∧
      (x = NumberFloat.infinity false ↔
        lit ∈ [['I', 'n', 'f', 'i', 'n', 'i', 't', 'y'],
          ['+', 'I', 'n', 'f', 'i', 'n', 'i', 't', 'y']]) ∧
      (x = NumberFloat.infinity true ↔ lit = ['-', 'I', 'n', 'f', 'i', 'n', 'i', 't', 'y']) := by
  simp only [special_literals, List.mem_cons, Prod.mk.injEq, List.mem_singleton,
    List.not_mem_nil, or_false] at h
  rcases h with ⟨rfl, rfl⟩ | ⟨rfl, rfl⟩ | ⟨rfl, rfl⟩ | ⟨rfl, rfl⟩ | ⟨rfl, rfl⟩ | ⟨rfl, rfl⟩
  all_goals
    refine ⟨?_, ?_, by simp [NumberFloat.isnan], by simp, by simp⟩
    · simp [parse, parse_value, skip_spaces_not_space, isspace, isdigit, parse_number,
        strncmp_eq, NUL]
    · simp [parse_number, strncmp_eq, NUL]

theorem parse_special_literal_witness :
    ((['-', 'N', 'a', 'N'], NumberFloat.quiet_NaN true) ∈ special_literals) ∧
      parse 1 (['-', 'N', 'a', 'N'] ++ ['x']) =
        Outcome.done (Value.number (NumberFloat.quiet_NaN true)) :=
  ⟨by simp [special_literals],
    (parse_special_literal ['-', 'N', 'a', 'N'] (NumberFloat.quiet_NaN true)
      (by simp [special_literals]) ['x'] Value.null 0).1⟩

/-! ## Strings -/

/-- C8: for a quote character `"` or `'`, a body without that quote, backslash or NUL, and
any trailing text `t`, `parse` of quote, body, quote, `t` is the String `body`, and
`parse_string` leaves the cursor one past the closing quote, on the first character of
`t`. -/
theorem parse_quoted (quote : Char) (hq : quote = '"' ∨ quote = '\'') (body t : List Char)
    (hbody : ∀ c ∈ body, c ≠ quote ∧ c ≠ '\\' ∧ c ≠ NUL) (v0 : Value) (fuel : Nat) :
    parse (fuel + 1) (quote :: (body ++ quote :: t)) = Outcome.done (Value.string body) ∧
      parse_string (quote :: (body ++ quote :: (t ++ [NUL]))) v0 =
        Outcome.done (t ++ [NUL], Value.string body) := by
  have hq1 : quote ≠ NUL := by rcases hq with rfl | rfl <;> decide
  have hq2 : quote ≠ '\\' := by rcases hq with rfl | rfl <;> decide
  refine ⟨?_, parse_string_plain quote hq1 hq2 body _ v0 hbody⟩
  apply parse_eq_of_parse_value (t ++ [NUL]) (by simp)
  have := parse_value_string fuel quote hq body (t ++ [NUL]) Value.null hbody
  simpa using this

theorem parse_quoted_witness :
    ('"' = '"' ∨ '"' = '\'') ∧ (∀ c ∈ ['a', '\'', ' ', 'b'], c ≠ '"' ∧ c ≠ '\\' ∧ c ≠ NUL) ∧
      parse 1 ('"' :: (['a', '\'', ' ', 'b'] ++ '"' :: [',', '1'])) =
        Outcome.done (Value.string ['a', '\'', ' ', 'b']) :=
  ⟨Or.inl rfl, by decide,
    (parse_quoted '"' (Or.inl rfl) ['a', '\'', ' ', 'b'] [',', '1'] (by decide) Value.null 0).1⟩

/-! ## Float or Integer -/

theorem number_char_continues {c : Char} (h : isdigit c = true ∨ c = '.') :
    (isdigit c || isxdigit c || c == '.' || c == 'x') = true := by
  rcases h with h | rfl
  · simp [h]
  · decide

theorem number_char_not_special {c : Char} (h : isdigit c = true ∨ c = '.') :
    c ≠ 'N' ∧ c ≠ 'I' := by
  rcases h with h | rfl
  · exact ⟨by rintro rfl; exact absurd h (by decide), by rintro rfl; exact absurd h (by decide)⟩
  · decide

theorem parse_token_aux (c0 : Char) (tok : List Char) (fuel : Nat)
    (hc0 : isdigit c0 = true ∨ c0 = '-' ∨ c0 = '+' ∨ c0 = '.')
    (hN : c0 ≠ 'N') (hI : c0 ≠ 'I')
    (hsign : c0 = '+' ∨ c0 = '-' → ∃ c1 t, tok = c1 :: t)
    (htok : ∀ c ∈ tok, isdigit c = true ∨ c = '.') :
    parse (fuel + 1) (c0 :: tok) =
      Outcome.done (if (c0 :: tok).any (fun d => d == '.') then
          Value.number (NumberFloat.strtod (c_str (c0 :: (tok ++ [NUL]))))
        else Value.integer (strtoll (c0 :: (tok ++ [NUL]))
          (if (c0 :: tok).any (fun d => d == 'x' || d == 'X') then 16 else 10))) := by
  have hscan := parse_number_scan_token tok c0 NUL [] false 10
    (fun d hd => number_char_continues (htok d hd)) (by decide)
  obtain ⟨c1, t, hct⟩ : ∃ c1 t, tok ++ [NUL] = c1 :: t := by
    cases tok with
    | nil => exact ⟨NUL, [], rfl⟩
    | cons x xs => exact ⟨x, xs ++ [NUL], rfl⟩
  have hs : c0 = '+' ∨ c0 = '-' → c1 ≠ 'N' ∧ c1 ≠ 'I' := by
    intro h
    obtain ⟨d, t', rfl⟩ := hsign h
    simp only [List.cons_append, List.cons.injEq] at hct
    rw [← hct.1]
    exact number_char_not_special (htok d (List.mem_cons_self _ _))
  have hstart : (c0 == '-' || c0 == '+' || c0 == '.' || isdigit c0) = true := by
    rcases hc0 with h | rfl | rfl | rfl
    · simp [h]
    · decide
    · decide
    · decide
  apply parse_eq_of_parse_value [NUL] (by simp)
  rw [List.cons_append, parse_value_number fuel c0 _ _ hc0]
  rw [hct] at hscan ⊢
  rw [parse_number_token c0 c1 t _ hN hI hs hstart _ _ _ hscan]
  simp

/-- C6: for every numeric token made of an optional sign and of decimal digits and radix
points (at least one digit), `parse` yields the Float variant (`is_number` true,
`is_number_integer` false) exactly when the token contains a radix point, and the Integer
variant (`is_number_integer` true, `is_number` false) exactly when it does not. -/
theorem parse_numeric_token (sign body : List Char)
    (hsign : sign = [] ∨ sign = ['+'] ∨ sign = ['-'])
    (hbody : ∀ c ∈ body, isdigit c = true ∨ c = '.')
    (hdigit : ∃ c ∈ body, isdigit c = true) (fuel : Nat) :
    ∃ r, parse (fuel + 1) (sign ++ body) = Outcome.done r ∧
      ((r.is_number = true ∧ r.is_number_integer = false) ↔ '.' ∈ body) ∧
      ((r.is_number_integer = true ∧ r.is_number = false) ↔ '.' ∉ body) := by
  obtain ⟨b0, body', rfl⟩ : ∃ b0 body', body = b0 :: body' := by
    obtain ⟨c, hc, _⟩ := hdigit
    cases body with
    | nil => exact absurd hc (List.not_mem_nil _)
    | cons x xs => exact ⟨x, xs, rfl⟩
  have hb0 := hbody b0 (List.mem_cons_self _ _)
  have hdot : ∀ c0 : Char, c0 ≠ '.' →
      ((c0 :: b0 :: body').any (fun d => d == '.') = true ↔ '.' ∈ b0 :: body') := by
    intro c0 hc0
    simp only [List.any_cons, Bool.or_eq_true, beq_iff_eq, List.any_eq_true, List.mem_cons]
    constructor
    · rintro (h | h | ⟨x, hx, rfl⟩)
      · exact absurd h hc0
      · exact Or.inl h.symm
      · exact Or.inr hx
    · rintro (h | h)
      · exact Or.inr (Or.inl h.symm)
      · exact Or.inr (Or.inr ⟨'.', h, rfl⟩)
  have hdot0 : ((b0 :: body').any (fun d => d == '.') = true ↔ '.' ∈ b0 :: body') := by
    simp only [List.any_cons, Bool.or_eq_true, beq_iff_eq, List.any_eq_true, List.mem_cons]
    constructor
    · rintro (h | ⟨x, hx, rfl⟩)
      · exact Or.inl h.symm
      · exact Or.inr hx
    · rintro (h | h)
      · exact Or.inl h.symm
      · exact Or.inr ⟨'.', h, rfl⟩
  rcases hsign with rfl | rfl | rfl
  · have hp := parse_token_aux b0 body' fuel
      (by rcases hb0 with h | h; exact Or.inl h; exact Or.inr (Or.inr (Or.inr h)))
      (number_char_not_special hb0).1 (number_char_not_special hb0).2
      (by
        rintro (rfl | rfl)
        · rcases hb0 with h | h
          · exact absurd h (by decide)
          · exact absurd h (by decide)
        · rcases hb0 with h | h
          · exact absurd h (by decide)
          · exact absurd h (by decide))
      (fun c hc => hbody c (List.mem_cons_of_mem _ hc))
    refine ⟨_, hp, ?_, ?_⟩
    · rw [← hdot0]; split_ifs with h <;> simp [Value.is_number, Value.is_number_integer, h]
    · rw [← hdot0]; split_ifs with h <;> simp [Value.is_number, Value.is_number_integer, h]
  · have hp := parse_token_aux '+' (b0 :: body') fuel (by simp) (by decide) (by decide)
      (fun _ => ⟨b0, body', rfl⟩) hbody
    refine ⟨_, hp, ?_, ?_⟩
    · rw [← hdot '+' (by decide)]
      split_ifs with h <;> simp [Value.is_number, Value.is_number_integer, h]
    · rw [← hdot '+' (by decide)]
      split_ifs with h <;> simp [Value.is_number, Value.is_number_integer, h]
  · have hp := parse_token_aux '-' (b0 :: body') fuel (by simp) (by decide) (by decide)
      (fun _ => ⟨b0, body', rfl⟩) hbody
    refine ⟨_, hp, ?_, ?_⟩
    · rw [← hdot '-' (by decide)]
      split_ifs with h <;> simp [Value.is_number, Value.is_number_integer, h]
    · rw [← hdot '-' (by decide)]
      split_ifs with h <;> simp [Value.is_number, Value.is_number_integer, h]

theorem parse_numeric_token_witness :
    (['-'] = ([] : List Char) ∨ ['-'] = ['+'] ∨ ['-'] = ['-']) ∧
    (∀ c ∈ ['1', '2', '.', '5'], isdigit c = true ∨ c = '.') ∧
    (∃ c ∈ ['1', '2', '.', '5'], isdigit c = true) ∧
    ∃ r, parse 1 (['-'] ++ ['1', '2', '.', '5']) = Outcome.done r ∧
      ((r.is_number = true ∧ r.is_number_integer = false) ↔ '.' ∈ ['1', '2', '.', '5']) ∧
      ((r.is_number_integer = true ∧ r.is_number = false) ↔ '.' ∉ ['1', '2', '.', '5']) :=
  ⟨by decide, by decide, by decide,
    parse_numeric_token ['-'] ['1', '2', '.', '5'] (by decide) (by decide) (by decide) 0⟩

/-! ## Arrays of integers -/

theorem int_array_loop : ∀ (items : List (Int × List Char)) (rest : List Char)
    (arr : List Value), GapsOk (items.map Prod.snd) → (∀ it ∈ items, InInt64 it.1) →
    Converges (fun fuel => parse_array_loop fuel (int_array_body items ++ rest) arr)
      (rest, arr ++ items.map (fun it => Value.integer it.1))
  | [], rest, arr, _, _ => by
    simpa [int_array_body] using array_loop_close rest arr
  | (n, gap) :: items, rest, arr, hsep, hrange => by
    obtain ⟨hgap, hcomma, hsep'⟩ : (∀ c ∈ gap, GapChar c) ∧
        (items.map Prod.snd ≠ [] → ',' ∈ gap) ∧ GapsOk (items.map Prod.snd) := hsep
    have hn := hrange (n, gap) (List.mem_cons_self _ _)
    have ih := int_array_loop items rest (arr ++ [Value.integer n]) hsep'
      (fun it hit => hrange it (List.mem_cons_of_mem _ hit))
    have hafter : Stops (gap ++ (int_array_body items ++ rest)) := by
      cases gap with
      | cons c g => exact ⟨c, _, rfl, gap_char_stops (hgap c (List.mem_cons_self _ _))⟩
      | nil =>
        cases items with
        | nil => exact ⟨']', rest, rfl, by decide⟩
        | cons it items => exact absurd (hcomma (by simp)) (List.not_mem_nil _)
    obtain ⟨r0, rest', hr, hstop⟩ := hafter
    obtain ⟨c, t, hct, hc⟩ := decimal_head n
    have hc' : isspace c = false ∧ c ≠ ',' ∧ c ≠ ']' := by
      rcases hc with h | rfl
      · exact ⟨not_isspace_of_isdigit h, by rintro rfl; exact absurd h (by decide),
          by rintro rfl; exact absurd h (by decide)⟩
      · decide
    have hval : Converges (fun fuel => parse_value fuel
        (c :: (t ++ (gap ++ (int_array_body items ++ rest)))) Value.null)
        (gap ++ (int_array_body items ++ rest), Value.integer n) :=
      Converges.of_eq (fun fuel => by
        have := parse_value_integer fuel n hn r0 rest' Value.null hstop
        rw [← hr, hct] at this
        simpa using this)
    have := array_loop_element hc'.1 hc'.2.1 hc'.2.2 hval (array_loop_gap gap hgap ih)
    simpa [int_array_body, hct] using this

/-- C9: for every list of 64-bit integers, `parse` of the array literal that lists them in
decimal, with any run of commas and white space after the opening bracket and after each
integer (a comma at least between two integers), is the Array of these Integers in the
written order: its size is their number and its element at each index is the Integer
written there.  Leading, trailing and repeated commas do not change the result. -/
theorem parse_int_array (lead : List Char) (items : List (Int × List Char))
    (hlead : ∀ c ∈ lead, GapChar c) (hsep : GapsOk (items.map Prod.snd))
    (hrange : ∀ it ∈ items, InInt64 it.1) :
    ∃ N, ∀ fuel, N ≤ fuel →
      ∃ r, parse fuel ('[' :: (lead ++ int_array_body items)) = Outcome.done r ∧
        r = Value.array (items.map (fun it => Value.integer it.1)) ∧
        r.size = items.length ∧
        ∀ i, i < items.length →
          r.at_index i = (items.get? i).map (fun it => Value.integer it.1) := by
  have hloop := int_array_loop items [NUL] [] hsep hrange
  have hval := parse_value_array Value.null (array_loop_gap lead hlead hloop)
  obtain ⟨N, hN⟩ := parse_of_parse_value ('[' :: (lead ++ int_array_body items))
    (by simp) (by simpa using hval)
  refine ⟨N, fun fuel hf => ⟨_, hN fuel hf, by simp, by simp [Value.size], ?_⟩⟩
  intro i _
  simp [Value.at_index]

theorem parse_int_array_witness :
    (∀ c ∈ [',', ' '], GapChar c) ∧
    GapsOk ([((1 : Int), [',', ',', ' ']), (-2, [' ', ','])].map Prod.snd) ∧
    (∀ it ∈ [((1 : Int), [',', ',', ' ']), (-2, [' ', ','])], InInt64 it.1) ∧
    '[' :: ([',', ' '] ++ int_array_body [(1, [',', ',', ' ']), (-2, [' ', ','])]) =
      ['[', ',', ' ', '1', ',', ',', ' ', '-', '2', ' ', ',', ']'] ∧
    ∃ N, ∀ fuel, N ≤ fuel →
      ∃ r, parse fuel ('[' :: ([',', ' '] ++
          int_array_body [(1, [',', ',', ' ']), (-2, [' ', ','])])) = Outcome.done r ∧
        r = Value.array ([((1 : Int), [',', ',', ' ']), (-2, [' ', ','])].map
          (fun it => Value.integer it.1)) ∧
        r.size = [((1 : Int), [',', ',', ' ']), (-2, [' ', ','])].length ∧
        ∀ i, i < [((1 : Int), [',', ',', ' ']), (-2, [' ', ','])].length →
          r.at_index i = ([((1 : Int), [',', ',', ' ']), (-2, [' ', ','])].get? i).map
            (fun it => Value.integer it.1) :=
  have h1 : ∀ c ∈ [',', ' '], GapChar c := by
    intro c hc
    simp only [List.mem_cons, List.mem_singleton, List.not_mem_nil, or_false] at hc
    rcases hc with rfl | rfl
    · exact Or.inl rfl
    · exact Or.inr (by decide)
  have h2 : GapsOk ([((1 : Int), [',', ',', ' ']), (-2, [' ', ','])].map Prod.snd) := by
    simp [GapsOk, GapChar, isspace]
  have h3 : ∀ it ∈ [((1 : Int), [',', ',', ' ']), (-2, [' ', ','])], InInt64 it.1 := by
    intro it hit
    simp only [List.mem_cons, List.mem_singleton, List.not_mem_nil, or_false] at hit
    rcases hit with rfl | rfl <;> (unfold InInt64; constructor <;> decide)
  ⟨h1, h2, h3, by rfl, parse_int_array _ _ h1 h2 h3⟩

/-! ## Objects of integers -/

theorem map_find_emplace_self : ∀ (obj : List (List Char × Value)) (k : List Char) (v : Value),
    k ∉ obj.map Prod.fst → map_find (map_emplace obj k v).1 k = some v
  | [], _, _, _ => by simp [map_emplace, map_find]
  | (k0, w) :: obj, k, v, h => by
    simp only [List.map_cons, List.mem_cons, not_or] at h
    simp only [map_emplace, if_neg h.1]
    split_ifs
    · simp [map_find]
    · simp [map_find, h.1, map_find_emplace_self obj k v h.2]

theorem map_find_emplace_other : ∀ (obj : List (List Char × Value)) (k : List Char) (v : Value)
    (k' : List Char), k' ≠ k → map_find (map_emplace obj k v).1 k' = map_find obj k'
  | [], _, _, _, h => by simp [map_emplace, map_find, h]
  | (k0, w) :: obj, k, v, k', h => by
    simp only [map_emplace]
    split_ifs
    · rfl
    · simp [map_find, h]
    · simp [map_find, map_find_emplace_other obj k v k' h]

theorem map_find_build_map_keep : ∀ (ms obj : List (List Char × Value)) (k : List Char),
    k ∉ ms.map Prod.fst → map_find (build_map obj ms) k = map_find obj k
  | [], _, _, _ => rfl
  | (k0, v0) :: ms, obj, k, h => by
    simp only [List.map_cons, List.mem_cons, not_or] at h
    have ih := map_find_build_map_keep ms (map_emplace obj k0 v0).1 k h.2
    simp only [build_map, List.foldl_cons] at ih ⊢
    rw [ih, map_find_emplace_other obj k0 v0 k h.1]

theorem map_find_build_map : ∀ (ms obj : List (List Char × Value)),
    (ms.map Prod.fst).Pairwise (fun x y => x ≠ y) →
    (∀ k ∈ ms.map Prod.fst, k ∉ obj.map Prod.fst) →
    ∀ kv ∈ ms, map_find (build_map obj ms) kv.1 = some kv.2
  | [], _, _, _, kv, hkv => absurd hkv (List.not_mem_nil _)
  | (k0, v0) :: ms, obj, hnd, hfresh, kv, hkv => by
    rw [List.map_cons, List.pairwise_cons] at hnd
    have hfresh' : ∀ k' ∈ ms.map Prod.fst, k' ∉ (map_emplace obj k0 v0).1.map Prod.fst := by
      intro k' hk' hmem
      rcases mem_keys_map_emplace obj k0 v0 k' hmem with heq | hin
      · exact hnd.1 k' hk' heq.symm
      · exact hfresh k' (List.mem_cons_of_mem _ hk') hin
    rcases List.mem_cons.mp hkv with rfl | hin
    · have hk0 : k0 ∉ ms.map Prod.fst := fun hmem => hnd.1 k0 hmem rfl
      have := map_find_build_map_keep ms (map_emplace obj k0 v0).1 k0 hk0
      simp only [build_map, List.foldl_cons] at this ⊢
      rw [this, map_find_emplace_self obj k0 v0 (hfresh k0 (by simp))]
    · have ih := map_find_build_map ms (map_emplace obj k0 v0).1 hnd.2 hfresh' kv hin
      simpa [build_map] using ih

theorem normalize_members_integers : ∀ kvs : List (List Char × Int),
    normalize_members (kvs.map (fun kv => (kv.1, Value.integer kv.2))) =
      kvs.map (fun kv => (kv.1, Value.integer kv.2))
  | [] => rfl
  | kv :: kvs => by
    simp [normalize_members, normalize, normalize_members_integers kvs]

theorem printable_members_integers : ∀ kvs : List (List Char × Int),
    (∀ kv ∈ kvs, BareIdentifier kv.1) → (∀ kv ∈ kvs, InInt64 kv.2) →
    PrintableMembers (fun x y => x ≠ y) (kvs.map (fun kv => (kv.1, Value.integer kv.2)))
  | [], _, _ => trivial
  | kv :: kvs, hk, hr =>
    ⟨hk kv (List.mem_cons_self _ _), hr kv (List.mem_cons_self _ _),
      printable_members_integers kvs (fun x hx => hk x (List.mem_cons_of_mem _ hx))
        (fun x hx => hr x (List.mem_cons_of_mem _ hx))⟩

theorem style_spaced_valid : Style.spaced.Valid := by
  have hsp : ∀ c ∈ [' '], GapChar c := fun c hc => by
    rw [List.mem_singleton.mp hc]; exact Or.inr (by decide)
  refine ⟨hsp, by simp [Style.spaced], ?_, hsp, ?_, Or.inr rfl⟩
  · intro c hc
    simp only [Style.spaced, List.mem_cons, List.mem_singleton, List.not_mem_nil,
      or_false] at hc
    rcases hc with rfl | rfl
    · exact Or.inl rfl
    · exact Or.inr (by decide)
  · intro c hc
    rw [List.mem_singleton.mp hc]; decide

/-- C10: for every list of pairwise distinct bare-identifier keys with 64-bit integers,
`parse` of the object literal `{ k1: v1, ..., kn: vn }` is an Object of `size()` n in
which `at(ki)` and `operator[](ki)` both return the Integer `vi`, for every i. -/
theorem parse_object_of_integers (kvs : List (List Char × Int))
    (hkeys : ∀ kv ∈ kvs, BareIdentifier kv.1)
    (hdistinct : (kvs.map Prod.fst).Pairwise (fun x y => x ≠ y))
    (hrange : ∀ kv ∈ kvs, InInt64 kv.2) :
    ∃ N, ∀ fuel, N ≤ fuel →
      ∃ r, parse fuel (print Style.spaced
          (Value.object (kvs.map (fun kv => (kv.1, Value.integer kv.2))))) = Outcome.done r ∧
        r.is_object = true ∧ r.size = kvs.length ∧
        ∀ kv ∈ kvs, r.at_key kv.1 = Access.value (Value.integer kv.2) ∧
          r.index_key kv.1 = Access.value (Value.integer kv.2) := by
  have hmap : (kvs.map (fun kv => (kv.1, Value.integer kv.2))).map Prod.fst =
      kvs.map Prod.fst := by
    simp [List.map_map, Function.comp_def]
  have hd : DistinctKeys (Value.object (kvs.map (fun kv => (kv.1, Value.integer kv.2)))) :=
    ⟨printable_members_integers kvs hkeys hrange, by rw [hmap]; exact hdistinct⟩
  obtain ⟨N, hN⟩ := parse_print Style.spaced style_spaced_valid _ hd
  refine ⟨N, fun fuel hf => ⟨_, hN fuel hf, ?_, ?_, ?_⟩⟩
  · simp [normalize, Value.is_object]
  · have := size_normalize _ hd
    simpa [Value.size] using this
  · intro kv hkv
    have hfind := map_find_build_map (kvs.map (fun kv => (kv.1, Value.integer kv.2))) []
      (by rw [hmap]; exact hdistinct) (by simp) (kv.1, Value.integer kv.2)
      (List.mem_map.mpr ⟨kv, hkv, rfl⟩)
    simp only at hfind
    simp [normalize, normalize_members_integers, Value.index_key, Value.at_key, hfind]

theorem parse_object_of_integers_witness :
    (∀ kv ∈ [(['b', '_', '1'], (123 : Int)), (['a'], -4)], BareIdentifier kv.1) ∧
    ([(['b', '_', '1'], (123 : Int)), (['a'], -4)].map Prod.fst).Pairwise (fun x y => x ≠ y) ∧
    (∀ kv ∈ [(['b', '_', '1'], (123 : Int)), (['a'], -4)], InInt64 kv.2) ∧
    print Style.spaced (Value.object ([(['b', '_', '1'], (123 : Int)), (['a'], -4)].map
      (fun kv => (kv.1, Value.integer kv.2)))) =
      ['{', ' ', 'b', '_', '1', ':', ' ', '1', '2', '3', ',', ' ', 'a', ':', ' ', '-', '4',
        ' ', '}'] ∧
    ∃ N, ∀ fuel, N ≤ fuel →
      ∃ r, parse fuel (print Style.spaced
          (Value.object ([(['b', '_', '1'], (123 : Int)), (['a'], -4)].map
            (fun kv => (kv.1, Value.integer kv.2))))) = Outcome.done r ∧
        r.is_object = true ∧ r.size = [(['b', '_', '1'], (123 : Int)), (['a'], -4)].length ∧
        ∀ kv ∈ [(['b', '_', '1'], (123 : Int)), (['a'], -4)],
          r.at_key kv.1 = Access.value (Value.integer kv.2) ∧
          r.index_key kv.1 = Access.value (Value.integer kv.2) :=
  have h1 : ∀ kv ∈ [(['b', '_', '1'], (123 : Int)), (['a'], -4)], BareIdentifier kv.1 := by
    intro kv hkv
    simp only [List.mem_cons, List.mem_singleton, List.not_mem_nil, or_false] at hkv
    rcases hkv with rfl | rfl <;> simp [BareIdentifier, isalpha, isdigit]
  have h2 : ([(['b', '_', '1'], (123 : Int)), (['a'], -4)].map Prod.fst).Pairwise
      (fun x y => x ≠ y) := by simp
  have h3 : ∀ kv ∈ [(['b', '_', '1'], (123 : Int)), (['a'], -4)], InInt64 kv.2 := by
    intro kv hkv
    simp only [List.mem_cons, List.mem_singleton, List.not_mem_nil, or_false] at hkv
    rcases hkv with rfl | rfl <;> (unfold InInt64; constructor <;> decide)
  ⟨h1, h2, h3, by rfl, parse_object_of_integers _ h1 h2 h3⟩

/-! ## Literals read as one value -/

theorem continues_not_special {c : Char}
    (h : (isdigit c || isxdigit c || c == '.' || c == 'x') = true) : c ≠ 'N' ∧ c ≠ 'I' :=
  ⟨by rintro rfl; exact absurd h (by decide), by rintro rfl; exact absurd h (by decide)⟩

theorem parse_value_number_token (c0 : Char) (tok : List Char) (h : NumberToken c0 tok)
    (r0 : Char) (rest : List Char)
    (hstop : (isdigit r0 || isxdigit r0 || r0 == '.' || r0 == 'x') = false) :
    ∃ v, ∀ (fuel : Nat) (v0 : Value),
      parse_value (fuel + 1) (c0 :: (tok ++ r0 :: rest)) v0 = Outcome.done (r0 :: rest, v) := by
  obtain ⟨hc0, htok⟩ := h
  have hscan := parse_number_scan_token tok c0 r0 rest false 10 htok hstop
  obtain ⟨c1, t, hct⟩ : ∃ c1 t, tok ++ r0 :: rest = c1 :: t := by
    cases tok with
    | nil => exact ⟨r0, rest, rfl⟩
    | cons x xs => exact ⟨x, xs ++ r0 :: rest, rfl⟩
  have hs : c0 = '+' ∨ c0 = '-' → c1 ≠ 'N' ∧ c1 ≠ 'I' := by
    intro hsign
    have hne : tok ≠ [] := by
      rcases hc0 with hd | rfl | ⟨_, hne⟩
      · rcases hsign with rfl | rfl <;> exact absurd hd (by decide)
      · rcases hsign with hh | hh <;> exact absurd hh (by decide)
      · exact hne
    obtain ⟨d, t', rfl⟩ := List.exists_cons_of_ne_nil hne
    simp only [List.cons_append, List.cons.injEq] at hct
    rw [← hct.1]
    exact continues_not_special (htok d (List.mem_cons_self _ _))
  have hdisp : isdigit c0 = true ∨ c0 = '-' ∨ c0 = '+' ∨ c0 = '.' := by
    rcases hc0 with hd | rfl | ⟨hsg | hsg, _⟩
    · exact Or.inl hd
    · exact Or.inr (Or.inr (Or.inr rfl))
    · exact Or.inr (Or.inl hsg)
    · exact Or.inr (Or.inr (Or.inl hsg))
  have hN : c0 ≠ 'N' ∧ c0 ≠ 'I' := by
    rcases hdisp with hd | rfl | rfl | rfl
    · exact ⟨by rintro rfl; exact absurd hd (by decide),
        by rintro rfl; exact absurd hd (by decide)⟩
    · decide
    · decide
    · decide
  have hstart : (c0 == '-' || c0 == '+' || c0 == '.' || isdigit c0) = true := by
    rcases hdisp with hd | rfl | rfl | rfl
    · simp [hd]
    · decide
    · decide
    · decide
  rw [hct] at hscan ⊢
  have key := fun v0 => parse_number_token c0 c1 t v0 hN.1 hN.2 hs hstart _ _ _ hscan
  exact ⟨_, fun fuel v0 => (parse_value_number fuel c0 _ v0 hdisp).trans (key v0)⟩

theorem parse_value_special (lit : List Char) (x : NumberFloat)
    (h : (lit, x) ∈ special_literals) (t : List Char) (v0 : Value) (fuel : Nat) :
    parse_value (fuel + 1) (lit ++ t) v0 = Outcome.done (t, Value.number x) := by
  simp only [special_literals, List.mem_cons, Prod.mk.injEq, List.mem_singleton,
    List.not_mem_nil, or_false] at h
  rcases h with ⟨rfl, rfl⟩ | ⟨rfl, rfl⟩ | ⟨rfl, rfl⟩ | ⟨rfl, rfl⟩ | ⟨rfl, rfl⟩ | ⟨rfl, rfl⟩ <;>
    simp [parse_value, skip_spaces_not_space, isspace, isdigit, parse_number, strncmp_eq, NUL]

theorem array_body_loop : ∀ (items : List (List Char × List Char)) (rest : List Char)
    (arr : List Value), GapsOk (items.map Prod.snd) → (∀ it ∈ items, ReadsOne it.1) →
    ∃ arr', Converges (fun fuel => parse_array_loop fuel (array_body items ++ rest) arr)
        (rest, arr') ∧ arr'.length = arr.length + items.length
  | [], rest, arr, _, _ =>
    ⟨arr, by simpa [array_body] using array_loop_close rest arr, by simp⟩
  | (text, gap) :: items, rest, arr, hgaps, hitems => by
    obtain ⟨hgap, hcomma, hgaps'⟩ : (∀ c ∈ gap, GapChar c) ∧
        (items.map Prod.snd ≠ [] → ',' ∈ gap) ∧ GapsOk (items.map Prod.snd) := hgaps
    have hafter : Stops (gap ++ (array_body items ++ rest)) := by
      cases gap with
      | cons c g => exact ⟨c, _, rfl, gap_char_stops (hgap c (List.mem_cons_self _ _))⟩
      | nil =>
        cases items with
        | nil => exact ⟨']', rest, rfl, by decide⟩
        | cons it items => exact absurd (hcomma (by simp)) (List.not_mem_nil _)
    obtain ⟨⟨c, r, hcr, hsp, h1, h2⟩, hread⟩ := hitems (text, gap) (List.mem_cons_self _ _)
    obtain ⟨v, hv⟩ := hread _ Value.null hafter
    obtain ⟨arr', hloop, hlen⟩ := array_body_loop items rest (arr ++ [v]) hgaps'
      (fun it hit => hitems it (List.mem_cons_of_mem _ hit))
    simp only at hcr
    rw [hcr] at hv
    have := array_loop_element hsp h1 h2 (by simpa using hv) (array_loop_gap gap hgap hloop)
    refine ⟨arr', by simpa [array_body, hcr] using this, ?_⟩
    rw [hlen]
    simp only [List.length_append, List.length_cons, List.length_nil]
    omega

theorem object_body_loop : ∀ (ms : List Member) (rest : List Char)
    (obj : List (List Char × Value)), GapsOk (ms.map Member.gap) →
    (∀ m ∈ ms, BareIdentifier m.key) →
    (ms.map Member.key).Pairwise (fun a b => a ≠ b) →
    (∀ m ∈ ms, ∀ c ∈ m.pad, isspace c = true) →
    (∀ m ∈ ms, ReadsOne m.text) →
    (∀ k ∈ ms.map Member.key, k ∉ obj.map Prod.fst) →
    ∃ obj', Converges (fun fuel => parse_object_loop fuel (object_body ms ++ rest) obj)
        (rest, obj') ∧ obj'.length = obj.length + ms.length
  | [], rest, obj, _, _, _, _, _, _ =>
    ⟨obj, by simpa [object_body] using object_loop_close rest obj, by simp⟩
  | m :: ms, rest, obj, hgaps, hkeys, hnd, hpads, hreads, hfresh => by
    obtain ⟨hgap, hcomma, hgaps'⟩ : (∀ c ∈ m.gap, GapChar c) ∧
        (ms.map Member.gap ≠ [] → ',' ∈ m.gap) ∧ GapsOk (ms.map Member.gap) := hgaps
    rw [List.map_cons, List.pairwise_cons] at hnd
    have hafter : Stops (m.gap ++ (object_body ms ++ rest)) := by
      cases hg : m.gap with
      | cons c g =>
        exact ⟨c, _, rfl, gap_char_stops (hgap c (by rw [hg]; exact List.mem_cons_self _ _))⟩
      | nil =>
        cases ms with
        | nil => exact ⟨'}', rest, rfl, by decide⟩
        | cons m' ms' =>
          have := hcomma (by simp)
          rw [hg] at this
          exact absurd this (List.not_mem_nil _)
    obtain ⟨_, hread⟩ := hreads m (List.mem_cons_self _ _)
    obtain ⟨v, hv⟩ := hread _ Value.null hafter
    have hfresh' : ∀ k' ∈ ms.map Member.key,
        k' ∉ (map_emplace obj m.key v).1.map Prod.fst := by
      intro k' hk' hmem
      rcases mem_keys_map_emplace obj m.key v k' hmem with heq | hin
      · exact hnd.1 k' hk' heq.symm
      · exact hfresh k' (List.mem_cons_of_mem _ hk') hin
    obtain ⟨obj', hloop, hlen⟩ := object_body_loop ms rest (map_emplace obj m.key v).1 hgaps'
      (fun x hx => hkeys x (List.mem_cons_of_mem _ hx)) hnd.2
      (fun x hx => hpads x (List.mem_cons_of_mem _ hx))
      (fun x hx => hreads x (List.mem_cons_of_mem _ hx)) hfresh'
    have hv' : Converges (fun fuel => parse_value fuel
        (m.pad ++ (m.text ++ (m.gap ++ (object_body ms ++ rest)))) Value.null)
        (m.gap ++ (object_body ms ++ rest), v) := by
      have hfun : (fun fuel => parse_value fuel
          (m.pad ++ (m.text ++ (m.gap ++ (object_body ms ++ rest)))) Value.null) =
          (fun fuel => parse_value fuel
            (m.text ++ (m.gap ++ (object_body ms ++ rest))) Value.null) :=
        funext (fun fuel => parse_value_spaces fuel _ _ _ (hpads m (List.mem_cons_self _ _)))
      rw [hfun]; exact hv
    have := object_loop_member (hkeys m (List.mem_cons_self _ _))
      (hfresh m.key (by simp)) hv' (object_loop_gap m.gap hgap hloop)
    refine ⟨obj', by simpa [object_body] using this, ?_⟩
    rw [hlen, length_map_emplace obj m.key v (hfresh m.key (by simp))]
    simp only [List.length_cons]
    omega

theorem reads_array (lead : List Char) (items : List (List Char × List Char))
    (hlead : ∀ c ∈ lead, GapChar c) (hgaps : GapsOk (items.map Prod.snd))
    (hitems : ∀ it ∈ items, ReadsOne it.1) (rest : List Char) (v0 : Value) :
    ∃ arr, Converges (fun fuel => parse_value fuel
        (('[' :: (lead ++ array_body items)) ++ rest) v0) (rest, Value.array arr) ∧
      arr.length = items.length := by
  obtain ⟨arr, hloop, hlen⟩ := array_body_loop items rest [] hgaps hitems
  have := parse_value_array v0 (array_loop_gap lead hlead hloop)
  exact ⟨arr, by simpa using this, by simpa using hlen⟩

theorem reads_object (lead : List Char) (members : List Member)
    (hlead : ∀ c ∈ lead, GapChar c) (hgaps : GapsOk (members.map Member.gap))
    (hkeys : ∀ m ∈ members, BareIdentifier m.key)
    (hdistinct : (members.map Member.key).Pairwise (fun a b => a ≠ b))
    (hpads : ∀ m ∈ members, ∀ c ∈ m.pad, isspace c = true)
    (hreads : ∀ m ∈ members, ReadsOne m.text) (rest : List Char) (v0 : Value) :
    ∃ obj, Converges (fun fuel => parse_value fuel
        (('{' :: (lead ++ object_body members)) ++ rest) v0) (rest, Value.object obj) ∧
      obj.length = members.length := by
  obtain ⟨obj, hloop, hlen⟩ :=
    object_body_loop members rest [] hgaps hkeys hdistinct hpads hreads (by simp)
  have := parse_value_object v0 (object_loop_gap lead hlead hloop)
  exact ⟨obj, by simpa using this, by simpa using hlen⟩

theorem literal_reads {t : List Char} (h : Literal t) : ReadsOne t := by
  induction h with
  | null =>
    exact ⟨⟨'n', _, rfl, by decide, by decide, by decide⟩, fun rest v0 _ =>
      ⟨Value.null, Converges.of_eq (fun fuel => parse_value_null fuel rest v0)⟩⟩
  | true =>
    exact ⟨⟨'t', _, rfl, by decide, by decide, by decide⟩, fun rest v0 _ =>
      ⟨Value.boolean Bool.true, Converges.of_eq (fun fuel => parse_value_true fuel rest v0)⟩⟩
  | false =>
    exact ⟨⟨'f', _, rfl, by decide, by decide, by decide⟩, fun rest v0 _ =>
      ⟨Value.boolean Bool.false,
        Converges.of_eq (fun fuel => parse_value_false fuel rest v0)⟩⟩
  | number c0 tok hnum =>
    refine ⟨⟨c0, tok, rfl, ?_⟩, fun rest v0 hrest => ?_⟩
    · rcases hnum.1 with hd | rfl | ⟨rfl | rfl, _⟩
      · exact ⟨not_isspace_of_isdigit hd, by rintro rfl; exact absurd hd (by decide),
          by rintro rfl; exact absurd hd (by decide)⟩
      · decide
      · decide
      · decide
    · obtain ⟨r0, rest', rfl, hstop⟩ := hrest
      obtain ⟨v, hv⟩ := parse_value_number_token c0 tok hnum r0 rest' hstop
      exact ⟨v, Converges.of_eq (fun fuel => by simpa using hv fuel v0)⟩
  | special lit x hmem =>
    refine ⟨?_, fun rest v0 _ =>
      ⟨Value.number x, Converges.of_eq (fun fuel => parse_value_special lit x hmem rest v0 fuel)⟩⟩
    simp only [special_literals, List.mem_cons, Prod.mk.injEq, List.mem_singleton,
      List.not_mem_nil, or_false] at hmem
    rcases hmem with ⟨rfl, _⟩ | ⟨rfl, _⟩ | ⟨rfl, _⟩ | ⟨rfl, _⟩ | ⟨rfl, _⟩ | ⟨rfl, _⟩ <;>
      exact ⟨_, _, rfl, by decide, by decide, by decide⟩
  | string quote body hq hbody =>
    refine ⟨⟨quote, _, rfl, ?_⟩, fun rest v0 _ => ⟨Value.string body,
      Converges.of_eq (fun fuel => by
        simpa using parse_value_string fuel quote hq body rest v0 hbody)⟩⟩
    rcases hq with rfl | rfl <;> decide
  | array lead items hlead hgaps _ ih =>
    refine ⟨⟨'[', _, rfl, by decide, by decide, by decide⟩, fun rest v0 _ => ?_⟩
    obtain ⟨arr, hconv, _⟩ := reads_array lead items hlead hgaps ih rest v0
    exact ⟨_, hconv⟩
  | object lead members hlead hgaps hkeys hdistinct hpads _ ih =>
    refine ⟨⟨'{', _, rfl, by decide, by decide, by decide⟩, fun rest v0 _ => ?_⟩
    obtain ⟨obj, hconv, _⟩ :=
      reads_object lead members hlead hgaps hkeys hdistinct hpads ih rest v0
    exact ⟨_, hconv⟩

/-- C3 (as stated it fails): the well-formed JSON5 literal `{"1": 2}` has one member, and
the Object that `parse` returns for it has none, because `parse_key` reads bare
identifiers only. -/
theorem size_quoted_key_counterexample :
    ∃ r, parse 12 ['{', '"', '1', '"', ':', ' ', '2', '}'] = Outcome.done r ∧ r.size ≠ 1 :=
  ⟨Value.object [], rfl, by decide⟩

/-- C3 (amended): for every array or object literal of the subset the parser reads
(elements and values that are `null`, `true`, `false`, numeric tokens, the six special
numeric literals, strings in double or single quotes without that quote, backslash or
NUL, or nested such arrays and objects; keys that are pairwise distinct bare identifiers;
runs of commas and white space after the opening bracket and after each element or
member, a trailing comma included; no comments), `size()` of the parsed Value is the number
of elements or members written. -/
theorem size_of_literal :
    (∀ (lead : List Char) (items : List (List Char × List Char)),
      (∀ c ∈ lead, GapChar c) → GapsOk (items.map Prod.snd) →
      (∀ it ∈ items, Literal it.1) →
      ∃ N, ∀ fuel, N ≤ fuel →
        ∃ r, parse fuel ('[' :: (lead ++ array_body items)) = Outcome.done r ∧
          r.is_array = true ∧ r.size = items.length) ∧
    (∀ (lead : List Char) (members : List Member),
      (∀ c ∈ lead, GapChar c) → GapsOk (members.map Member.gap) →
      (∀ m ∈ members, BareIdentifier m.key) →
      (members.map Member.key).Pairwise (fun a b => a ≠ b) →
      (∀ m ∈ members, ∀ c ∈ m.pad, isspace c = true) →
      (∀ m ∈ members, Literal m.text) →
      ∃ N, ∀ fuel, N ≤ fuel →
        ∃ r, parse fuel ('{' :: (lead ++ object_body members)) = Outcome.done r ∧
          r.is_object = true ∧ r.size = members.length) := by
  constructor
  · intro lead items hlead hgaps hitems
    obtain ⟨arr, hconv, hlen⟩ := reads_array lead items hlead hgaps
      (fun it hit => literal_reads (hitems it hit)) [NUL] Value.null
    obtain ⟨N, hN⟩ := parse_of_parse_value _ (by simp) hconv
    exact ⟨N, fun fuel hf => ⟨_, hN fuel hf, rfl, hlen⟩⟩
  · intro lead members hlead hgaps hkeys hdistinct hpads htexts
    obtain ⟨obj, hconv, hlen⟩ := reads_object lead members hlead hgaps hkeys hdistinct hpads
      (fun m hm => literal_reads (htexts m hm)) [NUL] Value.null
    obtain ⟨N, hN⟩ := parse_of_parse_value _ (by simp) hconv
    exact ⟨N, fun fuel hf => ⟨_, hN fuel hf, rfl, hlen⟩⟩

theorem size_of_literal_witness :
    '[' :: ([' '] ++ array_body [(['.', '5'], [',', ' ']),
        ('{' :: ([] ++ object_body [⟨['k'], [' '], ['0', 'x', '1', 'f'], []⟩]), [',', ' ']),
        (['\'', 'a', '\''], [','])]) =
      ['[', ' ', '.', '5', ',', ' ', '{', 'k', ':', ' ', '0', 'x', '1', 'f', '}', ',', ' ',
        '\'', 'a', '\'', ',', ']'] ∧
    ∃ N, ∀ fuel, N ≤ fuel →
      ∃ r, parse fuel ('[' :: ([' '] ++ array_body [(['.', '5'], [',', ' ']),
          ('{' :: ([] ++ object_body [⟨['k'], [' '], ['0', 'x', '1', 'f'], []⟩]), [',', ' ']),
          (['\'', 'a', '\''], [','])])) = Outcome.done r ∧
        r.is_array = true ∧ r.size = 3 :=
  have hobj : Literal ('{' :: ([] ++ object_body [⟨['k'], [' '], ['0', 'x', '1', 'f'], []⟩])) :=
    Literal.object [] [⟨['k'], [' '], ['0', 'x', '1', 'f'], []⟩] (by simp)
      (by simp [GapsOk]) (by simp [BareIdentifier, isalpha]) (by simp)
      (by simp [isspace])
      (by
        intro m hm
        rw [List.mem_singleton.mp hm]
        exact Literal.number '0' ['x', '1', 'f'] (by unfold NumberToken; decide))
  ⟨rfl, size_of_literal.1 [' ']
    [(['.', '5'], [',', ' ']),
      ('{' :: ([] ++ object_body [⟨['k'], [' '], ['0', 'x', '1', 'f'], []⟩]), [',', ' ']),
      (['\'', 'a', '\''], [','])]
    (by simp [GapChar, isspace]) (by simp [GapsOk, GapChar, isspace])
    (by
      intro it hit
      simp only [List.mem_cons, List.mem_singleton, List.not_mem_nil, or_false] at hit
      rcases hit with rfl | rfl | rfl
      · exact Literal.number '.' ['5'] (by unfold NumberToken; decide)
      · exact hobj
      · exact Literal.string '\'' ['a'] (Or.inr rfl) (by decide))⟩

/-! ## Duplicate keys -/

/-- C11 (the code departs from it): `parse_object` inserts a duplicate key nowhere, and
then leaves the cursor in front of its value, so the text of the value is read on as
members of the object.  `{k: 1, k: 'x'}` gives an Object with the two members `k` and
`x`, where `{k: 1}` gives the Object with the member `k` alone. -/
theorem duplicate_key_value_reread :
    parse 20 ['{', 'k', ':', ' ', '1', ',', ' ', 'k', ':', ' ', '\'', 'x', '\'', '}'] =
        Outcome.done (Value.object [(['k'], Value.integer 1), (['x'], Value.null)]) ∧
      parse 20 ['{', 'k', ':', ' ', '1', '}'] =
        Outcome.done (Value.object [(['k'], Value.integer 1)]) :=
  ⟨rfl, rfl⟩

/-! ## Leading white space -/

theorem parse_value_at_end (fuel : Nat) (v0 : Value) :
    parse_value (fuel + 1) [NUL] v0 = Outcome.done ([NUL], v0) := rfl

theorem parse_spaces_append (w s : List Char) (hw : ∀ c ∈ w, isspace c = true)
    (fuel : Nat) : parse (fuel + 1) (w ++ s) = parse (fuel + 1) s := by
  cases s with
  | nil =>
    cases w with
    | nil => rfl
    | cons c w =>
      have h := parse_value_spaces (fuel + 1) (c :: w) [NUL] Value.null hw
      rw [parse_value_at_end] at h
      simp only [List.cons_append] at h
      simp [parse, h]
  | cons d s =>
    have h := parse_value_spaces (fuel + 1) w (d :: s ++ [NUL]) Value.null hw
    have e1 : (w ++ d :: s).isEmpty = false := by cases w <;> rfl
    have e2 : w ++ d :: s ++ [NUL] = w ++ (d :: s ++ [NUL]) := by simp
    simp only [parse, e1, e2, h, List.isEmpty_cons]

/-- C12: for every run `w` of white space characters and every input `s`, `parse` of `w`
followed by `s` is `parse` of `s` (with fuel for one call of `parse_value`); `parse` of
` null ` and of `null` are both Null. -/
theorem parse_leading_spaces (w s : List Char) (hw : ∀ c ∈ w, isspace c = true)
    (fuel : Nat) :
    parse (fuel + 1) (w ++ s) = parse (fuel + 1) s ∧
      parse (fuel + 1) [' ', 'n', 'u', 'l', 'l', ' '] = Outcome.done Value.null ∧
      parse (fuel + 1) ['n', 'u', 'l', 'l'] = Outcome.done Value.null :=
  ⟨parse_spaces_append w s hw fuel, rfl, rfl⟩

theorem parse_leading_spaces_witness :
    (∀ c ∈ [' ', '\t', '\n'], isspace c = true) ∧
      parse 1 ([' ', '\t', '\n'] ++ ['[', ']']) = parse 1 ['[', ']'] :=
  ⟨by decide, (parse_leading_spaces [' ', '\t', '\n'] ['[', ']'] (by decide) 0).1⟩

/-! ## Characters that start no value -/

/-- C13: `parse` of the empty buffer is Null; when the first character `c` after the
leading white space of the buffer is none of `{`, `[`, `"`, `'`, `n`, `t`, `f`, a digit,
`-`, `+`, `.`, `I`, `N`, `parse_value` leaves the value as it is and the cursor on `c`,
and `parse` returns Null; so it does for an input made of white space only. -/
theorem parse_value_no_dispatch (ws : List Char) (c : Char) (t : List Char)
    (hws : ∀ d ∈ ws, isspace d = true) (hsp : isspace c = false)
    (hc : c ∉ ['{', '[', '"', '\'', 'n', 't', 'f', '-', '+', '.', 'I', 'N'])
    (hdigit : isdigit c = false) (v0 : Value) (fuel : Nat) :
    (∀ fuel', parse fuel' [] = Outcome.done Value.null) ∧
      parse_value (fuel + 1) (ws ++ c :: t) v0 = Outcome.done (c :: t, v0) ∧
      parse (fuel + 1) (ws ++ c :: t) = Outcome.done Value.null ∧
      parse (fuel + 1) ws = Outcome.done Value.null := by
  have hval : ∀ (t' : List Char) (v : Value),
      parse_value (fuel + 1) (ws ++ c :: t') v = Outcome.done (c :: t', v) := by
    intro t' v
    rw [parse_value_spaces _ _ _ _ hws]
    simp only [List.mem_cons, List.mem_singleton, List.not_mem_nil, or_false, not_or] at hc
    obtain ⟨a1, a2, a3, a4, a5, a6, a7, a8, a9, a10, a11, a12⟩ := hc
    simp [parse_value, skip_spaces_not_space _ hsp, a1, a2, a3, a4, a5, a6, a7, a8, a9, a10,
      a11, a12, hdigit]
  refine ⟨fun _ => rfl, hval t v0, ?_, ?_⟩
  · apply parse_eq_of_parse_value (c :: (t ++ [NUL])) (by simp)
    have := hval (t ++ [NUL]) Value.null
    simpa using this
  · have h := parse_spaces_append ws [] hws fuel
    rw [List.append_nil] at h
    rw [h]; rfl

theorem parse_value_no_dispatch_witness :
    (∀ d ∈ [' '], isspace d = true) ∧ isspace 'a' = false ∧
      parse_value 1 ([' '] ++ 'a' :: ['b', NUL]) (Value.integer 7) =
        Outcome.done ('a' :: ['b', NUL], Value.integer 7) :=
  ⟨by decide, by decide,
    (parse_value_no_dispatch [' '] 'a' ['b', NUL] (by decide) (by decide) (by decide)
      (by decide) (Value.integer 7) 0).2.1⟩

/-! ## Comments -/

/-- C14 (the code departs from it): `skip_spaces_and_comments` stops on the `/` that
opens a comment, whatever follows: it skips white space only.  On `//zxc`, a newline and
`a`, the cursor stays on the first `/`, where the test of the repository requires it on
`a`. -/
theorem skip_spaces_stops_at_comment :
    (∀ rest, skip_spaces_and_comments ('/' :: rest) = Outcome.done ('/' :: rest)) ∧
      skip_spaces_and_comments ['/', '/', 'z', 'x', 'c', '\n', 'a', NUL] =
        Outcome.done ['/', '/', 'z', 'x', 'c', '\n', 'a', NUL] :=
  ⟨fun rest => skip_spaces_not_space rest (by decide), rfl⟩

/-! ## Unclosed strings -/

/-- C20 (the code departs from it): on the unclosed string `'ab` the scan of
`parse_string` ends on the terminator and the cursor is set to `e + 1`, one past the
terminator, beyond the length of the input; inside an array the next read is outside the
buffer. -/
theorem parse_string_unclosed_past_end :
    (∀ v0, parse_string ['\'', 'a', 'b', NUL] v0 =
        Outcome.done ([], Value.string ['a', 'b'])) ∧
      parse 20 ['[', '\'', 'a', 'b'] = Outcome.fault :=
  ⟨fun _ => rfl, rfl⟩

/-! ## value_or -/

/-- C15 (the code departs from it): `value_or(T&& default_value)` deduces `T` through a
forwarding reference, so for a default passed as a const lvalue `T` is a reference type,
no branch of `if constexpr` is taken and the final `return` gives the default back
whatever the value holds: an Integer 7 asked with a `const int` variable that holds 5
gives 5, where the literal 5 gives 7.  For a default passed as a non-const rvalue, as in
every test of the repository, `value_or` returns the payload in the type of the default
when the active variant is the one of the category of that type, and the default in every
other case; on Null, on an Integer with a floating default and on a Float with an integral
default it returns the default however the default is passed. -/
theorem value_or_const_lvalue_default :
    (∀ (v : Value) (s : Scalar), v.value_or ⟨Passing.const_lvalue, s⟩ = s) ∧
    category_matches (Value.integer 7) (Scalar.integral 32 true 5) = true ∧
    (Value.integer 7).value_or ⟨Passing.const_lvalue, Scalar.integral 32 true 5⟩ =
      Scalar.integral 32 true 5 ∧
    (Value.integer 7).value_or ⟨Passing.rvalue, Scalar.integral 32 true 5⟩ =
      Scalar.integral 32 true 7 ∧
    (∀ b d, (Value.boolean b).value_or ⟨Passing.rvalue, Scalar.boolean d⟩ = Scalar.boolean b) ∧
    (∀ n bits signed d,
      (Value.integer n).value_or ⟨Passing.rvalue, Scalar.integral bits signed d⟩ =
        Scalar.integral bits signed (cast_integral bits signed n)) ∧
    (∀ x d, (Value.number x).value_or ⟨Passing.rvalue, Scalar.floating FloatingType.double d⟩ =
      Scalar.floating FloatingType.double (Floating.given x)) ∧
    (∀ x d, (Value.number x).value_or ⟨Passing.rvalue, Scalar.floating FloatingType.float d⟩ =
      Scalar.floating FloatingType.float (Floating.converted x)) ∧
    (∀ x d,
      (Value.number x).value_or ⟨Passing.rvalue, Scalar.floating FloatingType.long_double d⟩ =
        Scalar.floating FloatingType.long_double (Floating.converted x)) ∧
    (∀ s d, (Value.string s).value_or ⟨Passing.rvalue, Scalar.string d⟩ = Scalar.string s) ∧
    (∀ s d, (Value.string s).value_or ⟨Passing.rvalue, Scalar.string_view d⟩ =
      Scalar.string_view s) ∧
    (∀ (v : Value) (d : Scalar), category_matches v d = false →
      v.value_or ⟨Passing.rvalue, d⟩ = d) ∧
    (∀ d : Default, Value.null.value_or d = d.value) ∧
    (∀ n pass T d, (Value.integer n).value_or ⟨pass, Scalar.floating T d⟩ =
      Scalar.floating T d) ∧
    (∀ x pass bits signed d, (Value.number x).value_or ⟨pass, Scalar.integral bits signed d⟩ =
      Scalar.integral bits signed d) ∧
    (∀ n : Int, -(2 ^ 31 : Int) ≤ n → n < (2 ^ 31 : Int) → cast_integral 32 true n = n) := by
  refine ⟨?_, rfl, rfl, rfl, fun _ _ => rfl, fun _ _ _ _ => rfl, fun _ _ => rfl, fun _ _ => rfl,
    fun _ _ => rfl, fun _ _ => rfl, fun _ _ => rfl, ?_, ?_, ?_, ?_, ?_⟩
  · intro v s
    cases s <;> rfl
  · intro v d h
    cases v <;> cases d <;> first | rfl | (simp [category_matches] at h)
  · rintro ⟨pass, d⟩
    cases pass <;> cases d <;> rfl
  · intro n pass T d
    cases pass <;> rfl
  · intro x pass bits signed d
    cases pass <;> rfl
  · intro n h1 h2
    unfold cast_integral
    simp only [Bool.true_and, decide_eq_true_eq]
    by_cases hn : 0 ≤ n
    · have hm : n % (2 ^ 32 : Int) = n := Int.emod_eq_of_lt hn (by omega)
      rw [hm, if_neg (by omega)]
    · have hm : n % (2 ^ 32 : Int) = n + 2 ^ 32 := by
        have : (n + 2 ^ 32) % (2 ^ 32 : Int) = n + 2 ^ 32 :=
          Int.emod_eq_of_lt (by omega) (by omega)
        rw [← this, Int.add_emod_self]
      rw [hm, if_pos (by omega)]
      omega

/-! ## at_opt -/

/-- C16: `at_opt` is total and checks the bound: on an Array it returns the element at
position `i` when `i` is below `size()`, and Null in every other case, an index out of
range or a value that is no Array (an Object included). -/
theorem at_opt_checked (v : Value) (i : Nat) :
    (∀ a, v = Value.array a → i < v.size → some (v.at_opt i) = a.get? i) ∧
    (∀ a, v = Value.array a → v.size ≤ i → v.at_opt i = Value.null) ∧
    (v.is_array = false → v.at_opt i = Value.null) := by
  refine ⟨?_, ?_, ?_⟩
  · rintro a rfl h
    simp only [Value.size] at h
    simp [Value.at_opt, h, List.getElem?_eq_getElem]
  · rintro a rfl h
    simp only [Value.size] at h
    simp [Value.at_opt, Nat.not_lt.mpr h]
  · intro h
    cases v <;> first | rfl | (simp [Value.is_array] at h)

theorem at_opt_checked_witness :
    some ((Value.array [Value.integer 1, Value.integer 2, Value.integer 3]).at_opt 1) =
        [Value.integer 1, Value.integer 2, Value.integer 3].get? 1 ∧
      (Value.array [Value.integer 1, Value.integer 2, Value.integer 3]).at_opt 5 =
        Value.null ∧
      ((Value.array [Value.integer 1, Value.integer 2, Value.integer 3]).at_opt 5).value_or
        ⟨Passing.rvalue, Scalar.integral 32 true 42⟩ = Scalar.integral 32 true 42 :=
  ⟨(at_opt_checked (Value.array [Value.integer 1, Value.integer 2, Value.integer 3]) 1).1 _ rfl
      (by decide),
    (at_opt_checked (Value.array [Value.integer 1, Value.integer 2, Value.integer 3]) 5).2.1 _
      rfl (by decide),
    rfl⟩

/-! ## Lookup by key -/

theorem map_find_eq_none : ∀ (m : List (List Char × Value)) (key : List Char),
    map_find m key = none ↔ key ∉ m.map Prod.fst
  | [], _ => by simp [map_find]
  | (k, v) :: m, key => by
    by_cases h : key = k
    · simp [map_find, h]
    · simp [map_find, h, map_find_eq_none m key]

theorem map_find_mem : ∀ (m : List (List Char × Value)) (key : List Char) (v : Value),
    map_find m key = some v → (key, v) ∈ m
  | [], _, _, h => by simp [map_find] at h
  | (k, w) :: m, key, v, h => by
    by_cases hk : key = k
    · simp only [map_find, hk, if_true, Option.some.injEq] at h
      simp [hk, h]
    · simp only [map_find, hk, if_false] at h
      exact List.mem_cons_of_mem _ (map_find_mem m key v h)

theorem map_find_of_mem : ∀ (m : List (List Char × Value)) (key : List Char) (v : Value),
    (m.map Prod.fst).Pairwise (fun a b => a ≠ b) → (key, v) ∈ m → map_find m key = some v
  | [], _, _, _, h => absurd h (List.not_mem_nil _)
  | (k, w) :: m, key, v, hnd, h => by
    rw [List.map_cons, List.pairwise_cons] at hnd
    rcases List.mem_cons.mp h with heq | hin
    · simp only [Prod.mk.injEq] at heq
      simp [map_find, heq.1, heq.2]
    · have hne : key ≠ k := by
        intro hk
        exact hnd.1 key (List.mem_map.mpr ⟨(key, v), hin, rfl⟩) hk.symm
      simp only [map_find, hne, if_false]
      exact map_find_of_mem m key v hnd.2 hin

/-- C17: `at(key)` and `operator[](key)` alike return Null when the value is no Object,
return the value mapped to the key when the value is an Object that holds the key, and
fail with `std::out_of_range` if and only if the value is an Object without the key. -/
theorem at_key_lookup (v : Value) (key : List Char) :
    v.index_key key = v.at_key key ∧
    (v.is_object = false → v.at_key key = Access.value Value.null) ∧
    (∀ m x, v = Value.object m → (m.map Prod.fst).Pairwise (fun a b => a ≠ b) →
      (key, x) ∈ m → v.at_key key = Access.value x) ∧
    (∀ x, v.is_object = true → v.at_key key = Access.value x →
      ∃ m, v = Value.object m ∧ (key, x) ∈ m) ∧
    (v.at_key key = Access.out_of_range ↔
      ∃ m, v = Value.object m ∧ key ∉ m.map Prod.fst) := by
  refine ⟨rfl, ?_, ?_, ?_, ?_⟩
  · intro h
    cases v <;> first | rfl | (simp [Value.is_object] at h)
  · rintro m x rfl hnd hmem
    simp [Value.at_key, map_find_of_mem m key x hnd hmem]
  · intro x h hx
    cases v with
    | object m =>
      refine ⟨m, rfl, ?_⟩
      simp only [Value.at_key] at hx
      cases hf : map_find m key with
      | none => simp [hf] at hx
      | some w =>
        simp only [hf, Access.value.injEq] at hx
        exact map_find_mem m key x (hx ▸ hf)
    | _ => simp [Value.is_object] at h
  · constructor
    · intro h
      cases v with
      | object m =>
        refine ⟨m, rfl, ?_⟩
        simp only [Value.at_key] at h
        cases hf : map_find m key with
        | none => exact (map_find_eq_none m key).mp hf
        | some w => simp [hf] at h
      | _ => simp [Value.at_key] at h
    · rintro ⟨m, rfl, hk⟩
      simp [Value.at_key, (map_find_eq_none m key).mpr hk]

theorem at_key_lookup_witness :
    (Value.object [(['a'], Value.integer 2), (['b'], Value.null)]).at_key ['a'] =
        Access.value (Value.integer 2) ∧
      ((Value.object [(['a'], Value.integer 2), (['b'], Value.null)]).at_key ['c'] =
        Access.out_of_range ↔
        ∃ m, Value.object [(['a'], Value.integer 2), (['b'], Value.null)] = Value.object m ∧
          ['c'] ∉ m.map Prod.fst) :=
  ⟨(at_key_lookup (Value.object [(['a'], Value.integer 2), (['b'], Value.null)]) ['a']).2.2.1
      _ _ rfl (by simp) (by simp),
    (at_key_lookup (Value.object [(['a'], Value.integer 2), (['b'], Value.null)])
      ['c']).2.2.2.2⟩

/-! ## Variants -/

/-- C19: exactly one of the seven variant tests is true of a Value; a default-constructed
Value is Null; `is_number` is true of the Float variant only, and false of an Integer. -/
theorem one_variant_active (v : Value) :
    ([v.is_null, v.is_boolean, v.is_number_integer, v.is_number, v.is_string, v.is_object,
      v.is_array].count true = 1) ∧
    (default : Value) = Value.null ∧ (default : Value).is_null = true ∧
    (v.is_number = true ↔ ∃ x, v = Value.number x) ∧
    (∀ n, (Value.integer n).is_number = false) := by
  refine ⟨?_, rfl, rfl, ?_, fun _ => rfl⟩
  · cases v <;> rfl
  · cases v <;> simp [Value.is_number]

/-! ## The key order is a strict total order -/

theorem key_less_total : ∀ a b : List Char, a ≠ b → key_less a b = false → key_less b a = true
  | [], [], h, _ => absurd rfl h
  | [], _ :: _, _, h => by simp [key_less] at h
  | _ :: _, [], _, _ => rfl
  | x :: xs, y :: ys, hne, h => by
    simp only [key_less] at h ⊢
    by_cases h1 : x.toNat < y.toNat
    · simp [h1] at h
    · by_cases h2 : y.toNat < x.toNat
      · simp [h2]
      · simp only [h1, h2, if_false] at h ⊢
        have hxy : x = y := (char_eq_iff x y).mpr (by omega)
        exact key_less_total xs ys (fun hs => hne (by rw [hxy, hs])) h

theorem key_less_trans : ∀ a b c : List Char,
    key_less a b = true → key_less b c = true → key_less a c = true
  | [], [], _, h, _ => by simp [key_less] at h
  | [], _ :: _, [], _, h => by simp [key_less] at h
  | [], _ :: _, _ :: _, _, _ => rfl
  | _ :: _, [], _, h, _ => by simp [key_less] at h
  | _ :: _, _ :: _, [], _, h => by simp [key_less] at h
  | x :: xs, y :: ys, z :: zs, hab, hbc => by
    simp only [key_less] at hab hbc ⊢
    by_cases h1 : x.toNat < y.toNat
    · by_cases h2 : y.toNat < z.toNat
      · simp [show x.toNat < z.toNat by omega]
      · by_cases h3 : z.toNat < y.toNat
        · simp [h2, h3] at hbc
        · simp [show x.toNat < z.toNat by omega]
    · by_cases h1' : y.toNat < x.toNat
      · simp [h1, h1'] at hab
      · simp only [h1, h1', if_false] at hab
        by_cases h2 : y.toNat < z.toNat
        · simp [show x.toNat < z.toNat by omega]
        · by_cases h3 : z.toNat < y.toNat
          · simp [h2, h3] at hbc
          · simp only [h2, h3, if_false] at hbc
            simp only [show ¬ x.toNat < z.toNat by omega, show ¬ z.toNat < x.toNat by omega,
              if_false]
            exact key_less_trans xs ys zs hab hbc

/-! ## The container keeps its entries in key order -/

theorem map_emplace_sorted : ∀ (obj : List (List Char × Value)) (k : List Char) (v : Value),
    (obj.map Prod.fst).Pairwise (fun a b => key_less a b = true) →
    ((map_emplace obj k v).1.map Prod.fst).Pairwise (fun a b => key_less a b = true)
  | [], k, v, _ => by simp [map_emplace]
  | (k0, w) :: obj, k, v, h => by
    have h' := h
    rw [List.map_cons, List.pairwise_cons] at h'
    simp only [map_emplace]
    by_cases hk : k = k0
    · simpa [hk] using h
    · by_cases hlt : key_less k k0 = true
      · simp only [if_neg hk, hlt, if_true, List.map_cons, List.pairwise_cons]
        refine ⟨?_, h'⟩
        intro k' hk'
        rcases List.mem_cons.mp hk' with rfl | hin
        · exact hlt
        · exact key_less_trans k k0 k' hlt (h'.1 k' hin)
      · have hlt' : key_less k k0 = false := by simpa using hlt
        simp only [if_neg hk, hlt', Bool.false_eq_true, if_false, List.map_cons,
          List.pairwise_cons]
        refine ⟨?_, map_emplace_sorted obj k v h'.2⟩
        intro k' hk'
        rcases mem_keys_map_emplace obj k v k' hk' with rfl | hin
        · exact key_less_total k' k0 hk (by simpa using hlt)
        · exact h'.1 k' hin

theorem map_assign_keys : ∀ (obj : List (List Char × Value)) (k : List Char) (v : Value),
    (map_assign obj k v).map Prod.fst = obj.map Prod.fst
  | [], _, _ => rfl
  | (k0, w) :: obj, k, v => by
    by_cases hk : k = k0
    · simp [map_assign, hk]
    · simp [map_assign, hk, map_assign_keys obj k v]

theorem ordered_members_emplace : ∀ (obj : List (List Char × Value)) (k : List Char)
    (v : Value), OrderedMembers obj → Ordered v → OrderedMembers (map_emplace obj k v).1
  | [], _, _, _, hv => ⟨hv, trivial⟩
  | (k0, w) :: obj, k, v, h, hv => by
    simp only [map_emplace]
    split_ifs
    · exact h
    · exact ⟨hv, h⟩
    · exact ⟨h.1, ordered_members_emplace obj k v h.2 hv⟩

theorem ordered_members_assign : ∀ (obj : List (List Char × Value)) (k : List Char)
    (v : Value), OrderedMembers obj → Ordered v → OrderedMembers (map_assign obj k v)
  | [], _, _, _, _ => trivial
  | (k0, w) :: obj, k, v, h, hv => by
    simp only [map_assign]
    split_ifs
    · exact ⟨hv, h.2⟩
    · exact ⟨h.1, ordered_members_assign obj k v h.2 hv⟩

theorem ordered_elements_append : ∀ (arr : List Value) (v : Value),
    OrderedElements arr → Ordered v → OrderedElements (arr ++ [v])
  | [], _, _, hv => ⟨hv, trivial⟩
  | _ :: arr, v, h, hv => ⟨h.1, ordered_elements_append arr v h.2 hv⟩

/-! ## Every parsed Object is in key order -/

theorem Outcome.bind_eq_done {α β : Type} (x : Outcome α) (f : α → Outcome β) (r : β) :
    (x >>= f) = Outcome.done r ↔ ∃ a, x = Outcome.done a ∧ f a = Outcome.done r := by
  cases x with
  | done a => simp
  | fault => simp
  | timeout => simp

theorem parse_string_ordered (p : List Char) (v0 : Value) (r : List Char × Value)
    (h : parse_string p v0 = Outcome.done r) : Ordered r.2 := by
  unfold parse_string at h
  split at h
  · simp at h
  · split at h
    · simp only [Outcome.done.injEq] at h
      rw [← h]; trivial
    · simp at h
    · simp at h

theorem parse_null_ordered (p : List Char) (v0 : Value) (r : List Char × Value)
    (h : parse_null p v0 = Outcome.done r) (h0 : Ordered v0) : Ordered r.2 := by
  simp only [parse_null, Outcome.bind_eq_done] at h
  obtain ⟨b, _, h⟩ := h
  cases b <;> simp at h <;> rw [← h]
  · exact h0
  · trivial

theorem parse_boolean_ordered (p : List Char) (v0 : Value) (r : List Char × Value)
    (h : parse_boolean p v0 = Outcome.done r) (h0 : Ordered v0) : Ordered r.2 := by
  simp only [parse_boolean, Outcome.bind_eq_done] at h
  obtain ⟨b, _, h⟩ := h
  cases b
  · simp only [Bool.false_eq_true, if_false, Outcome.bind_eq_done] at h
    obtain ⟨b', _, h⟩ := h
    cases b' <;> simp at h <;> rw [← h]
    · exact h0
    · trivial
  · simp at h
    rw [← h]; trivial

theorem parse_number_ordered (p : List Char) (v0 : Value) (r : List Char × Value)
    (h : parse_number p v0 = Outcome.done r) : Ordered r.2 := by
  simp only [parse_number, Outcome.bind_eq_done] at h
  obtain ⟨b1, _, h⟩ := h
  cases b1
  swap
  · simp at h; rw [← h]; trivial
  simp only [Bool.false_eq_true, if_false, Outcome.bind_eq_done] at h
  obtain ⟨b2, _, h⟩ := h
  cases b2
  swap
  · simp at h; rw [← h]; trivial
  simp only [Bool.false_eq_true, if_false, Outcome.bind_eq_done] at h
  obtain ⟨b3, _, h⟩ := h
  cases b3
  swap
  · simp at h; rw [← h]; trivial
  simp only [Bool.false_eq_true, if_false, Outcome.bind_eq_done] at h
  obtain ⟨b4, _, h⟩ := h
  cases b4
  swap
  · simp at h; rw [← h]; trivial
  simp only [Bool.false_eq_true, if_false, Outcome.bind_eq_done] at h
  obtain ⟨b5, _, h⟩ := h
  cases b5
  swap
  · simp at h; rw [← h]; trivial
  simp only [Bool.false_eq_true, if_false, Outcome.bind_eq_done] at h
  obtain ⟨b6, _, h⟩ := h
  cases b6
  swap
  · simp at h; rw [← h]; trivial
  simp only [Bool.false_eq_true, if_false] at h
  cases p with
  | nil => simp at h
  | cons c t =>
    simp only [Outcome.bind_eq_done] at h
    obtain ⟨⟨p', isf, base⟩, _, h⟩ := h
    cases isf <;> simp at h <;> rw [← h] <;> trivial

theorem parser_ordered (fuel : Nat) :
    (∀ p v0 r, parse_value fuel p v0 = Outcome.done r → Ordered v0 → Ordered r.2) ∧
    (∀ p v0 r, parse_array fuel p v0 = Outcome.done r → Ordered r.2) ∧
    (∀ p arr r, parse_array_loop fuel p arr = Outcome.done r →
      OrderedElements arr → OrderedElements r.2) ∧
    (∀ p v0 r, parse_object fuel p v0 = Outcome.done r → Ordered r.2) ∧
    (∀ p obj r, parse_object_loop fuel p obj = Outcome.done r →
      OrderedMembers obj → (obj.map Prod.fst).Pairwise (fun a b => key_less a b = true) →
      OrderedMembers r.2 ∧ (r.2.map Prod.fst).Pairwise (fun a b => key_less a b = true)) := by
  induction fuel with
  | zero =>
    refine ⟨?_, ?_, ?_, ?_, ?_⟩ <;> intro p x r h <;> simp [parse_value, parse_array,
      parse_array_loop, parse_object, parse_object_loop] at h
  | succ fuel ih =>
    obtain ⟨ihv, iha, ihal, iho, ihol⟩ := ih
    refine ⟨?_, ?_, ?_, ?_, ?_⟩
    · intro p v0 r h h0
      simp only [parse_value, Outcome.bind_eq_done] at h
      obtain ⟨q, _, h⟩ := h
      cases q with
      | nil => simp at h
      | cons ch t =>
        simp only at h
        split_ifs at h
        · exact iho _ _ _ h
        · exact iha _ _ _ h
        · exact parse_string_ordered _ _ _ h
        · exact parse_null_ordered _ _ _ h h0
        · exact parse_boolean_ordered _ _ _ h h0
        · exact parse_number_ordered _ _ _ h
        · simp at h; rw [← h]; exact h0
    · intro p v0 r h
      simp only [parse_array] at h
      cases p with
      | nil => simp at h
      | cons c t =>
        simp only [Outcome.bind_eq_done] at h
        obtain ⟨⟨p', arr⟩, hl, h⟩ := h
        simp at h
        rw [← h]
        exact ihal _ _ _ hl trivial
    · intro p arr r h harr
      simp only [parse_array_loop, Outcome.bind_eq_done] at h
      obtain ⟨q, _, h⟩ := h
      cases q with
      | nil => simp at h
      | cons c t =>
        simp only at h
        split_ifs at h
        · exact ihal _ _ _ h harr
        · simp at h; rw [← h]; exact harr
        · simp only [Outcome.bind_eq_done] at h
          obtain ⟨⟨p', v⟩, hv, h⟩ := h
          exact ihal _ _ _ h (ordered_elements_append arr v harr (ihv _ _ _ hv trivial))
    · intro p v0 r h
      simp only [parse_object, Outcome.bind_eq_done] at h
      obtain ⟨⟨p', obj⟩, hl, h⟩ := h
      simp at h
      rw [← h]
      exact ihol _ _ _ hl trivial List.Pairwise.nil
    · intro p obj r h hobj hsorted
      simp only [parse_object_loop, Outcome.bind_eq_done] at h
      obtain ⟨q, _, h⟩ := h
      cases q with
      | nil => simp at h
      | cons c t =>
        simp only at h
        split_ifs at h
        · simp at h; rw [← h]; exact ⟨hobj, hsorted⟩
        · simp only [Outcome.bind_eq_done] at h
          obtain ⟨⟨key, p'⟩, _, h⟩ := h
          cases p' with
          | nil => simp at h
          | cons d t' =>
            simp only at h
            split_ifs at h
            · simp only [Outcome.bind_eq_done] at h
              obtain ⟨⟨p2, v⟩, hv, h⟩ := h
              refine ihol _ _ _ h ?_ ?_
              · exact ordered_members_assign _ _ _
                  (ordered_members_emplace obj key Value.null hobj trivial)
                  (ihv _ _ _ hv trivial)
              · rw [map_assign_keys]
                exact map_emplace_sorted obj key Value.null hsorted
            · exact ihol _ _ _ h (ordered_members_emplace obj key Value.null hobj trivial)
                (map_emplace_sorted obj key Value.null hsorted)
            · exact ihol _ _ _ h hobj hsorted

theorem parse_ordered (fuel : Nat) (str : List Char) (r : Value)
    (h : parse fuel str = Outcome.done r) : Ordered r := by
  unfold parse at h
  split_ifs at h
  · simp only [Outcome.done.injEq] at h
    rw [← h]; trivial
  · split at h
    · next p val hv =>
      simp only [Outcome.done.injEq] at h
      rw [← h]
      exact (parser_ordered fuel).1 _ _ _ hv trivial
    · simp at h
    · simp at h

/-! ## Positional access -/

theorem count_less_sorted : ∀ (l : List (List Char)),
    l.Pairwise (fun a b => key_less a b = true) → ∀ (i : Nat) (k : List Char),
    l.get? i = some k → (l.filter (fun k' => key_less k' k)).length = i
  | [], _, i, k, h => by simp at h
  | x :: xs, hs, 0, k, h => by
    rw [List.pairwise_cons] at hs
    simp only [List.get?_cons_zero, Option.some.injEq] at h
    subst h
    have hnone : xs.filter (fun k' => key_less k' x) = [] := by
      rw [List.filter_eq_nil_iff]
      intro k' hk'
      simp [key_less_asymm x k' (hs.1 k' hk')]
    simp [List.filter_cons, key_less_irrefl, hnone]
  | x :: xs, hs, i + 1, k, h => by
    rw [List.pairwise_cons] at hs
    simp only [List.get?_cons_succ] at h
    have hk : key_less x k = true := hs.1 k (List.get?_mem h)
    simp [List.filter_cons, hk, count_less_sorted xs hs.2 i k h]

/-- C18: `at(index)` and `operator[](index)` alike, for an index below `size()`: on an
Array they return the element at that position of the sequence, which `parse` fills in
source order; on an Object they return the value of the entry at that position of the
map, and in every Object that `parse` returns the entries are in strictly increasing key
order, so that the entry at position `i` is the one whose key has exactly `i` smaller
keys in the Object, whatever the order the members were written in (`{b: 1, a: 2}` has
the Integer 2 at position 0); on every other variant they return Null. -/
theorem at_index_positional (v : Value) (i : Nat) :
    v.index_index i = v.at_index i ∧
    (∀ a, v = Value.array a → i < v.size →
      ∃ x, a.get? i = some x ∧ v.at_index i = some x) ∧
    (∀ m, v = Value.object m → i < v.size → Ordered v →
      ∃ k x, m.get? i = some (k, x) ∧ v.at_index i = some x ∧
        ((m.map Prod.fst).filter (fun k' => key_less k' k)).length = i) ∧
    (∀ fuel str, parse fuel str = Outcome.done v → Ordered v) ∧
    (∃ r, parse 20 ['{', 'b', ':', ' ', '1', ',', ' ', 'a', ':', ' ', '2', '}'] =
        Outcome.done r ∧ r.at_index 0 = some (Value.integer 2) ∧
        r.at_index 1 = some (Value.integer 1)) ∧
    (∃ r, parse 20 ['[', '3', ',', ' ', '1', ',', ' ', '2', ']'] = Outcome.done r ∧
        r.at_index 0 = some (Value.integer 3) ∧ r.at_index 1 = some (Value.integer 1) ∧
        r.at_index 2 = some (Value.integer 2)) ∧
    (v.is_array = false → v.is_object = false → v.at_index i = some Value.null) := by
  refine ⟨rfl, ?_, ?_, fun fuel str h => parse_ordered fuel str v h,
    ⟨_, rfl, rfl, rfl⟩, ⟨_, rfl, rfl, rfl, rfl⟩, ?_⟩
  · rintro a rfl h
    simp only [Value.size] at h
    exact ⟨a.get ⟨i, h⟩, List.get?_eq_get h, by simp [Value.at_index, List.get?_eq_get h]⟩
  · rintro m rfl h hord
    simp only [Value.size] at h
    have hget : m.get? i = some (m.get ⟨i, h⟩) := List.get?_eq_get h
    refine ⟨(m.get ⟨i, h⟩).1, (m.get ⟨i, h⟩).2, hget, ?_, ?_⟩
    · show Option.map Prod.snd (m.get? i) = some (m.get ⟨i, h⟩).2
      rw [hget]; rfl
    · apply count_less_sorted _ hord.2
      rw [List.get?_eq_getElem?, List.getElem?_map, ← List.get?_eq_getElem?, hget]
      rfl
  · intro h1 h2
    cases v with
    | array a => simp [Value.is_array] at h1
    | object m => simp [Value.is_object] at h2
    | _ => rfl

theorem at_index_positional_witness :
    ∃ k x, [(['a'], Value.integer 2), (['b'], Value.integer 1)].get? 1 = some (k, x) ∧
      (Value.object [(['a'], Value.integer 2), (['b'], Value.integer 1)]).at_index 1 = some x ∧
      (([(['a'], Value.integer 2), (['b'], Value.integer 1)].map Prod.fst).filter
        (fun k' => key_less k' k)).length = 1 :=
  (at_index_positional (Value.object [(['a'], Value.integer 2), (['b'], Value.integer 1)])
    1).2.2.1 _ rfl (by decide)
    (by simp [Ordered, OrderedMembers, key_less])

/-! ## White space after a key -/

theorem parse_key_spaces_run : ∀ (ws key rest : List Char),
    (∀ c ∈ ws, isspace c = true) →
    parse_key_spaces (ws ++ ':' :: rest) key = Outcome.done (key ++ ws, ':' :: rest) := by
  intro ws
  induction ws with
  | nil =>
    intro key rest _
    simp [parse_key_spaces, NUL]
  | cons c ws ih =>
    intro key rest h
    have hc := h c (List.mem_cons_self _ _)
    have h1 : c ≠ NUL := by rintro rfl; exact absurd hc (by decide)
    have h2 : c ≠ ':' := by rintro rfl; exact absurd hc (by decide)
    rw [List.cons_append, parse_key_spaces]
    simp [h1, h2, hc, ih (key ++ [c]) rest (fun d hd => h d (List.mem_cons_of_mem _ hd))]

theorem parse_key_spaced (k ws rest : List Char) (hk : BareIdentifier k)
    (hne : ws ≠ []) (hws : ∀ c ∈ ws, isspace c = true) :
    parse_key (k ++ (ws ++ ':' :: rest)) = Outcome.done (k ++ ws, ':' :: rest) := by
  cases k with
  | nil => exact absurd hk (by simp [BareIdentifier])
  | cons c cs =>
    obtain ⟨hc, hcs⟩ := hk
    have hc' : (isalpha c || c == '_' || c == '$') = true := by
      rcases hc with h | h | h <;> simp [h]
    obtain ⟨w, ws', rfl⟩ := List.exists_cons_of_ne_nil hne
    have hw := hws w (List.mem_cons_self _ _)
    have hw1 : isalpha w = false := by
      cases h : isalpha w
      · rfl
      · rw [not_isspace_of_isalpha h] at hw; exact absurd hw (by decide)
    have hw2 : isdigit w = false := by
      cases h : isdigit w
      · rfl
      · rw [not_isspace_of_isdigit h] at hw; exact absurd hw (by decide)
    have hw3 : w ≠ '_' := by rintro rfl; exact absurd hw (by decide)
    have hw4 : w ≠ ':' := by rintro rfl; exact absurd hw (by decide)
    have hrun := parse_key_ident_run cs [c] w (ws' ++ ':' :: rest) hcs
      (by simp [hw1, hw2, hw3])
    have hsp := parse_key_spaces_run (w :: ws') (c :: cs) rest hws
    simp only [List.cons_append] at hrun hsp ⊢
    simp [parse_key, hc', hrun, hw4, hsp]

/-- C21 (the code departs from it): `parse_key` returns `string_type { b, *p }` after its
second loop has moved the cursor over the white space in front of the `:`, so that white
space is part of the key.  For every bare identifier `k` followed by white space `ws` and
a `:`, the key returned is `k ++ ws`; `{ab : 1}` parses to an Object whose only key is
`ab` with a space at its end, which is no bare identifier, and the lookup of `ab` in it
fails. -/
theorem parse_key_keeps_white_space :
    (∀ (k ws rest : List Char), BareIdentifier k → ws ≠ [] →
        (∀ c ∈ ws, isspace c = true) →
        parse_key (k ++ (ws ++ ':' :: rest)) = Outcome.done (k ++ ws, ':' :: rest)) ∧
      parse_key ['a', 'b', ' ', ':', ' ', '1', '}', NUL] =
        Outcome.done (['a', 'b', ' '], [':', ' ', '1', '}', NUL]) ∧
      ¬ BareIdentifier ['a', 'b', ' '] ∧
      parse 20 ['{', 'a', 'b', ' ', ':', ' ', '1', '}'] =
        Outcome.done (Value.object [(['a', 'b', ' '], Value.integer 1)]) ∧
      (Value.object [(['a', 'b', ' '], Value.integer 1)]).at_key ['a', 'b'] =
        Access.out_of_range := by
  refine ⟨fun k ws rest hk hne hws => parse_key_spaced k ws rest hk hne hws, rfl, ?_, rfl, rfl⟩
  intro h
  have := h.2 ' ' (by simp)
  revert this
  decide

/-! ## Escaped quotes -/

theorem parse_string_scan_prefix (quote : Char) :
    ∀ (a tail res : List Char), tail ≠ [] →
      (∀ c ∈ a, c ≠ quote ∧ c ≠ '\\' ∧ c ≠ NUL) →
      parse_string_scan quote (a ++ tail) res = parse_string_scan quote tail (res ++ a) := by
  intro a
  induction a with
  | nil => intro tail res _ _; simp
  | cons c a ih =>
    intro tail res hne h
    obtain ⟨h1, h2, h3⟩ := h c (List.mem_cons_self _ _)
    have ih' := ih tail (res ++ [c]) hne (fun d hd => h d (List.mem_cons_of_mem _ hd))
    obtain ⟨d, r, hdr⟩ : ∃ d r, a ++ tail = d :: r := by
      cases a with
      | nil =>
        obtain ⟨d, r, e⟩ := List.exists_cons_of_ne_nil hne
        exact ⟨d, r, by simpa using e⟩
      | cons x xs => exact ⟨x, xs ++ tail, rfl⟩
    rw [List.cons_append, hdr, parse_string_scan]
    rw [hdr] at ih'
    simp [h1, h2, h3, is_escape, ih']

theorem parse_string_scan_escaped_quote (quote : Char)
    (rest res : List Char) :
    parse_string_scan quote ('\\' :: quote :: rest) res = parse_string_scan quote rest res := by
  rw [parse_string_scan]
  simp [NUL]

theorem parse_string_escaped_quote (q : Char) (hq : q ≠ NUL) (hb : q ≠ '\\')
    (a b rest : List Char) (v0 : Value)
    (ha : ∀ c ∈ a, c ≠ q ∧ c ≠ '\\' ∧ c ≠ NUL) (hb' : ∀ c ∈ b, c ≠ q ∧ c ≠ '\\' ∧ c ≠ NUL) :
    parse_string (q :: (a ++ '\\' :: q :: (b ++ q :: rest))) v0 =
      Outcome.done (rest, Value.string (a ++ b)) := by
  have h1 := parse_string_scan_prefix q a ('\\' :: q :: (b ++ q :: rest)) [] (by simp) ha
  rw [parse_string_scan_escaped_quote q, parse_string_scan_plain q hq hb b rest _ hb'] at h1
  simp [parse_string, h1]

/-- C22: in a string, a backslash followed at once by the closing quote character is
passed over as a unit of two characters that adds nothing to the result.  For the quote
`q` (double or single) and bodies `a`, `b` without `q`, backslash or NUL, `parse` of
`q a \ q b q` is the String `a ++ b`, and `parse_string` leaves the cursor after the last
quote: the string does not end at the escaped quote. -/
theorem parse_escaped_quote (q : Char) (hq : q = '"' ∨ q = '\'') (a b : List Char)
    (ha : ∀ c ∈ a, c ≠ q ∧ c ≠ '\\' ∧ c ≠ NUL) (hb : ∀ c ∈ b, c ≠ q ∧ c ≠ '\\' ∧ c ≠ NUL)
    (fuel : Nat) :
    parse (fuel + 1) (q :: (a ++ '\\' :: q :: (b ++ [q]))) =
        Outcome.done (Value.string (a ++ b)) ∧
      ∀ (rest : List Char) (v0 : Value),
        parse_string (q :: (a ++ '\\' :: q :: (b ++ q :: rest))) v0 =
          Outcome.done (rest, Value.string (a ++ b)) := by
  have hq1 : q ≠ NUL := by rcases hq with rfl | rfl <;> decide
  have hq2 : q ≠ '\\' := by rcases hq with rfl | rfl <;> decide
  refine ⟨?_, fun rest v0 => parse_string_escaped_quote q hq1 hq2 a b rest v0 ha hb⟩
  apply parse_eq_of_parse_value [NUL] (by simp)
  have e : q :: (a ++ '\\' :: q :: (b ++ [q])) ++ [NUL] =
      q :: (a ++ '\\' :: q :: (b ++ q :: [NUL])) := by simp
  have hs := parse_string_escaped_quote q hq1 hq2 a b [NUL] Value.null ha hb
  rw [e]
  rcases hq with rfl | rfl
  · simp [parse_value, skip_spaces_not_space, isspace, hs]
  · simp [parse_value, skip_spaces_not_space, isspace, hs]

theorem parse_escaped_quote_witness :
    parse 1 ('\'' :: (['a'] ++ '\\' :: '\'' :: (['b'] ++ ['\'']))) =
      Outcome.done (Value.string (['a'] ++ ['b'])) :=
  (parse_escaped_quote '\'' (Or.inr rfl) ['a'] ['b'] (by decide) (by decide) 0).1

/-! ## The conversion outside the guard of `parse_number` -/

/-- C23 (the code departs from it): in `parse_number` the conversion
`value = static_cast<int_type>(strtoll(start, &end, base))` stands after the guarded
scan, not inside it, so for a lookahead outside the accepted set the target value is
overwritten with Integer 0 though the cursor stays.  On text that starts with `No`, and
on `Inf` at the end of the text, `parse_number` stores Integer 0 and leaves the cursor;
`parse` of `Nope` and of `Inf` is Integer 0, not Null. -/
theorem parse_number_unaccepted_stores_zero :
    (∀ (t : List Char) (v0 : Value), parse_number ('N' :: 'o' :: t) v0 =
        Outcome.done ('N' :: 'o' :: t, Value.integer 0)) ∧
      (∀ (t : List Char) (v0 : Value), parse_number ('I' :: 'n' :: 'f' :: NUL :: t) v0 =
        Outcome.done ('I' :: 'n' :: 'f' :: NUL :: t, Value.integer 0)) ∧
      (∀ fuel, parse (fuel + 1) ['N', 'o', 'p', 'e'] = Outcome.done (Value.integer 0)) ∧
      (∀ fuel, parse (fuel + 1) ['I', 'n', 'f'] = Outcome.done (Value.integer 0)) :=
  ⟨fun _ _ => rfl, fun _ _ => rfl, fun _ => rfl, fun _ => rfl⟩

/-! ## The prefix test of the literals -/

theorem strncmp_eq_of_prefix : ∀ (lit t : List Char), NUL ∉ lit →
    strncmp_eq (lit ++ t) lit lit.length = Outcome.done true := by
  intro lit
  induction lit with
  | nil => intro t _; simp [strncmp_eq]
  | cons l lit ih =>
    intro t h
    simp only [List.mem_cons, not_or] at h
    have hl : l ≠ NUL := fun e => h.1 e.symm
    simp [strncmp_eq, hl, ih t h.2]

theorem strncmp_eq_of_not_prefix : ∀ (lit p : List Char), NUL ∉ lit → NUL ∈ p →
    (∀ t, p ≠ lit ++ t) → strncmp_eq p lit lit.length = Outcome.done false := by
  intro lit
  induction lit with
  | nil => intro p _ _ h; exact absurd rfl (h p)
  | cons l lit ih =>
    intro p hl hp h
    simp only [List.mem_cons, not_or] at hl
    cases p with
    | nil => exact absurd hp (by simp)
    | cons c p =>
      by_cases hc : c = l
      · subst hc
        have hc0 : c ≠ NUL := fun e => hl.1 e.symm
        have hp' : NUL ∈ p := by
          rcases List.mem_cons.mp hp with e | e
          · exact absurd e.symm hc0
          · exact e
        have h' : ∀ t, p ≠ lit ++ t := fun t e => h t (by rw [e]; rfl)
        simp [strncmp_eq, hc0, ih p hl.2 hp' h']
      · simp [strncmp_eq, hc]

theorem parse_boolean_other (p : List Char) (v0 : Value) (hp : NUL ∈ p)
    (h1 : ∀ t, p ≠ ['t', 'r', 'u', 'e'] ++ t) (h2 : ∀ t, p ≠ ['f', 'a', 'l', 's', 'e'] ++ t) :
    parse_boolean p v0 = Outcome.done (p, v0) := by
  have e1 := strncmp_eq_of_not_prefix ['t', 'r', 'u', 'e'] p (by decide) hp h1
  have e2 := strncmp_eq_of_not_prefix ['f', 'a', 'l', 's', 'e'] p (by decide) hp h2
  simp only [List.length_cons, List.length_nil] at e1 e2
  simp [parse_boolean, e1, e2]

theorem parse_null_other (p : List Char) (v0 : Value) (hp : NUL ∈ p)
    (h1 : ∀ t, p ≠ ['n', 'u', 'l', 'l'] ++ t) :
    parse_null p v0 = Outcome.done (p, v0) := by
  have e1 := strncmp_eq_of_not_prefix ['n', 'u', 'l', 'l'] p (by decide) hp h1
  simp only [List.length_cons, List.length_nil] at e1
  simp [parse_null, e1]

/-- C24: the Boolean and null literals are matched by exact prefix.  On text that starts
with `true`, `false` or `null`, whatever follows, `parse_boolean` and `parse_null` store
Boolean true, Boolean false or Null and move the cursor by exactly 4, 5 or 4 characters;
on a terminated buffer that starts with none of them (`tru`, `fals`, `nul` for instance)
they leave both the target value and the cursor as they were. -/
theorem parse_literal_exact_prefix :
    (∀ (rest : List Char) (v0 : Value),
        parse_boolean (['t', 'r', 'u', 'e'] ++ rest) v0 =
          Outcome.done ((['t', 'r', 'u', 'e'] ++ rest).drop 4, Value.boolean true) ∧
        (['t', 'r', 'u', 'e'] ++ rest).drop 4 = rest) ∧
      (∀ (rest : List Char) (v0 : Value),
        parse_boolean (['f', 'a', 'l', 's', 'e'] ++ rest) v0 =
          Outcome.done ((['f', 'a', 'l', 's', 'e'] ++ rest).drop 5, Value.boolean false) ∧
        (['f', 'a', 'l', 's', 'e'] ++ rest).drop 5 = rest) ∧
      (∀ (rest : List Char) (v0 : Value),
        parse_null (['n', 'u', 'l', 'l'] ++ rest) v0 =
          Outcome.done ((['n', 'u', 'l', 'l'] ++ rest).drop 4, Value.null) ∧
        (['n', 'u', 'l', 'l'] ++ rest).drop 4 = rest) ∧
      (∀ (p : List Char) (v0 : Value), NUL ∈ p →
        (∀ t, p ≠ ['t', 'r', 'u', 'e'] ++ t) → (∀ t, p ≠ ['f', 'a', 'l', 's', 'e'] ++ t) →
        parse_boolean p v0 = Outcome.done (p, v0)) ∧
      (∀ (p : List Char) (v0 : Value), NUL ∈ p →
        (∀ t, p ≠ ['n', 'u', 'l', 'l'] ++ t) →
        parse_null p v0 = Outcome.done (p, v0)) ∧
      (∀ v0, parse_boolean ['t', 'r', 'u', NUL] v0 = Outcome.done (['t', 'r', 'u', NUL], v0)) ∧
      (∀ v0, parse_boolean ['f', 'a', 'l', 's', NUL] v0 =
        Outcome.done (['f', 'a', 'l', 's', NUL], v0)) ∧
      (∀ v0, parse_null ['n', 'u', 'l', NUL] v0 = Outcome.done (['n', 'u', 'l', NUL], v0)) :=
  ⟨fun rest v0 => ⟨parse_boolean_true rest v0, rfl⟩,
    fun rest v0 => ⟨parse_boolean_false rest v0, rfl⟩,
    fun rest v0 => ⟨parse_null_lit rest v0, rfl⟩,
    fun p v0 hp h1 h2 => parse_boolean_other p v0 hp h1 h2,
    fun p v0 hp h1 => parse_null_other p v0 hp h1,
    fun _ => rfl, fun _ => rfl, fun _ => rfl⟩

/-! ## The known-escape branch of `parse_string` -/

theorem parse_string_scan_eq_no_escape (quote : Char) (hq : quote ≠ '\\') :
    ∀ (n : Nat) (e res : List Char), e.length ≤ n →
      parse_string_scan quote e res = parse_string_scan_no_escape quote e res := by
  intro n
  induction n with
  | zero =>
    intro e res h
    cases e with
    | nil => rfl
    | cons c t => simp at h
  | succ n ih =>
    intro e res h
    cases e with
    | nil => rfl
    | cons c t =>
      cases t with
      | nil =>
        rw [parse_string_scan, parse_string_scan_no_escape]
        rfl
      | cons d rest =>
        simp only [List.length_cons] at h
        rw [parse_string_scan, parse_string_scan_no_escape]
        have ih1 := ih rest res (by omega)
        have ih2 := ih (d :: rest) (res ++ [c]) (by simp only [List.length_cons]; omega)
        by_cases hc : c = '\\'
        · subst hc
          have hne : ('\\' == quote) = false := by
            simp only [beq_eq_false_iff_ne]; exact fun e => hq e.symm
          simp only [hne, ih1, ih2]
          split_ifs <;> first | rfl | contradiction
        · have hesc : is_escape (c :: d :: rest) = false := by
            simp [is_escape, hc]
          simp only [hesc, ih1, ih2]
          split_ifs <;> first | rfl | contradiction

theorem parse_string_eq_no_escape (q : Char) (hq : q ≠ '\\') (b : List Char) (v0 : Value) :
    parse_string (q :: b) v0 = parse_string_no_escape (q :: b) v0 := by
  simp only [parse_string, parse_string_no_escape,
    parse_string_scan_eq_no_escape q hq b.length b [] (le_refl _)]

theorem parse_string_scan_escape_step (quote l : Char) (hq : quote ≠ l)
    (hl : l = 'b' ∨ l = 'f' ∨ l = 'n' ∨ l = 'r' ∨ l = 't' ∨ l = 'v') (rest res : List Char) :
    parse_string_scan quote ('\\' :: l :: rest) res =
      parse_string_scan quote (l :: rest) (res ++ ['\\']) := by
  have hlq : (l == quote) = false := by
    simp only [beq_eq_false_iff_ne]; exact fun e => hq e.symm
  rw [parse_string_scan]
  rcases hl with rfl | rfl | rfl | rfl | rfl | rfl <;> simp [NUL, hlq, is_escape]

theorem parse_string_escape_verbatim (q l : Char) (hq : q = '"' ∨ q = '\'')
    (hl : l = 'b' ∨ l = 'f' ∨ l = 'n' ∨ l = 'r' ∨ l = 't' ∨ l = 'v')
    (a b rest : List Char) (v0 : Value)
    (ha : ∀ c ∈ a, c ≠ q ∧ c ≠ '\\' ∧ c ≠ NUL) (hb : ∀ c ∈ b, c ≠ q ∧ c ≠ '\\' ∧ c ≠ NUL) :
    parse_string (q :: (a ++ '\\' :: l :: (b ++ q :: rest))) v0 =
      Outcome.done (rest, Value.string (a ++ '\\' :: l :: b)) := by
  have hq1 : q ≠ NUL := by rcases hq with rfl | rfl <;> decide
  have hq2 : q ≠ '\\' := by rcases hq with rfl | rfl <;> decide
  have hql : q ≠ l := by
    rcases hq with rfl | rfl <;> rcases hl with rfl | rfl | rfl | rfl | rfl | rfl <;> decide
  have hlb : ∀ c ∈ l :: b, c ≠ q ∧ c ≠ '\\' ∧ c ≠ NUL := by
    intro c hc
    rcases List.mem_cons.mp hc with e | e
    · subst e
      refine ⟨fun e => hql e.symm, ?_, ?_⟩ <;>
        (rcases hl with rfl | rfl | rfl | rfl | rfl | rfl <;> decide)
    · exact hb c e
  have h1 := parse_string_scan_prefix q a ('\\' :: l :: (b ++ q :: rest)) [] (by simp) ha
  have h2 := parse_string_scan_plain q hq1 hq2 (l :: b) rest ([] ++ a ++ ['\\']) hlb
  rw [parse_string_scan_escape_step q l hql hl] at h1
  simp only [List.cons_append] at h2
  rw [h2] at h1
  simp [parse_string, h1]

theorem parse_value_string_dispatch (fuel : Nat) (q : Char) (hq : q = '"' ∨ q = '\'')
    (b : List Char) (v0 : Value) :
    parse_value (fuel + 1) (q :: b) v0 = parse_string (q :: b) v0 := by
  rcases hq with rfl | rfl
  · simp [parse_value, skip_spaces_not_space, isspace]
  · simp [parse_value, skip_spaces_not_space, isspace]

/-- C25: the known-escape branch of `parse_string` has no observable effect.  For every
buffer behind a quote that is not itself a backslash, `parse_string` returns the same
String and the same final cursor as the routine with the test `is_escape` removed; so
does `parse_value` on every string it hands over to `parse_string`, whose quote is double
or single; and in such a string a backslash followed by one of `b f n r t v` is copied as
it stands, as the two characters backslash and letter, with nothing decoded or dropped. -/
theorem parse_string_escape_branch_unobservable (q : Char) (hq : q ≠ '\\') :
    (∀ (b : List Char) (v0 : Value),
        parse_string (q :: b) v0 = parse_string_no_escape (q :: b) v0) ∧
      ((q = '"' ∨ q = '\'') → ∀ (fuel : Nat) (b : List Char) (v0 : Value),
        parse_value (fuel + 1) (q :: b) v0 = parse_string_no_escape (q :: b) v0) ∧
      ((q = '"' ∨ q = '\'') →
        ∀ (l : Char), (l = 'b' ∨ l = 'f' ∨ l = 'n' ∨ l = 'r' ∨ l = 't' ∨ l = 'v') →
        ∀ (a b rest : List Char) (v0 : Value),
          (∀ c ∈ a, c ≠ q ∧ c ≠ '\\' ∧ c ≠ NUL) → (∀ c ∈ b, c ≠ q ∧ c ≠ '\\' ∧ c ≠ NUL) →
          parse_string (q :: (a ++ '\\' :: l :: (b ++ q :: rest))) v0 =
            Outcome.done (rest, Value.string (a ++ '\\' :: l :: b))) :=
  ⟨fun b v0 => parse_string_eq_no_escape q hq b v0,
    fun hq' fuel b v0 =>
      (parse_value_string_dispatch fuel q hq' b v0).trans (parse_string_eq_no_escape q hq b v0),
    fun hq' l hl a b rest v0 ha hb => parse_string_escape_verbatim q l hq' hl a b rest v0 ha hb⟩

theorem parse_string_escape_branch_unobservable_witness :
    parse_string ('\'' :: ['a', '\\', 'n', 'b', '\'', NUL]) Value.null =
        parse_string_no_escape ('\'' :: ['a', '\\', 'n', 'b', '\'', NUL]) Value.null ∧
      parse_string ('\'' :: (['a'] ++ '\\' :: 'n' :: (['b'] ++ '\'' :: [NUL]))) Value.null =
        Outcome.done ([NUL], Value.string (['a'] ++ '\\' :: 'n' :: ['b'])) :=
  ⟨(parse_string_escape_branch_unobservable '\'' (by decide)).1 _ _,
    (parse_string_escape_branch_unobservable '\'' (by decide)).2.2 (Or.inr rfl) 'n'
      (by decide) ['a'] ['b'] [NUL] Value.null (by decide) (by decide)⟩

/-! ## Exponents without a radix point -/

theorem strtoll_digits_decimal : ∀ (ds : List Char) (acc : Nat),
    (∀ c ∈ ds, isdigit c = true) →
    strtoll_digits 10 ds acc = ds.foldl (fun acc c => acc * 10 + (c.toNat - 48)) acc := by
  intro ds
  induction ds with
  | nil => intro acc _; rfl
  | cons c ds ih =>
    intro acc h
    have hc := h c (List.mem_cons_self _ _)
    have hlt : c.toNat - 48 < 10 := by
      simp only [isdigit, decide_eq_true_eq] at hc
      omega
    simp only [strtoll_digits, digit_value, hc, if_true, hlt, List.foldl_cons]
    exact ih _ (fun d hd => h d (List.mem_cons_of_mem _ hd))

theorem strtoll_digits_decimal_value (ds : List Char) (h : ∀ c ∈ ds, isdigit c = true) :
    strtoll_digits 10 ds 0 = decimal_value ds :=
  strtoll_digits_decimal ds 0 h

theorem parse_value_exponent (fuel : Nat) (d e : List Char) (hd : d ≠ [])
    (hdd : ∀ c ∈ d, isdigit c = true) (hv : decimal_value d < 2 ^ 63)
    (hee : ∀ c ∈ e, isdigit c = true) (r0 : Char) (rest : List Char) (v0 : Value)
    (hstop : (isdigit r0 || isxdigit r0 || r0 == '.' || r0 == 'x') = false) :
    parse_value (fuel + 1) (d ++ 'e' :: (e ++ r0 :: rest)) v0 =
      Outcome.done (r0 :: rest, Value.integer (decimal_value d)) := by
  have hval := strtoll_unsigned d 'e' (e ++ r0 :: rest) hd hdd (by decide)
  rw [strtoll_digits_decimal_value d hdd, if_neg (by omega)] at hval
  obtain ⟨c, ds, rfl⟩ := List.exists_cons_of_ne_nil hd
  have hc := hdd c (List.mem_cons_self _ _)
  have hds : ∀ x ∈ ds, isdigit x = true := fun x hx => hdd x (List.mem_cons_of_mem _ hx)
  have htok : ∀ x ∈ ds ++ 'e' :: e, (isdigit x || isxdigit x || x == '.' || x == 'x') = true := by
    intro x hx
    rcases List.mem_append.mp hx with h | h
    · simp [hds x h]
    · rcases List.mem_cons.mp h with h | h
      · subst h; decide
      · simp [hee x h]
  have hscan := parse_number_scan_token (ds ++ 'e' :: e) c r0 rest false 10 htok hstop
  have hdot_e : e.any (fun x => x == '.') = false := any_dot_of_digits e hee
  have hx_e : e.any (fun x => x == 'x' || x == 'X') = false := any_x_of_digits e hee
  have hdot : (c :: (ds ++ 'e' :: e)).any (fun x => x == '.') = false := by
    have h1 : (c == '.') = false := by
      simp only [beq_eq_false_iff_ne]; rintro rfl; exact absurd hc (by decide)
    simp [List.any_cons, List.any_append, h1, any_dot_of_digits ds hds, hdot_e]
  have hx : (c :: (ds ++ 'e' :: e)).any (fun x => x == 'x' || x == 'X') = false := by
    have h1 : (c == 'x' || c == 'X') = false := by
      simp only [Bool.or_eq_false_iff, beq_eq_false_iff_ne]
      constructor <;> (rintro rfl; exact absurd hc (by decide))
    simp [List.any_cons, List.any_append, h1, any_x_of_digits ds hds, hx_e]
  rw [hdot, hx] at hscan
  simp only [Bool.false_or, Bool.false_eq_true, if_false] at hscan
  have e1 : (c :: ds) ++ 'e' :: (e ++ r0 :: rest) = c :: ((ds ++ 'e' :: e) ++ r0 :: rest) := by
    simp
  rw [e1] at hval ⊢
  obtain ⟨c1, t, ht⟩ : ∃ c1 t, (ds ++ 'e' :: e) ++ r0 :: rest = c1 :: t := by
    cases ds with
    | nil => exact ⟨'e', e ++ r0 :: rest, by simp⟩
    | cons x xs => exact ⟨x, (xs ++ 'e' :: e) ++ r0 :: rest, rfl⟩
  rw [ht] at hval hscan ⊢
  rw [parse_value_number fuel _ _ _ (Or.inl hc),
    parse_number_token c c1 t v0 (by rintro rfl; exact absurd hc (by decide))
      (by rintro rfl; exact absurd hc (by decide))
      (fun h => by rcases h with rfl | rfl <;> exact absurd hc (by decide))
      (by simp [hc]) _ _ _ hscan, hval]
  simp

theorem array_loop_close_eq (fuel : Nat) (rest : List Char) (arr : List Value) :
    parse_array_loop (fuel + 1) (']' :: rest) arr = Outcome.done (rest, arr) := by
  simp [parse_array_loop, skip_spaces_not_space, isspace]

theorem array_loop_element_eq (fuel : Nat) {c : Char} {t p' : List Char} {v : Value}
    {arr : List Value} {r : List Char × List Value}
    (hsp : isspace c = false) (h1 : c ≠ ',') (h2 : c ≠ ']')
    (hv : parse_value fuel (c :: t) Value.null = Outcome.done (p', v))
    (hl : parse_array_loop fuel p' (arr ++ [v]) = Outcome.done r) :
    parse_array_loop (fuel + 1) (c :: t) arr = Outcome.done r := by
  simp [parse_array_loop, skip_spaces_not_space _ hsp, h1, h2, hv, hl]

theorem parse_value_array_eq (fuel : Nat) {p rest : List Char} {arr : List Value} (v0 : Value)
    (h : parse_array_loop fuel p [] = Outcome.done (rest, arr)) :
    parse_value (fuel + 2) ('[' :: p) v0 = Outcome.done (rest, Value.array arr) := by
  have h1 : parse_array (fuel + 1) ('[' :: p) v0 = Outcome.done (rest, Value.array arr) := by
    simp [parse_array, h]
  have h2 : parse_value (fuel + 1 + 1) ('[' :: p) v0 = parse_array (fuel + 1) ('[' :: p) v0 := by
    simp [parse_value, skip_spaces_not_space, isspace]
  exact h2.trans h1

/-- C26: an exponent is read as part of the token and ignored when the token has no radix
point.  For every non-empty string `d` of decimal digits with value below `2 ^ 63` and
every string `e` of decimal digits (empty or not), `parse` of `d`, the letter `e` and `e`
is the Integer with the value of `d` alone, `parse_value` leaves the cursor after the
whole token, and inside an array the token is one element.  `1e5` gives Integer 1. -/
theorem parse_exponent_ignored (d e : List Char) (hd : d ≠ [])
    (hdd : ∀ c ∈ d, isdigit c = true) (hv : decimal_value d < 2 ^ 63)
    (hee : ∀ c ∈ e, isdigit c = true) (fuel : Nat) :
    parse (fuel + 1) (d ++ 'e' :: e) = Outcome.done (Value.integer (decimal_value d)) ∧
      (∀ (rest : List Char) (v0 : Value),
        parse_value (fuel + 1) (d ++ 'e' :: (e ++ ']' :: rest)) v0 =
          Outcome.done (']' :: rest, Value.integer (decimal_value d))) ∧
      parse (fuel + 4) ('[' :: (d ++ 'e' :: (e ++ [']']))) =
        Outcome.done (Value.array [Value.integer (decimal_value d)]) := by
  obtain ⟨c, ds, hcd⟩ := List.exists_cons_of_ne_nil hd
  have hc : isdigit c = true := hdd c (by rw [hcd]; exact List.mem_cons_self _ _)
  have hsp := not_isspace_of_isdigit hc
  have h1 : c ≠ ',' := by rintro rfl; exact absurd hc (by decide)
  have h2 : c ≠ ']' := by rintro rfl; exact absurd hc (by decide)
  refine ⟨?_, fun rest v0 =>
    parse_value_exponent fuel d e hd hdd hv hee ']' rest v0 (by decide), ?_⟩
  · apply parse_eq_of_parse_value [NUL] (by simp)
    have e1 : d ++ 'e' :: e ++ [NUL] = d ++ 'e' :: (e ++ NUL :: []) := by simp
    rw [e1]
    exact parse_value_exponent fuel d e hd hdd hv hee NUL [] Value.null (by decide)
  · apply parse_eq_of_parse_value [NUL] (by simp)
    have hel := parse_value_exponent fuel d e hd hdd hv hee ']' [NUL] Value.null (by decide)
    have e1 : '[' :: (d ++ 'e' :: (e ++ [']'])) ++ [NUL] =
        '[' :: (c :: (ds ++ 'e' :: (e ++ ']' :: [NUL]))) := by
      rw [hcd]; simp
    have e2 : d ++ 'e' :: (e ++ ']' :: [NUL]) = c :: (ds ++ 'e' :: (e ++ ']' :: [NUL])) := by
      rw [hcd]; simp
    rw [e2] at hel
    rw [e1]
    exact parse_value_array_eq (fuel + 2) Value.null
      (array_loop_element_eq (fuel + 1) hsp h1 h2 hel
        (array_loop_close_eq fuel [NUL] ([] ++ [Value.integer (decimal_value d)])))

theorem parse_exponent_ignored_witness :
    parse 1 (['1'] ++ 'e' :: ['5']) = Outcome.done (Value.integer (decimal_value ['1'])) ∧
      decimal_value ['1'] = 1 ∧
      parse 4 ('[' :: (['1'] ++ 'e' :: (['5'] ++ [']']))) =
        Outcome.done (Value.array [Value.integer (decimal_value ['1'])]) :=
  ⟨(parse_exponent_ignored ['1'] ['5'] (by decide) (by decide) (by decide) (by decide)
      0).1, by decide,
    (parse_exponent_ignored ['1'] ['5'] (by decide) (by decide) (by decide) (by decide)
      0).2.2⟩

end json5
